import Mathlib

/-!
# Traffic-Management-System: verification of the simulation core

Shallow embedding of the C++ sources (`src/traffic_network.cpp`,
`src/traffic_validator.cpp`, `src/data_structures.cpp`, `include/types.h`)
of the Xhadou/Traffic-Management-System repository, together with proofs
about the admission controller, router, validator and single-threaded
scheduler.

Modelling conventions:
* C++ `int` counters and capacities become `Int` (occupancy, capacity) or
  `Nat` (statistics counters, which are only ever incremented); no value in
  any claim approaches the 32-bit range, so wraparound is immaterial.
* node indices are `Nat`; the C++ sentinel `-1` returned by
  `find_best_next_hop` is modelled as `Option.none`.
* `std::chrono` time points are modelled as `Nat` tick counts (only their
  ordering is ever used, via `operator<`).
* `std::queue` is a `List` (front = head, push appends at the tail);
  `std::priority_queue` is modelled as a list kept sorted with the maximal
  element (w.r.t. `Vehicle::operator<`) first; `top`/`pop` act on the head.
  For the strict comparisons appearing in the claims this has the same
  observable dispatch order as any binary-heap implementation.
* the worklist loops (validator DFS/BFS, router BFS) are written with an
  explicit fuel argument so that every definition is executable by the
  kernel; callers pass `2 * n + 1` fuel, which is proved sufficient.
* reads of `vector` cells use `getD` with a default that makes an
  out-of-range access a no-op (the C++ code never performs such an access
  on the inputs the claims quantify over).
-/

set_option linter.unusedVariables false

namespace Traffic

/-- `VehicleType` from `include/types.h` (REGULAR = 0, FIRE_TRUCK = 1,
AMBULANCE = 2). -/
inductive VehicleType where
  | REGULAR
  | FIRE_TRUCK
  | AMBULANCE
deriving DecidableEq, Repr, Inhabited

/-- The integer value of the `VehicleType` enum (`static_cast<int>`). -/
def VehicleType.toInt : VehicleType → Nat
  | .REGULAR => 0
  | .FIRE_TRUCK => 1
  | .AMBULANCE => 2

/-- `Vehicle` from `data_structures.h`.  `arrival_time` is a tick count;
the display-only fields (`start_time`, `path`) are omitted. -/
structure Vehicle where
  vehicle_id : Nat
  type : VehicleType
  source_node : Nat
  destination_node : Nat
  current_node : Nat
  arrival_time : Nat
  blocked_attempts : Nat := 0
deriving DecidableEq, Repr, Inhabited

/-- `Vehicle::operator<` from `data_structures.cpp`: compare the enum value
when the types differ, otherwise a vehicle is smaller when it arrived
later (so the priority queue's top is the earliest arrival of the highest
class). -/
def vehLt (a b : Vehicle) : Bool :=
  if a.type ≠ b.type then
    decide (a.type.toInt < b.type.toInt)
  else
    decide (b.arrival_time < a.arrival_time)

/-- Model of `std::priority_queue<Vehicle>::push`: insert into a list kept
sorted with the maximal element (w.r.t. `vehLt`) at the head. -/
def pqPush (v : Vehicle) : List Vehicle → List Vehicle
  | [] => [v]
  | h :: t => if vehLt v h then h :: pqPush v t else v :: h :: t

/-- `NodeData` from `data_structures.h`.  Display-only fields (`node_char`,
`type`, `last_token_time`) are omitted; `emergency_queue` is the sorted-list
model of the `std::priority_queue`. -/
structure NodeData where
  node_id : Nat
  capacity : Int
  current_vehicles : Int := 0
  waiting_queue : List Vehicle := []
  emergency_queue : List Vehicle := []
  adjacent_nodes : List Nat := []
deriving DecidableEq, Repr, Inhabited

/-- `NodeData::get_queue_size`. -/
def get_queue_size (nd : NodeData) : Nat :=
  nd.waiting_queue.length + nd.emergency_queue.length

/-- `NodeData::has_emergency_vehicles`. -/
def has_emergency_vehicles (nd : NodeData) : Bool :=
  !nd.emergency_queue.isEmpty

/-- The statistics counters of `SystemStats` that the engine mutates
(timing accumulators and `step_count` are not touched by the functions
modelled here). -/
structure SystemStats where
  total_vehicles_processed : Nat := 0
  emergency_vehicles_processed : Nat := 0
  successful_routes : Nat := 0
  rerouting_attempts : Nat := 0
  total_moves : Nat := 0
deriving DecidableEq, Repr, Inhabited

/-- The shared state of `TrafficNetwork`: the node vector and the
statistics block. -/
structure NetState where
  nodes : List NodeData
  stats : SystemStats
deriving DecidableEq, Repr, Inhabited

/-- `nodes[i]` (out-of-range reads never happen on the guarded paths). -/
def getNode (s : NetState) (i : Nat) : NodeData := s.nodes.getD i default

/-- Write `nodes[i]` (no-op when out of range, matching the guards in the
source). -/
def setNode (s : NetState) (i : Nat) (nd : NodeData) : NetState :=
  { s with nodes := s.nodes.set i nd }

/-- In-place mutation of `nodes[i]`. -/
def modifyNode (s : NetState) (i : Nat) (f : NodeData → NodeData) : NetState :=
  setNode s i (f (getNode s i))

/-- `TrafficNetwork::can_move_to_node_safe` (traffic_network.cpp:888-897):
bounds check, then occupancy strictly below capacity, with a +1 allowance
for non-Regular vehicles. -/
def can_move_to_node_safe (nodes : List NodeData) (node_idx : Nat)
    (vehicle_type : VehicleType) : Bool :=
  if node_idx ≥ nodes.length then false
  else
    let nd := nodes.getD node_idx default
    let max_allowed : Int :=
      nd.capacity + (if vehicle_type ≠ VehicleType.REGULAR then 1 else 0)
    decide (nd.current_vehicles < max_allowed)

/-- The adjacency list of node `i` (`nodes[i].adjacent_nodes`). -/
def adjOf (nodes : List NodeData) (i : Nat) : List Nat :=
  (nodes.getD i default).adjacent_nodes

/-- The inner neighbour scan of the BFS in `find_best_next_hop`
(traffic_network.cpp:876-882): mark unvisited neighbours, record their
parent, and append them to the queue, in adjacency-list order. -/
def bfsScan (curr : Nat) : List Nat → List Bool → List (Option Nat) → List Nat →
    List Bool × List (Option Nat) × List Nat
  | [], visited, parent, qu => (visited, parent, qu)
  | nb :: rest, visited, parent, qu =>
    if visited.getD nb true then bfsScan curr rest visited parent qu
    else bfsScan curr rest (visited.set nb true) (parent.set nb (some curr)) (qu ++ [nb])

/-- The parent walk of `find_best_next_hop` (traffic_network.cpp:869-873):
follow parents from `destination` until the parent is `from_node` (or the
chain ends), returning the last node reached.  The fuel bounds the chain
length; `nodes.length` is always sufficient for BFS-produced parents. -/
def walkParents (parent : List (Option Nat)) (from_node : Nat) :
    Nat → Nat → Nat
  | 0, next => next
  | fuel + 1, next =>
    match parent.getD next none with
    | none => next
    | some u => if u = from_node then next else walkParents parent from_node fuel u

/-- The BFS loop of `find_best_next_hop` (traffic_network.cpp:864-883):
pop the queue head; if it is the destination, walk the parent pointers
back to the hop after `from_node`; otherwise scan its neighbours.  Returns
`none` when the queue is exhausted (destination unreachable). -/
def bfsLoop (nodes : List NodeData) (from_node destination : Nat) :
    Nat → List Bool → List (Option Nat) → List Nat → Option Nat
  | 0, _, _, _ => none
  | fuel + 1, visited, parent, qu =>
    match qu with
    | [] => none
    | curr :: rest =>
      if curr = destination then
        some (walkParents parent from_node nodes.length destination)
      else
        match bfsScan curr (adjOf nodes curr) visited parent rest with
        | (v', p', q') => bfsLoop nodes from_node destination fuel v' p' q'

/-- `TrafficNetwork::find_best_next_hop` (traffic_network.cpp:848-886).
The C++ sentinel `-1` (NoPath) is `none`.  Policy: bounds check; NoPath when
the adjacency list is empty; greedy shortcut when the destination is a
direct neighbour; otherwise BFS with parent reconstruction; falling back to
the first adjacent node when BFS exhausts. -/
def find_best_next_hop (nodes : List NodeData) (from_node destination : Nat) :
    Option Nat :=
  if from_node ≥ nodes.length then none
  else
    let adjacent := adjOf nodes from_node
    if adjacent.isEmpty then none
    else if destination ∈ adjacent then some destination
    else
      match bfsLoop nodes from_node destination (2 * nodes.length + 1)
          ((List.replicate nodes.length false).set from_node true)
          (List.replicate nodes.length none) [from_node] with
      | some nxt => some nxt
      | none => some (adjacent.headD 0)

/-- `TrafficNetwork::return_vehicle_to_queue` (traffic_network.cpp:840-846):
push the vehicle back into the emergency or regular queue of its node.
Note the C++ push copies the vehicle by value. -/
def return_vehicle_to_queue (s : NetState) (vehicle : Vehicle) (node_idx : Nat)
    (is_emergency : Bool) : NetState :=
  if is_emergency then
    modifyNode s node_idx
      (fun nd => { nd with emergency_queue := pqPush vehicle nd.emergency_queue })
  else
    modifyNode s node_idx
      (fun nd => { nd with waiting_queue := nd.waiting_queue ++ [vehicle] })

/-- `TrafficNetwork::perform_vehicle_move_with_display`
(traffic_network.cpp:227-279), stripped of console output: guarded source
decrement, `total_moves` increment, then either completion accounting
(NO destination-occupancy increment) or occupancy increment plus enqueue
into the class-matching queue of the target node. -/
def perform_vehicle_move_with_display (s : NetState) (vehicle : Vehicle)
    (from_node to_node : Nat) : NetState :=
  let s1 :=
    if (getNode s from_node).current_vehicles > 0 then
      modifyNode s from_node
        (fun nd => { nd with current_vehicles := nd.current_vehicles - 1 })
    else s
  let vehicle' := { vehicle with current_node := to_node }
  let s2 := { s1 with stats := { s1.stats with total_moves := s1.stats.total_moves + 1 } }
  if to_node = vehicle.destination_node then
    if vehicle.type = VehicleType.REGULAR then
      { s2 with stats := { s2.stats with
          total_vehicles_processed := s2.stats.total_vehicles_processed + 1,
          successful_routes := s2.stats.successful_routes + 1 } }
    else
      { s2 with stats := { s2.stats with
          emergency_vehicles_processed := s2.stats.emergency_vehicles_processed + 1,
          successful_routes := s2.stats.successful_routes + 1 } }
  else
    let s3 := modifyNode s2 to_node
      (fun nd => { nd with current_vehicles := nd.current_vehicles + 1 })
    if vehicle.type = VehicleType.REGULAR then
      modifyNode s3 to_node
        (fun nd => { nd with waiting_queue := nd.waiting_queue ++ [vehicle'] })
    else
      modifyNode s3 to_node
        (fun nd => { nd with emergency_queue := pqPush vehicle' nd.emergency_queue })

/-- `TrafficNetwork::process_vehicle_step_by_step`
(traffic_network.cpp:195-225): route, then admission check, then move or
requeue.  The source's `vehicle.blocked_attempts++` in the blocked branch
mutates the local copy AFTER `return_vehicle_to_queue` has already copied
the vehicle into the queue, so it has no effect on the stored vehicle and
is not reflected in the state. -/
def process_vehicle_step_by_step (s : NetState) (vehicle : Vehicle)
    (from_node : Nat) (is_emergency : Bool) : NetState × Bool :=
  match find_best_next_hop s.nodes from_node vehicle.destination_node with
  | none => (return_vehicle_to_queue s vehicle from_node is_emergency, false)
  | some next_node =>
    if can_move_to_node_safe s.nodes next_node vehicle.type then
      (perform_vehicle_move_with_display s vehicle from_node next_node, true)
    else
      (return_vehicle_to_queue s vehicle from_node is_emergency, false)

/-- `TrafficNetwork::process_single_vehicle_movement`
(traffic_network.cpp:171-193): bounds check, then extract the top of the
emergency queue if non-empty, else the front of the waiting queue, and
process it. -/
def process_single_vehicle_movement (s : NetState) (node_idx : Nat) :
    NetState × Bool :=
  if node_idx ≥ s.nodes.length then (s, false)
  else
    match (getNode s node_idx).emergency_queue with
    | v :: rest =>
      process_vehicle_step_by_step
        (setNode s node_idx { getNode s node_idx with emergency_queue := rest })
        v node_idx true
    | [] =>
      match (getNode s node_idx).waiting_queue with
      | v :: rest =>
        process_vehicle_step_by_step
          (setNode s node_idx { getNode s node_idx with waiting_queue := rest })
          v node_idx false
      | [] => (s, false)

/-- The scan of `TrafficNetwork::execute_single_step` over the remaining
node indices: the loop keeps going past nodes whose movement attempt
fails (`!movement_occurred` loop condition) and stops after the first
successful movement. -/
def exec_step_from : NetState → List Nat → NetState × Bool
  | s, [] => (s, false)
  | s, i :: rest =>
    if get_queue_size (getNode s i) > 0 then
      match process_single_vehicle_movement s i with
      | (s', true) => (s', true)
      | (s', false) => exec_step_from s' rest
    else exec_step_from s rest

/-- `TrafficNetwork::execute_single_step` (traffic_network.cpp:158-169). -/
def execute_single_step (s : NetState) : NetState × Bool :=
  exec_step_from s (List.range s.nodes.length)

/-- `exec_step_from` instrumented with the list of node indices from which
a vehicle was actually extracted (same recursion, used to state which
nodes an invocation serves). -/
def exec_step_trace : NetState → List Nat → NetState × Bool × List Nat
  | s, [] => (s, false, [])
  | s, i :: rest =>
    if get_queue_size (getNode s i) > 0 then
      match process_single_vehicle_movement s i with
      | (s', true) => (s', true, [i])
      | (s', false) =>
        match exec_step_trace s' rest with
        | (s'', b, tr) => (s'', b, i :: tr)
    else exec_step_trace s rest

/-- `TrafficNetwork::attempt_rerouting` (traffic_network.cpp:950-954):
increment the rerouting statistic and reset the (local) vehicle's blocked
counter. -/
def attempt_rerouting (s : NetState) (vehicle : Vehicle) : NetState × Vehicle :=
  ({ s with stats := { s.stats with rerouting_attempts := s.stats.rerouting_attempts + 1 } },
   { vehicle with blocked_attempts := 0 })

/-- `TrafficNetwork::perform_vehicle_move` (traffic_network.cpp:899-948),
the continuous-mode variant: guarded source decrement, `total_moves`
increment, completion accounting without occupancy increment, otherwise a
re-checked admission with enqueue, or return-to-source.  As everywhere,
the trailing `vehicle.blocked_attempts++` of the source acts on a local
copy and is lost. -/
def perform_vehicle_move (s : NetState) (vehicle : Vehicle)
    (from_node to_node : Nat) : NetState :=
  let s1 :=
    if (getNode s from_node).current_vehicles > 0 then
      modifyNode s from_node
        (fun nd => { nd with current_vehicles := nd.current_vehicles - 1 })
    else s
  let vehicle' := { vehicle with current_node := to_node }
  let s2 := { s1 with stats := { s1.stats with total_moves := s1.stats.total_moves + 1 } }
  if to_node = vehicle.destination_node then
    if vehicle.type = VehicleType.REGULAR then
      { s2 with stats := { s2.stats with
          total_vehicles_processed := s2.stats.total_vehicles_processed + 1,
          successful_routes := s2.stats.successful_routes + 1 } }
    else
      { s2 with stats := { s2.stats with
          emergency_vehicles_processed := s2.stats.emergency_vehicles_processed + 1,
          successful_routes := s2.stats.successful_routes + 1 } }
  else
    let max_capacity : Int := (getNode s2 to_node).capacity +
      (if vehicle.type ≠ VehicleType.REGULAR then 1 else 0)
    if (getNode s2 to_node).current_vehicles < max_capacity then
      let s3 := modifyNode s2 to_node
        (fun nd => { nd with current_vehicles := nd.current_vehicles + 1 })
      if vehicle.type = VehicleType.REGULAR then
        modifyNode s3 to_node
          (fun nd => { nd with waiting_queue := nd.waiting_queue ++ [vehicle'] })
      else
        modifyNode s3 to_node
          (fun nd => { nd with emergency_queue := pqPush vehicle' nd.emergency_queue })
    else
      let s3 := modifyNode s2 from_node
        (fun nd => { nd with current_vehicles := nd.current_vehicles + 1 })
      return_vehicle_to_queue s3 vehicle' from_node
        (vehicle.type ≠ VehicleType.REGULAR)

/-- `TrafficNetwork::process_vehicle` (traffic_network.cpp:788-804), the
continuous-mode processing of one extracted vehicle.  In the blocked
branch the source requeues the vehicle FIRST (copying it) and only then
increments `blocked_attempts` on the local copy; the rerouting threshold
is checked against that local value. -/
def process_vehicle (s : NetState) (vehicle : Vehicle) (from_node : Nat)
    (is_emergency : Bool) : NetState :=
  match find_best_next_hop s.nodes from_node vehicle.destination_node with
  | none => return_vehicle_to_queue s vehicle from_node is_emergency
  | some next_node =>
    if can_move_to_node_safe s.nodes next_node vehicle.type then
      perform_vehicle_move s vehicle from_node next_node
    else
      let s1 := return_vehicle_to_queue s vehicle from_node is_emergency
      let vehicle1 := { vehicle with blocked_attempts := vehicle.blocked_attempts + 1 }
      if vehicle1.blocked_attempts > 5 then (attempt_rerouting s1 vehicle1).1 else s1

/-- `TrafficNetwork::process_node_vehicles` (traffic_network.cpp:769-786):
extract the top emergency vehicle (else the front regular vehicle) of the
node and process it in continuous mode. -/
def process_node_vehicles (s : NetState) (node_idx : Nat) : NetState :=
  if node_idx ≥ s.nodes.length then s
  else
    match (getNode s node_idx).emergency_queue with
    | v :: rest =>
      process_vehicle
        (setNode s node_idx { getNode s node_idx with emergency_queue := rest })
        v node_idx true
    | [] =>
      match (getNode s node_idx).waiting_queue with
      | v :: rest =>
        process_vehicle
          (setNode s node_idx { getNode s node_idx with waiting_queue := rest })
          v node_idx false
      | [] => s

/-- The extraction half of `process_single_vehicle_movement`: which vehicle
a node dispatches next, and the node state after removing it. -/
def extract_one (nd : NodeData) : Option (Vehicle × NodeData) :=
  match nd.emergency_queue with
  | v :: rest => some (v, { nd with emergency_queue := rest })
  | [] =>
    match nd.waiting_queue with
    | v :: rest => some (v, { nd with waiting_queue := rest })
    | [] => none

/-- The sequence of the next `k` vehicles a node dispatches. -/
def extract_list : Nat → NodeData → List Vehicle
  | 0, _ => []
  | k + 1, nd =>
    match extract_one nd with
    | none => []
    | some (v, nd') => v :: extract_list k nd'

/-- Enqueue a vehicle at a node by its class, exactly as the engine does on
admission (emergency vehicles into the priority queue, regular vehicles at
the back of the FIFO queue). -/
def enqueue_vehicle (nd : NodeData) (v : Vehicle) : NodeData :=
  if v.type = VehicleType.REGULAR then
    { nd with waiting_queue := nd.waiting_queue ++ [v] }
  else
    { nd with emergency_queue := pqPush v nd.emergency_queue }

/-- Sum of `current_vehicles` over all nodes. -/
def sumOcc (s : NetState) : Int :=
  (s.nodes.map (fun nd => nd.current_vehicles)).sum

/-- Total completed trips recorded in the statistics
(`total_vehicles_processed + emergency_vehicles_processed`). -/
def completedCount (s : NetState) : Nat :=
  s.stats.total_vehicles_processed + s.stats.emergency_vehicles_processed

/-- `adj_matrix[i][j]`, with absent entries read as `0` (no edge). -/
def matEntry (adj : List (List Int)) (i j : Nat) : Int :=
  (adj.getD i []).getD j 0

/-- The row scan of the DFS in `TrafficValidator::is_graph_connected`
(traffic_validator.cpp:38-44): over column indices `is`, push every
unvisited directed successor onto the stack, marking and counting it. -/
def connScan (adj : List (List Int)) (curr : Nat) :
    List Nat → List Bool → List Nat → Nat → List Bool × List Nat × Nat
  | [], visited, st, count => (visited, st, count)
  | i :: is, visited, st, count =>
    if matEntry adj curr i > 0 ∧ ¬(visited.getD i true) then
      connScan adj curr is (visited.set i true) (i :: st) (count + 1)
    else
      connScan adj curr is visited st count

/-- The stack loop of `TrafficValidator::is_graph_connected`
(traffic_validator.cpp:34-45).  Returns the final visit count and visited
vector; the fuel (2n+1 at the call site) is proved sufficient. -/
def connLoop (adj : List (List Int)) (n : Nat) :
    Nat → List Bool → List Nat → Nat → Nat × List Bool
  | 0, visited, _, count => (count, visited)
  | fuel + 1, visited, st, count =>
    match st with
    | [] => (count, visited)
    | curr :: rest =>
      match connScan adj curr (List.range n) visited rest count with
      | (v', st', c') => connLoop adj n fuel v' st' c'

/-- `TrafficValidator::is_graph_connected` (traffic_validator.cpp:24-47):
DFS from node 0 along DIRECTED edges (`adj_matrix[curr][i] > 0`), true iff
the visit count reaches `n`.  An empty matrix is not connected. -/
def is_graph_connected (adj : List (List Int)) : Bool :=
  let n := adj.length
  if n = 0 then false
  else
    decide ((connLoop adj n (2 * n + 1) ((List.replicate n false).set 0 true) [0] 1).1 = n)

/-- The row scan of the BFS in `TrafficValidator::is_path_exists`
(traffic_validator.cpp:73-79): returns `true` the moment the destination
shows up as an unvisited successor, otherwise marks and enqueues. -/
def pathScan (adj : List (List Int)) (curr dest : Nat) :
    List Nat → List Bool → List Nat → Bool × List Bool × List Nat
  | [], visited, qu => (false, visited, qu)
  | i :: is, visited, qu =>
    if matEntry adj curr i > 0 ∧ ¬(visited.getD i true) then
      if i = dest then (true, visited, qu)
      else pathScan adj curr dest is (visited.set i true) (qu ++ [i])
    else
      pathScan adj curr dest is visited qu

/-- The queue loop of `TrafficValidator::is_path_exists`
(traffic_validator.cpp:69-80). -/
def pathLoop (adj : List (List Int)) (dest n : Nat) :
    Nat → List Bool → List Nat → Bool
  | 0, _, _ => false
  | fuel + 1, visited, qu =>
    match qu with
    | [] => false
    | curr :: rest =>
      match pathScan adj curr dest (List.range n) visited rest with
      | (true, _, _) => true
      | (false, v', q') => pathLoop adj dest n fuel v' q'

/-- `TrafficValidator::is_path_exists` (traffic_validator.cpp:59-82):
false on out-of-range endpoints, true when `src = dest`, otherwise a BFS
along directed edges with an early positive exit. -/
def is_path_exists (adj : List (List Int)) (src dest : Nat) : Bool :=
  let n := adj.length
  if src ≥ n ∨ dest ≥ n then false
  else if src = dest then true
  else pathLoop adj dest n (2 * n + 1) ((List.replicate n false).set src true) [src]

/-- `TrafficValidator::are_destinations_reachable`
(traffic_validator.cpp:49-57).  The `unordered_map` is modelled as a list
of (source, destination) pairs; iteration order does not affect the
result. -/
def are_destinations_reachable (adj : List (List Int)) :
    List (Nat × Nat) → Bool
  | [] => true
  | (s, d) :: rest =>
    if is_path_exists adj s d then are_destinations_reachable adj rest else false

/-- The capacity loop of `TrafficValidator::validate_input`
(traffic_validator.cpp:16-20): false at the first `capacity <= 0`. -/
def capacities_positive : List NodeData → Bool
  | [] => true
  | nd :: rest => if nd.capacity ≤ 0 then false else capacities_positive rest

/-- `InputValidationResult` from `include/types.h`. -/
inductive InputValidationResult where
  | INPUT_VALID
  | INVALID_ADJACENCY_MATRIX
  | UNREACHABLE_DESTINATION
  | INVALID_CAPACITY
  | INVALID_TRAFFIC_CONTROLLER
  | DISCONNECTED_GRAPH
deriving DecidableEq, Repr, Inhabited

/-- `TrafficValidator::validate_input` (traffic_validator.cpp:7-22):
connectivity, then destination reachability, then capacities, returning
the first failing check's code. -/
def validate_input (adj : List (List Int)) (nodes : List NodeData)
    (destinations : List (Nat × Nat)) : InputValidationResult :=
  if ¬ is_graph_connected adj then .DISCONNECTED_GRAPH
  else if ¬ are_destinations_reachable adj destinations then .UNREACHABLE_DESTINATION
  else if ¬ capacities_positive nodes then .INVALID_CAPACITY
  else .INPUT_VALID

/-- Mathematical (spec-side) bounded reachability over the DIRECTED matrix
relation: `matDistLe adj k a b` holds iff there is a directed path from
`a` to `b` of length at most `k` whose edges `(u, v)` satisfy
`adj[u][v] > 0` with `v < adj.length`. -/
def matDistLe (adj : List (List Int)) : Nat → Nat → Nat → Bool
  | 0, a, b => a == b
  | k + 1, a, b =>
    a == b ||
      (List.range adj.length).any
        (fun c => decide (matEntry adj a c > 0) && matDistLe adj k c b)

/-- Spec-side directed reachability between in-range nodes of the matrix. -/
def MatReachable (adj : List (List Int)) (a b : Nat) : Prop :=
  a < adj.length ∧ b < adj.length ∧ ∃ k, matDistLe adj k a b = true

/-- Mathematical bounded reachability over the UNDIRECTED closure of the
matrix relation (an edge joins `a` and `c` when either `adj[a][c] > 0` or
`adj[c][a] > 0`), as the specification's connectivity clause reads. -/
def uMatDistLe (adj : List (List Int)) : Nat → Nat → Nat → Bool
  | 0, a, b => a == b
  | k + 1, a, b =>
    a == b ||
      (List.range adj.length).any
        (fun c => decide (matEntry adj a c > 0 ∨ matEntry adj c a > 0) &&
          uMatDistLe adj k c b)

/-- Spec-side undirected reachability between in-range nodes. -/
def UMatReachable (adj : List (List Int)) (a b : Nat) : Prop :=
  a < adj.length ∧ b < adj.length ∧ ∃ k, uMatDistLe adj k a b = true

/-- Mathematical bounded reachability over the adjacency LISTS used by the
router: a directed path of length at most `k`. -/
def distLe (nodes : List NodeData) : Nat → Nat → Nat → Bool
  | 0, a, b => a == b
  | k + 1, a, b => a == b || (adjOf nodes a).any (fun c => distLe nodes k c b)

/-- Spec-side reachability along the adjacency lists. -/
def ReachableL (nodes : List NodeData) (a b : Nat) : Prop :=
  ∃ k, distLe nodes k a b = true

/-- Well-formed adjacency lists: every listed neighbour is a valid node
index. -/
def WFAdj (nodes : List NodeData) : Prop :=
  ∀ i < nodes.length, ∀ j ∈ adjOf nodes i, j < nodes.length

/-- Concrete sample vehicles for witness theorems: an older ambulance, -/
def exAmb : Vehicle :=
  { vehicle_id := 1, type := .AMBULANCE, source_node := 0, destination_node := 3,
    current_node := 0, arrival_time := 5 }

/-- a newer fire truck, -/
def exFt : Vehicle :=
  { vehicle_id := 2, type := .FIRE_TRUCK, source_node := 0, destination_node := 3,
    current_node := 0, arrival_time := 9 }

/-- a second, newer ambulance, -/
def exAmb2 : Vehicle :=
  { vehicle_id := 5, type := .AMBULANCE, source_node := 0, destination_node := 3,
    current_node := 0, arrival_time := 7 }

/-- and two regular vehicles. -/
def exReg1 : Vehicle :=
  { vehicle_id := 3, type := .REGULAR, source_node := 0, destination_node := 3,
    current_node := 0, arrival_time := 1 }

/-- second regular vehicle. -/
def exReg2 : Vehicle :=
  { vehicle_id := 4, type := .REGULAR, source_node := 0, destination_node := 3,
    current_node := 0, arrival_time := 2 }

/-- `n` invocations of the single-step engine (the state part of
`execute_single_step`), i.e. a step-by-step run of length `n`. -/
def stepIter (n : Nat) (s : NetState) : NetState :=
  Nat.iterate (fun st => (execute_single_step st).1) n s

/-- A regular vehicle at node 0 bound for node 1, with no blocked attempts
recorded. -/
def blockedVeh : Vehicle :=
  { vehicle_id := 9, type := .REGULAR, source_node := 0, destination_node := 1,
    current_node := 0, arrival_time := 0, blocked_attempts := 0 }

/-- A two-node state in which node 1 (the only next hop from node 0) is
permanently at capacity, so every processing round denies admission to the
queued vehicle. -/
def blockedState : NetState :=
  { nodes := [{ node_id := 0, capacity := 5, current_vehicles := 1,
                waiting_queue := [blockedVeh], adjacent_nodes := [1] },
              { node_id := 1, capacity := 2, current_vehicles := 2,
                adjacent_nodes := [0] }],
    stats := {} }

/-- A regular vehicle at node 0 whose only next hop (node 2) is full. -/
def stuckVeh : Vehicle :=
  { vehicle_id := 11, type := .REGULAR, source_node := 0, destination_node := 2,
    current_node := 0, arrival_time := 0 }

/-- A regular vehicle at node 1 whose next hop (node 3) has room. -/
def movingVeh : Vehicle :=
  { vehicle_id := 12, type := .REGULAR, source_node := 1, destination_node := 3,
    current_node := 1, arrival_time := 0 }

/-- A four-node state where the first non-empty node (0) is blocked but the
second non-empty node (1) can move: a single-step invocation serves BOTH. -/
def twoQueueState : NetState :=
  { nodes := [{ node_id := 0, capacity := 5, current_vehicles := 1,
                waiting_queue := [stuckVeh], adjacent_nodes := [2] },
              { node_id := 1, capacity := 5, current_vehicles := 1,
                waiting_queue := [movingVeh], adjacent_nodes := [3] },
              { node_id := 2, capacity := 1, current_vehicles := 1,
                adjacent_nodes := [0] },
              { node_id := 3, capacity := 5, current_vehicles := 0,
                adjacent_nodes := [1] }],
    stats := {} }

/-- Spec-side: index `i` is marked in a visited vector. -/
def Vis (visited : List Bool) (i : Nat) : Prop := visited.getD i false = true

/-- Spec-side exact distance along the adjacency lists: the shortest
directed path from `src` to `u` has length exactly `k`. -/
def distE (nodes : List NodeData) (src u k : Nat) : Prop :=
  distLe nodes k src u = true ∧ ∀ j, j < k → distLe nodes j src u = false

/-- A directed path 0 → 1 → 2 → 3 for the router witness. -/
def w4Nodes : List NodeData :=
  [{ node_id := 0, capacity := 1, adjacent_nodes := [1] },
   { node_id := 1, capacity := 1, adjacent_nodes := [2] },
   { node_id := 2, capacity := 1, adjacent_nodes := [3] },
   { node_id := 3, capacity := 1, adjacent_nodes := [] }]

/-- Two nodes 0 ⇄ 1 for the router counterexample at
`destination = from_node`. -/
def cx4Nodes : List NodeData :=
  [{ node_id := 0, capacity := 1, adjacent_nodes := [1] },
   { node_id := 1, capacity := 1, adjacent_nodes := [0] }]

/-- A two-node matrix with a single one-way edge 1 → 0: undirected-connected,
but node 1 is not reachable from node 0 along directed edges. -/
def cxAdj : List (List Int) := [[0, 0], [1, 0]]

/-- Two nodes with positive capacity, for the same input. -/
def cxNodes : List NodeData :=
  [{ node_id := 0, capacity := 1 }, { node_id := 1, capacity := 1 }]

/-! ## Theorems -/

theorem getD_set_self {α : Type} (l : List α) (i : Nat) (a d : α)
    (h : i < l.length) : (l.set i a).getD i d = a := by
  simp [List.getD_eq_getElem?_getD, List.getElem?_set_eq_of_lt, h]

theorem getD_set_ne {α : Type} (l : List α) (i j : Nat) (a d : α)
    (h : i ≠ j) : (l.set i a).getD j d = l.getD j d := by
  simp [List.getD_eq_getElem?_getD, List.getElem?_set_ne h]

theorem nodes_setNode_length (s : NetState) (i : Nat) (nd : NodeData) :
    (setNode s i nd).nodes.length = s.nodes.length := by
  simp [setNode]

theorem stats_setNode (s : NetState) (i : Nat) (nd : NodeData) :
    (setNode s i nd).stats = s.stats := rfl

theorem getNode_setNode_self (s : NetState) (i : Nat) (nd : NodeData)
    (h : i < s.nodes.length) : getNode (setNode s i nd) i = nd :=
  getD_set_self s.nodes i nd default h

theorem getNode_setNode_ne (s : NetState) (i j : Nat) (nd : NodeData)
    (h : i ≠ j) : getNode (setNode s i nd) j = getNode s j :=
  getD_set_ne s.nodes i j nd default h

theorem getNode_modifyNode_self (s : NetState) (i : Nat) (f : NodeData → NodeData)
    (h : i < s.nodes.length) : getNode (modifyNode s i f) i = f (getNode s i) :=
  getNode_setNode_self s i _ h

theorem getNode_modifyNode_ne (s : NetState) (i j : Nat) (f : NodeData → NodeData)
    (h : i ≠ j) : getNode (modifyNode s i f) j = getNode s j :=
  getNode_setNode_ne s i j _ h

/-- C1: admission control boundary.  For every in-range node and vehicle
class, `can_move_to_node_safe` returns true iff occupancy is strictly
below capacity (Regular) resp. capacity + 1 (Ambulance / FireTruck); at
occupancy = capacity, Regular is denied while both emergency classes are
admitted, and at occupancy = capacity + 1 every class is denied. -/
theorem C1_admission_boundary (nodes : List NodeData) (i : Nat) (t : VehicleType)
    (hi : i < nodes.length) :
    (can_move_to_node_safe nodes i t = true ↔
      (nodes.getD i default).current_vehicles <
        (nodes.getD i default).capacity +
          (if t = VehicleType.REGULAR then 0 else 1)) ∧
    ((nodes.getD i default).current_vehicles = (nodes.getD i default).capacity →
      can_move_to_node_safe nodes i VehicleType.REGULAR = false ∧
      can_move_to_node_safe nodes i VehicleType.AMBULANCE = true ∧
      can_move_to_node_safe nodes i VehicleType.FIRE_TRUCK = true) ∧
    ((nodes.getD i default).current_vehicles = (nodes.getD i default).capacity + 1 →
      ∀ t', can_move_to_node_safe nodes i t' = false) := by
  have hg : ¬ (i ≥ nodes.length) := not_le.mpr hi
  refine ⟨?_, fun h => ⟨?_, ?_, ?_⟩, fun h t' => ?_⟩ <;>
    [skip; rw [List.getD_eq_getElem?_getD] at h;
     rw [List.getD_eq_getElem?_getD] at h; rw [List.getD_eq_getElem?_getD] at h;
     rw [List.getD_eq_getElem?_getD] at h]
  · cases t <;> simp [can_move_to_node_safe, hg]
  · simp [can_move_to_node_safe, hg, h]
  · simp [can_move_to_node_safe, hg, h]
  · simp [can_move_to_node_safe, hg, h]
  · cases t' <;> simp [can_move_to_node_safe, hg, h]

/-- Concrete instantiation of `C1_admission_boundary` at a node with
capacity 2 and occupancy 2. -/
theorem C1_admission_boundary_witness :
    can_move_to_node_safe [{ node_id := 0, capacity := 2, current_vehicles := 2 }] 0
        VehicleType.REGULAR = false ∧
    can_move_to_node_safe [{ node_id := 0, capacity := 2, current_vehicles := 2 }] 0
        VehicleType.AMBULANCE = true :=
  have h := C1_admission_boundary
    [{ node_id := 0, capacity := 2, current_vehicles := 2 }] 0 VehicleType.REGULAR
    (by decide)
  ⟨(h.2.1 (by decide)).1, (h.2.1 (by decide)).2.1⟩

/-- C10: for every input, `validate_input` returns one of exactly four
codes — Valid, DisconnectedGraph, UnreachableDestination or
InvalidCapacity — and in particular never `INVALID_TRAFFIC_CONTROLLER`
or `INVALID_ADJACENCY_MATRIX`. -/
theorem C10_validator_outcomes (adj : List (List Int)) (nodes : List NodeData)
    (dests : List (Nat × Nat)) :
    (validate_input adj nodes dests = InputValidationResult.INPUT_VALID ∨
     validate_input adj nodes dests = InputValidationResult.DISCONNECTED_GRAPH ∨
     validate_input adj nodes dests = InputValidationResult.UNREACHABLE_DESTINATION ∨
     validate_input adj nodes dests = InputValidationResult.INVALID_CAPACITY) ∧
    validate_input adj nodes dests ≠ InputValidationResult.INVALID_TRAFFIC_CONTROLLER ∧
    validate_input adj nodes dests ≠ InputValidationResult.INVALID_ADJACENCY_MATRIX := by
  unfold validate_input
  split_ifs <;> simp

/-- C5: dispatch ordering within a node.  With 2 Regular vehicles, one
older Ambulance and one newer FireTruck enqueued (in two representative
interleavings), the node dispatches the Ambulance, then the FireTruck,
then the Regular vehicles in their enqueue order; and among two vehicles
of the same emergency class the earlier arrival is dispatched first,
whichever was enqueued first. -/
theorem C5_dispatch_order (amb ft r1 r2 e1 e2 : Vehicle) (nd : NodeData)
    (hw : nd.waiting_queue = []) (he : nd.emergency_queue = [])
    (hamb : amb.type = VehicleType.AMBULANCE)
    (hft : ft.type = VehicleType.FIRE_TRUCK)
    (hage : amb.arrival_time < ft.arrival_time)
    (hr1 : r1.type = VehicleType.REGULAR) (hr2 : r2.type = VehicleType.REGULAR)
    (he1 : e1.type = VehicleType.AMBULANCE) (he2 : e2.type = VehicleType.AMBULANCE)
    (htie : e1.arrival_time < e2.arrival_time) :
    extract_list 4 (enqueue_vehicle (enqueue_vehicle (enqueue_vehicle
        (enqueue_vehicle nd r1) ft) r2) amb) = [amb, ft, r1, r2] ∧
    extract_list 4 (enqueue_vehicle (enqueue_vehicle (enqueue_vehicle
        (enqueue_vehicle nd amb) r1) ft) r2) = [amb, ft, r1, r2] ∧
    extract_list 2 (enqueue_vehicle (enqueue_vehicle nd e1) e2) = [e1, e2] ∧
    extract_list 2 (enqueue_vehicle (enqueue_vehicle nd e2) e1) = [e1, e2] := by
  have hba : ¬ (e2.arrival_time < e1.arrival_time) := by omega
  have hlt1 : vehLt amb ft = false := by
    simp [vehLt, hamb, hft, VehicleType.toInt]
  have hlt2 : vehLt ft amb = true := by
    simp [vehLt, hamb, hft, VehicleType.toInt]
  have hlt3 : vehLt e2 e1 = true := by
    simp [vehLt, he1, he2, htie]
  have hlt4 : vehLt e1 e2 = false := by
    simp [vehLt, he1, he2, hba]
  refine ⟨?_, ?_, ?_, ?_⟩ <;>
    simp [enqueue_vehicle, hamb, hft, hr1, hr2, he1, he2, hw, he,
      pqPush, hlt1, hlt2, hlt3, hlt4, extract_list, extract_one]

/-- Concrete instantiation of `C5_dispatch_order`: the sample vehicles are
dispatched Ambulance, FireTruck, then the Regulars in enqueue order. -/
theorem C5_dispatch_order_witness :
    extract_list 4 (enqueue_vehicle (enqueue_vehicle (enqueue_vehicle
        (enqueue_vehicle { node_id := 0, capacity := 10 } exReg1) exFt) exReg2) exAmb) =
      [exAmb, exFt, exReg1, exReg2] :=
  (C5_dispatch_order exAmb exFt exReg1 exReg2 exAmb exAmb2
    { node_id := 0, capacity := 10 } (by decide) (by decide) (by decide)
    (by decide) (by decide) (by decide) (by decide) (by decide) (by decide)
    (by decide)).1

theorem getNode_stats_update (s : NetState) (st : SystemStats) (i : Nat) :
    getNode { s with stats := st } i = getNode s i := rfl

theorem nodes_stats_update (s : NetState) (st : SystemStats) :
    ({ s with stats := st } : NetState).nodes = s.nodes := rfl

theorem stats_modifyNode (s : NetState) (i : Nat) (f : NodeData → NodeData) :
    (modifyNode s i f).stats = s.stats := rfl

theorem nodes_modifyNode_length (s : NetState) (i : Nat) (f : NodeData → NodeData) :
    (modifyNode s i f).nodes.length = s.nodes.length := by
  simp [modifyNode, setNode]

theorem can_move_elim {nodes : List NodeData} {idx : Nat} {t : VehicleType}
    (h : can_move_to_node_safe nodes idx t = true) :
    idx < nodes.length ∧
    (nodes.getD idx default).current_vehicles <
      (nodes.getD idx default).capacity +
        (if t ≠ VehicleType.REGULAR then 1 else 0) := by
  by_cases hc : idx ≥ nodes.length
  · simp [can_move_to_node_safe, hc] at h
  · refine ⟨lt_of_not_ge hc, ?_⟩
    simpa [can_move_to_node_safe, hc] using h

/-- The state after the guarded source-occupancy decrement shared by both
move functions: the target node, statistics, and node count are untouched
when the source differs from the target. -/
theorem source_dec_facts (s : NetState) (from_node to_node : Nat)
    (hne : from_node ≠ to_node) :
    let s1 := if (getNode s from_node).current_vehicles > 0 then
        modifyNode s from_node
          (fun nd => { nd with current_vehicles := nd.current_vehicles - 1 })
      else s
    getNode s1 to_node = getNode s to_node ∧ s1.stats = s.stats ∧
      s1.nodes.length = s.nodes.length := by
  by_cases hocc : (getNode s from_node).current_vehicles > 0
  · simp only [hocc, if_pos]
    exact ⟨getNode_modifyNode_ne s from_node to_node _ hne, rfl, by
      simp [modifyNode, setNode]⟩
  · rw [if_neg hocc]
    exact ⟨rfl, rfl, rfl⟩

/-- C9 counterexample: a move that completes a trip (next hop = destination,
admission allowed).  Contrary to the claim, `total_moves` IS incremented on
the completion branch, and the destination node's occupancy is NOT
incremented (the whole destination node is unchanged). -/
theorem C9_admitted_move_counterexample :
    can_move_to_node_safe
        [{ node_id := 0, capacity := 5, current_vehicles := 1 },
         { node_id := 1, capacity := 3 }] 1 VehicleType.REGULAR = true ∧
    (perform_vehicle_move_with_display
        { nodes := [{ node_id := 0, capacity := 5, current_vehicles := 1 },
                    { node_id := 1, capacity := 3 }], stats := {} }
        { vehicle_id := 7, type := .REGULAR, source_node := 0,
          destination_node := 1, current_node := 0, arrival_time := 0 }
        0 1).stats.total_moves = 1 ∧
    (getNode (perform_vehicle_move_with_display
        { nodes := [{ node_id := 0, capacity := 5, current_vehicles := 1 },
                    { node_id := 1, capacity := 3 }], stats := {} }
        { vehicle_id := 7, type := .REGULAR, source_node := 0,
          destination_node := 1, current_node := 0, arrival_time := 0 }
        0 1) 1).current_vehicles = 0 := by
  refine ⟨by decide, ?_, ?_⟩ <;> decide

/-- The state after the guarded source-occupancy decrement shared by both
move functions, with NO assumption relating source and target: statistics
and node count are untouched, every node other than the source is
untouched, and the source node changes only by the conditional occupancy
decrement. -/
theorem source_dec_all (s : NetState) (from_node : Nat) :
    let s1 := if (getNode s from_node).current_vehicles > 0 then
        modifyNode s from_node
          (fun nd => { nd with current_vehicles := nd.current_vehicles - 1 })
      else s
    s1.stats = s.stats ∧ s1.nodes.length = s.nodes.length ∧
    (∀ i, i ≠ from_node → getNode s1 i = getNode s i) ∧
    getNode s1 from_node = { getNode s from_node with
      current_vehicles :=
        if (getNode s from_node).current_vehicles > 0 then
          (getNode s from_node).current_vehicles - 1
        else (getNode s from_node).current_vehicles } := by
  by_cases hocc : (getNode s from_node).current_vehicles > 0
  · have hfl : from_node < s.nodes.length := by
      by_contra hge
      have hdef : getNode s from_node = default := by
        unfold getNode
        rw [List.getD_eq_getElem?_getD, List.getElem?_eq_none (by omega)]
        rfl
      rw [hdef] at hocc
      have hd : (default : NodeData).current_vehicles = 0 := rfl
      omega
    simp only [hocc, if_pos]
    refine ⟨rfl, by simp [modifyNode, setNode], ?_, ?_⟩
    · intro i hi
      exact getNode_modifyNode_ne s from_node i _ (fun h => hi h.symm)
    · rw [getNode_modifyNode_self s from_node _ hfl]
  · rw [if_neg hocc]
    refine ⟨rfl, rfl, fun i _ => rfl, ?_⟩
    rw [if_neg hocc]

/-- C9 amended: for EVERY admitted move (any `from_node`, `to_node`,
including admitted self-moves, which the router makes reachable by
returning `from_node` when the destination equals the current node), the
total-move counter is incremented by both move functions in both branches.
On completion no node except the source changes — the destination node's
occupancy is NOT incremented, and the source node changes only by the
guarded decrement (occupancy − 1 if positive, else unchanged; for a
self-move at the destination this decrements the very node the vehicle
"arrives" at) — while the per-class processed counter and the
successful-route counter each increase by one and the vehicle is
discarded.  Otherwise the target occupancy becomes its source-decremented
value plus one (plain + 1 whenever `from_node ≠ to_node`) and the vehicle
(with updated `current_node`) is enqueued into the class-matching queue of
the target node, whose queues the source decrement never touches. -/
theorem C9_admitted_move_amended (s : NetState) (v : Vehicle)
    (from_node to_node : Nat)
    (hadm : can_move_to_node_safe s.nodes to_node v.type = true) :
    ((perform_vehicle_move_with_display s v from_node to_node).stats.total_moves
        = s.stats.total_moves + 1) ∧
    ((perform_vehicle_move s v from_node to_node).stats.total_moves
        = s.stats.total_moves + 1) ∧
    (to_node = v.destination_node →
      (∀ i, i ≠ from_node →
        getNode (perform_vehicle_move_with_display s v from_node to_node) i
            = getNode s i ∧
        getNode (perform_vehicle_move s v from_node to_node) i
            = getNode s i) ∧
      getNode (perform_vehicle_move_with_display s v from_node to_node) from_node
          = { getNode s from_node with
              current_vehicles :=
                if (getNode s from_node).current_vehicles > 0 then
                  (getNode s from_node).current_vehicles - 1
                else (getNode s from_node).current_vehicles } ∧
      getNode (perform_vehicle_move s v from_node to_node) from_node
          = { getNode s from_node with
              current_vehicles :=
                if (getNode s from_node).current_vehicles > 0 then
                  (getNode s from_node).current_vehicles - 1
                else (getNode s from_node).current_vehicles } ∧
      completedCount (perform_vehicle_move_with_display s v from_node to_node)
          = completedCount s + 1 ∧
      (v.type = VehicleType.REGULAR →
        (perform_vehicle_move_with_display s v from_node to_node).stats.total_vehicles_processed
          = s.stats.total_vehicles_processed + 1) ∧
      (v.type ≠ VehicleType.REGULAR →
        (perform_vehicle_move_with_display s v from_node to_node).stats.emergency_vehicles_processed
          = s.stats.emergency_vehicles_processed + 1) ∧
      (perform_vehicle_move_with_display s v from_node to_node).stats.successful_routes
          = s.stats.successful_routes + 1) ∧
    (to_node ≠ v.destination_node →
      (getNode (perform_vehicle_move_with_display s v from_node to_node) to_node).current_vehicles
          = (getNode s to_node).current_vehicles + 1
            - (if from_node = to_node ∧ (getNode s from_node).current_vehicles > 0
               then 1 else 0) ∧
      (getNode (perform_vehicle_move s v from_node to_node) to_node).current_vehicles
          = (getNode s to_node).current_vehicles + 1
            - (if from_node = to_node ∧ (getNode s from_node).current_vehicles > 0
               then 1 else 0) ∧
      (v.type = VehicleType.REGULAR →
        (getNode (perform_vehicle_move_with_display s v from_node to_node) to_node).waiting_queue
          = (getNode s to_node).waiting_queue ++ [{ v with current_node := to_node }]) ∧
      (v.type ≠ VehicleType.REGULAR →
        (getNode (perform_vehicle_move_with_display s v from_node to_node) to_node).emergency_queue
          = pqPush { v with current_node := to_node } (getNode s to_node).emergency_queue) ∧
      completedCount (perform_vehicle_move_with_display s v from_node to_node)
          = completedCount s ∧
      (perform_vehicle_move_with_display s v from_node to_node).stats.successful_routes
          = s.stats.successful_routes) := by
  obtain ⟨hto, hcap⟩ := can_move_elim hadm
  obtain ⟨f1, f2, f3, f4⟩ := source_dec_all s from_node
  unfold perform_vehicle_move_with_display perform_vehicle_move
  set s1 := (if (getNode s from_node).current_vehicles > 0 then
      modifyNode s from_node
        (fun nd => { nd with current_vehicles := nd.current_vehicles - 1 })
    else s) with hs1
  have hcap' : (getNode s to_node).current_vehicles <
      (getNode s to_node).capacity +
        (if v.type ≠ VehicleType.REGULAR then 1 else 0) := hcap
  have hto1 : to_node < s1.nodes.length := by rw [f2]; exact hto
  have hs1to : getNode s1 to_node = { getNode s to_node with
      current_vehicles := (getNode s to_node).current_vehicles
        - (if from_node = to_node ∧ (getNode s from_node).current_vehicles > 0
           then 1 else 0) } := by
    by_cases hfe : from_node = to_node
    · rw [← hfe, f4]
      by_cases hocc : (getNode s from_node).current_vehicles > 0
      · rw [if_pos hocc, if_pos ⟨rfl, hocc⟩]
      · rw [if_neg hocc, if_neg (fun h => hocc h.2)]
        simp
    · rw [f3 to_node (fun h => hfe h.symm),
        if_neg (fun h => hfe h.1)]
      simp
  by_cases hdest : to_node = v.destination_node
  · simp only [if_pos hdest]
    by_cases hreg : v.type = VehicleType.REGULAR <;>
      simp [hreg, completedCount, getNode_stats_update, f1, f3, f4, hdest] <;>
      exact ⟨f3, by omega⟩
  · have hcap2 : (getNode s1 to_node).current_vehicles <
        (getNode s1 to_node).capacity +
          (if v.type ≠ VehicleType.REGULAR then 1 else 0) := by
      rw [hs1to]
      show (getNode s to_node).current_vehicles
          - (if from_node = to_node ∧ (getNode s from_node).current_vehicles > 0
             then 1 else 0)
          < (getNode s to_node).capacity +
            (if v.type ≠ VehicleType.REGULAR then 1 else 0)
      by_cases hind : from_node = to_node ∧
          (getNode s from_node).current_vehicles > 0
      · rw [if_pos hind]
        omega
      · rw [if_neg hind]
        omega
    have hcap2' : (getNode { s1 with stats := { s1.stats with
          total_moves := s1.stats.total_moves + 1 } } to_node).current_vehicles <
        (getNode { s1 with stats := { s1.stats with
          total_moves := s1.stats.total_moves + 1 } } to_node).capacity +
          (if v.type ≠ VehicleType.REGULAR then 1 else 0) := hcap2
    simp only [if_neg hdest, if_pos hcap2']
    by_cases hreg : v.type = VehicleType.REGULAR <;>
      simp [hreg, completedCount, getNode_stats_update, hs1to, f1, hdest,
        getNode_modifyNode_self, stats_modifyNode, nodes_modifyNode_length,
        nodes_stats_update, hto1, hto] <;>
      omega

/-- Concrete instantiation of `C9_admitted_move_amended`: an admitted
non-completion move increments the total-move counter. -/
theorem C9_admitted_move_amended_witness :
    (perform_vehicle_move_with_display
        { nodes := [{ node_id := 0, capacity := 5, current_vehicles := 1 },
                    { node_id := 1, capacity := 3 },
                    { node_id := 2, capacity := 3 }], stats := {} }
        { vehicle_id := 7, type := .REGULAR, source_node := 0,
          destination_node := 2, current_node := 0, arrival_time := 0 }
        0 1).stats.total_moves =
      ({ nodes := [{ node_id := 0, capacity := 5, current_vehicles := 1 },
                   { node_id := 1, capacity := 3 },
                   { node_id := 2, capacity := 3 }],
         stats := {} } : NetState).stats.total_moves + 1 :=
  (C9_admitted_move_amended
    { nodes := [{ node_id := 0, capacity := 5, current_vehicles := 1 },
                { node_id := 1, capacity := 3 },
                { node_id := 2, capacity := 3 }], stats := {} }
    { vehicle_id := 7, type := .REGULAR, source_node := 0,
      destination_node := 2, current_node := 0, arrival_time := 0 }
    0 1 (by decide)).1

/-- C3: blocked-attempt escalation is dead code.  In the scenario below the
vehicle's admission to its next hop (node 1, full) is denied on every
attempt, yet one continuous-mode processing round is the identity on the
state: the requeued vehicle still carries `blocked_attempts = 0` (the
source increments the counter on a local copy AFTER the requeue copied the
vehicle), so after 6 consecutive denials `rerouting_attempts` is still 0
instead of the claimed `floor(6/6) = 1`, and the stored counter never
reaches 1. -/
theorem C3_blocked_escalation_bug :
    process_node_vehicles blockedState 0 = blockedState ∧
    (Nat.iterate (fun st => process_node_vehicles st 0) 6
        blockedState).stats.rerouting_attempts = 0 ∧
    (getNode (Nat.iterate (fun st => process_node_vehicles st 0) 6 blockedState)
        0).waiting_queue = [blockedVeh] ∧
    blockedVeh.blocked_attempts = 0 := by
  refine ⟨by decide, by decide, by decide, by decide⟩

theorem set_oob {α : Type} (l : List α) (i : Nat) (a : α) (h : l.length ≤ i) :
    l.set i a = l := by
  induction l generalizing i with
  | nil => rfl
  | cons x xs ih =>
    cases i with
    | zero => simp at h
    | succ j => simp [List.set, ih j (by simpa using h)]

theorem getD_oob {α : Type} (l : List α) (i : Nat) (d : α) (h : l.length ≤ i) :
    l.getD i d = d := by
  induction l generalizing i with
  | nil => rfl
  | cons x xs ih =>
    cases i with
    | zero => simp at h
    | succ j => simpa [List.getD] using ih j (by simpa using h)

theorem getNode_oob (s : NetState) (i : Nat) (h : s.nodes.length ≤ i) :
    getNode s i = default :=
  getD_oob s.nodes i default h

theorem sum_map_set (l : List NodeData) (i : Nat) (nd : NodeData)
    (h : i < l.length) :
    ((l.set i nd).map (fun x => x.current_vehicles)).sum
      = (l.map (fun x => x.current_vehicles)).sum + nd.current_vehicles
          - (l.getD i default).current_vehicles := by
  induction l generalizing i with
  | nil => simp at h
  | cons x xs ih =>
    cases i with
    | zero => simp [List.getD]; ring
    | succ j =>
      have hj : j < xs.length := by simpa using h
      simp only [List.set, List.map_cons, List.sum_cons, List.getD_cons_succ, ih j hj]
      ring

theorem sumOcc_setNode (s : NetState) (i : Nat) (nd : NodeData)
    (h : i < s.nodes.length) :
    sumOcc (setNode s i nd)
      = sumOcc s + nd.current_vehicles - (getNode s i).current_vehicles :=
  sum_map_set s.nodes i nd h

theorem sumOcc_modifyNode (s : NetState) (i : Nat) (f : NodeData → NodeData)
    (h : i < s.nodes.length) :
    sumOcc (modifyNode s i f)
      = sumOcc s + (f (getNode s i)).current_vehicles
          - (getNode s i).current_vehicles :=
  sumOcc_setNode s i _ h

theorem sumOcc_stats_update (s : NetState) (st : SystemStats) :
    sumOcc { s with stats := st } = sumOcc s := rfl

theorem pqPush_length (v : Vehicle) (l : List Vehicle) :
    (pqPush v l).length = l.length + 1 := by
  induction l with
  | nil => rfl
  | cons h t ih => by_cases hv : vehLt v h <;> simp [pqPush, hv, ih]

/-- `return_vehicle_to_queue` leaves statistics, occupancies and capacities
unchanged and grows the requeue node's combined queue size by one. -/
theorem requeue_effects (s : NetState) (v : Vehicle) (j : Nat) (b : Bool)
    (hj : j < s.nodes.length) :
    (return_vehicle_to_queue s v j b).stats = s.stats ∧
    (return_vehicle_to_queue s v j b).nodes.length = s.nodes.length ∧
    sumOcc (return_vehicle_to_queue s v j b) = sumOcc s ∧
    ∀ k, k < s.nodes.length →
      (getNode (return_vehicle_to_queue s v j b) k).current_vehicles
          = (getNode s k).current_vehicles ∧
      (getNode (return_vehicle_to_queue s v j b) k).capacity
          = (getNode s k).capacity ∧
      get_queue_size (getNode (return_vehicle_to_queue s v j b) k)
          = get_queue_size (getNode s k) + (if k = j then 1 else 0) := by
  unfold return_vehicle_to_queue
  cases b
  · simp only [Bool.false_eq_true, if_false]
    refine ⟨rfl, nodes_modifyNode_length s j _, ?_, fun k hk => ?_⟩
    · rw [sumOcc_modifyNode s j _ hj]; ring
    · by_cases hkj : k = j
      · subst hkj
        simp [getNode_modifyNode_self s k _ hj, get_queue_size]
        omega
      · simp [getNode_modifyNode_ne s j k _ (fun hh => hkj hh.symm), hkj]
  · simp only [if_true]
    refine ⟨rfl, nodes_modifyNode_length s j _, ?_, fun k hk => ?_⟩
    · rw [sumOcc_modifyNode s j _ hj]; ring
    · by_cases hkj : k = j
      · subst hkj
        simp [getNode_modifyNode_self s k _ hj, get_queue_size, pqPush_length]
        omega
      · simp [getNode_modifyNode_ne s j k _ (fun hh => hkj hh.symm), hkj]

/-- Full effect characterization of `perform_vehicle_move_with_display`:
node count preserved; completed-trip count +1 exactly on completion; the
occupancy sum loses the guarded source decrement and gains 1 only on
non-completion; per node, capacity is unchanged, occupancy changes only at
the source (guarded decrement) and at a non-destination target (increment),
and only a non-destination target's combined queue grows (by one). -/
theorem move_display_core (s : NetState) (v : Vehicle) (from_node to_node : Nat)
    (hto : to_node < s.nodes.length) :
    (perform_vehicle_move_with_display s v from_node to_node).nodes.length
        = s.nodes.length ∧
    completedCount (perform_vehicle_move_with_display s v from_node to_node)
        = completedCount s + (if to_node = v.destination_node then 1 else 0) ∧
    sumOcc (perform_vehicle_move_with_display s v from_node to_node)
        = sumOcc s
          - (if (getNode s from_node).current_vehicles > 0 then 1 else 0)
          + (if to_node = v.destination_node then 0 else 1) ∧
    ∀ j, j < s.nodes.length →
      (getNode (perform_vehicle_move_with_display s v from_node to_node) j).capacity
          = (getNode s j).capacity ∧
      (getNode (perform_vehicle_move_with_display s v from_node to_node) j).current_vehicles
          = (getNode s j).current_vehicles
            - (if j = from_node ∧ (getNode s from_node).current_vehicles > 0 then 1 else 0)
            + (if j = to_node ∧ to_node ≠ v.destination_node then 1 else 0) ∧
      get_queue_size (getNode (perform_vehicle_move_with_display s v from_node to_node) j)
          = get_queue_size (getNode s j)
            + (if j = to_node ∧ to_node ≠ v.destination_node then 1 else 0) := by
  have hfrom_of : (getNode s from_node).current_vehicles > 0 →
      from_node < s.nodes.length := by
    intro h
    by_contra hc
    rw [getNode_oob s from_node (le_of_not_lt hc)] at h
    exact absurd h (by decide)
  unfold perform_vehicle_move_with_display
  set s1 := (if (getNode s from_node).current_vehicles > 0 then
      modifyNode s from_node
        (fun nd => { nd with current_vehicles := nd.current_vehicles - 1 })
    else s) with hs1
  have h1len : s1.nodes.length = s.nodes.length := by
    rw [hs1]
    split_ifs with h
    · exact nodes_modifyNode_length s _ _
    · rfl
  have h1stats : s1.stats = s.stats := by
    rw [hs1]
    split_ifs <;> rfl
  have h1sum : sumOcc s1 = sumOcc s -
      (if (getNode s from_node).current_vehicles > 0 then 1 else 0) := by
    rw [hs1]
    split_ifs with h
    · rw [sumOcc_modifyNode s _ _ (hfrom_of h)]
      ring
    · ring
  have h1get : ∀ j, j < s.nodes.length →
      (getNode s1 j).capacity = (getNode s j).capacity ∧
      (getNode s1 j).current_vehicles
        = (getNode s j).current_vehicles
          - (if j = from_node ∧ (getNode s from_node).current_vehicles > 0
              then 1 else 0) ∧
      (getNode s1 j).waiting_queue = (getNode s j).waiting_queue ∧
      (getNode s1 j).emergency_queue = (getNode s j).emergency_queue := by
    intro j hj
    by_cases hfp : (getNode s from_node).current_vehicles > 0
    · rw [hs1, if_pos hfp]
      by_cases hjf : j = from_node
      · subst hjf
        rw [getNode_modifyNode_self s j _ hj]
        simp [hfp]
      · rw [getNode_modifyNode_ne s from_node j _ (fun hh => hjf hh.symm)]
        simp [hjf]
    · rw [hs1, if_neg hfp]
      simp [hfp]
  have hto1 : to_node < s1.nodes.length := by rw [h1len]; exact hto
  set s2 : NetState :=
    { s1 with stats := { s1.stats with total_moves := s1.stats.total_moves + 1 } }
    with hs2
  have h2get : ∀ j, getNode s2 j = getNode s1 j := fun j => rfl
  have h2len : s2.nodes.length = s.nodes.length := h1len
  have hto2 : to_node < s2.nodes.length := hto1
  by_cases hdest : to_node = v.destination_node
  · simp only [if_pos hdest]
    set res := (if v.type = VehicleType.REGULAR then
        { s2 with stats := { s2.stats with
            total_vehicles_processed := s2.stats.total_vehicles_processed + 1,
            successful_routes := s2.stats.successful_routes + 1 } }
      else
        { s2 with stats := { s2.stats with
            emergency_vehicles_processed := s2.stats.emergency_vehicles_processed + 1,
            successful_routes := s2.stats.successful_routes + 1 } }) with hres
    have hrget : ∀ j, getNode res j = getNode s1 j := by
      rw [hres]
      split_ifs <;> exact fun j => rfl
    have hrlen : res.nodes.length = s.nodes.length := by
      rw [hres]
      split_ifs <;> exact h1len
    have hrsum : sumOcc res = sumOcc s1 := by
      rw [hres]
      split_ifs <;> rfl
    have hrcc : completedCount res = completedCount s + 1 := by
      rw [hres]
      split_ifs <;> simp [completedCount, hs2, h1stats] <;> try omega
    refine ⟨hrlen, ?_, ?_, fun j hj => ?_⟩
    · rw [hrcc]
    · rw [hrsum, h1sum]
      simp [hdest]
    · obtain ⟨hc1, hc2, hc3, hc4⟩ := h1get j hj
      refine ⟨by rw [hrget j]; exact hc1, ?_, ?_⟩
      · rw [hrget j, hc2]
        simp [hdest]
      · simp [get_queue_size, hrget j, hc3, hc4, hdest]
  · simp only [if_neg hdest]
    set s3 := modifyNode s2 to_node
      (fun nd => { nd with current_vehicles := nd.current_vehicles + 1 }) with hs3
    have h3len : s3.nodes.length = s.nodes.length := by
      rw [hs3, nodes_modifyNode_length]
      exact h2len
    have hto3 : to_node < s3.nodes.length := by rw [h3len]; exact hto
    have h3sum : sumOcc s3 = sumOcc s1 + 1 := by
      rw [hs3, sumOcc_modifyNode s2 _ _ hto2]
      have h2sum : sumOcc s2 = sumOcc s1 := rfl
      rw [h2sum]
      ring
    have h3get : ∀ j, j < s.nodes.length →
        (getNode s3 j).capacity = (getNode s j).capacity ∧
        (getNode s3 j).current_vehicles
          = (getNode s j).current_vehicles
            - (if j = from_node ∧ (getNode s from_node).current_vehicles > 0
                then 1 else 0)
            + (if j = to_node then 1 else 0) ∧
        (getNode s3 j).waiting_queue = (getNode s j).waiting_queue ∧
        (getNode s3 j).emergency_queue = (getNode s j).emergency_queue := by
      intro j hj
      obtain ⟨hc1, hc2, hc3, hc4⟩ := h1get j hj
      by_cases hjt : j = to_node
      · subst hjt
        rw [hs3, getNode_modifyNode_self s2 j _ hto2, h2get j]
        refine ⟨hc1, ?_, hc3, hc4⟩
        show (getNode s1 j).current_vehicles + 1 = _
        rw [hc2]
        simp
      · rw [hs3, getNode_modifyNode_ne s2 to_node j _ (fun hh => hjt hh.symm),
          h2get j]
        simp [hc1, hc2, hc3, hc4, hjt]
    set vmoved : Vehicle := { v with current_node := to_node } with hvm
    set s4 := (if v.type = VehicleType.REGULAR then
        modifyNode s3 to_node (fun nd =>
          { nd with waiting_queue := nd.waiting_queue ++ [vmoved] })
      else
        modifyNode s3 to_node (fun nd =>
          { nd with emergency_queue := pqPush vmoved nd.emergency_queue }))
      with hs4
    have h4len : s4.nodes.length = s.nodes.length := by
      rw [hs4]
      split_ifs <;> rw [nodes_modifyNode_length] <;> exact h3len
    have h4sum : sumOcc s4 = sumOcc s3 := by
      rw [hs4]
      split_ifs <;> rw [sumOcc_modifyNode s3 _ _ hto3] <;> ring
    have h4cc : completedCount s4 = completedCount s := by
      have : completedCount s4 = completedCount s2 := by
        rw [hs4]
        split_ifs <;> rfl
      rw [this]
      simp [completedCount, hs2, h1stats]
    have h4get : ∀ j, j < s.nodes.length →
        (getNode s4 j).capacity = (getNode s j).capacity ∧
        (getNode s4 j).current_vehicles
          = (getNode s j).current_vehicles
            - (if j = from_node ∧ (getNode s from_node).current_vehicles > 0
                then 1 else 0)
            + (if j = to_node then 1 else 0) ∧
        get_queue_size (getNode s4 j)
          = get_queue_size (getNode s j) + (if j = to_node then 1 else 0) := by
      intro j hj
      obtain ⟨hc1, hc2, hc3, hc4⟩ := h3get j hj
      by_cases hjt : j = to_node
      · subst hjt
        have e1 : (getNode s4 j).capacity = (getNode s3 j).capacity := by
          rw [hs4]
          split_ifs <;> rw [getNode_modifyNode_self s3 j _ hto3]
        have e2 : (getNode s4 j).current_vehicles
            = (getNode s3 j).current_vehicles := by
          rw [hs4]
          split_ifs <;> rw [getNode_modifyNode_self s3 j _ hto3]
        have e3 : get_queue_size (getNode s4 j)
            = get_queue_size (getNode s3 j) + 1 := by
          rw [hs4]
          split_ifs <;> rw [getNode_modifyNode_self s3 j _ hto3] <;>
            simp [get_queue_size, pqPush_length] <;> omega
        have e5 : get_queue_size (getNode s3 j) = get_queue_size (getNode s j) := by
          simp [get_queue_size, hc3, hc4]
        refine ⟨by rw [e1, hc1], by rw [e2, hc2], ?_⟩
        rw [e3, e5]
        simp
      · have e0 : getNode s4 j = getNode s3 j := by
          rw [hs4]
          split_ifs <;>
            exact getNode_modifyNode_ne s3 to_node j _ (fun hh => hjt hh.symm)
        rw [e0]
        refine ⟨hc1, ?_, ?_⟩
        · rw [hc2]
        · simp [get_queue_size, hc3, hc4, hjt]
    refine ⟨h4len, ?_, ?_, fun j hj => ?_⟩
    · rw [h4cc]
      exact (Nat.add_zero _).symm
    · rw [h4sum, h3sum, h1sum]
    · obtain ⟨hc1, hc2, hc3⟩ := h4get j hj
      refine ⟨hc1, ?_, ?_⟩
      · rw [hc2]
        simp [hdest]
      · rw [hc3]
        simp [hdest]

/-- Facts about replacing node `i` by a node with the same occupancy (the
vehicle-extraction step, which pops a queue but does not touch
`current_vehicles`). -/
theorem pop_facts (s : NetState) (i : Nat) (nd' : NodeData)
    (hi : i < s.nodes.length)
    (hocc : nd'.current_vehicles = (getNode s i).current_vehicles) :
    (setNode s i nd').nodes.length = s.nodes.length ∧
    (setNode s i nd').stats = s.stats ∧
    sumOcc (setNode s i nd') = sumOcc s ∧
    (∀ j, j < s.nodes.length → j ≠ i → getNode (setNode s i nd') j = getNode s j) ∧
    getNode (setNode s i nd') i = nd' := by
  refine ⟨nodes_setNode_length s i nd', rfl, ?_, ?_, getNode_setNode_self s i nd' hi⟩
  · rw [show sumOcc (setNode s i nd') = sumOcc s + nd'.current_vehicles
        - (getNode s i).current_vehicles from sumOcc_setNode s i nd' hi, hocc]
    ring
  · intro j hj hne
    exact getNode_setNode_ne s i j nd' (fun hh => hne hh.symm)

theorem completedCount_eq_of_stats {s' s : NetState} (h : s'.stats = s.stats) :
    completedCount s' = completedCount s := by
  simp [completedCount, h]

/-- Requeueing a vehicle that was just popped from node `i` restores the
original per-node observables: statistics, occupancies, capacities and
queue sizes all return to their values before the pop. -/
theorem requeue_case (s : NetState) (i : Nat) (v : Vehicle) (nd' : NodeData)
    (hi : i < s.nodes.length)
    (hocc : nd'.current_vehicles = (getNode s i).current_vehicles)
    (hcap : nd'.capacity = (getNode s i).capacity)
    (hqs : get_queue_size (getNode s i) = get_queue_size nd' + 1)
    (em : Bool) :
    (return_vehicle_to_queue (setNode s i nd') v i em).nodes.length
        = s.nodes.length ∧
    (return_vehicle_to_queue (setNode s i nd') v i em).stats = s.stats ∧
    sumOcc (return_vehicle_to_queue (setNode s i nd') v i em) = sumOcc s ∧
    ∀ j, j < s.nodes.length →
      (getNode (return_vehicle_to_queue (setNode s i nd') v i em) j).capacity
          = (getNode s j).capacity ∧
      (getNode (return_vehicle_to_queue (setNode s i nd') v i em) j).current_vehicles
          = (getNode s j).current_vehicles ∧
      get_queue_size (getNode (return_vehicle_to_queue (setNode s i nd') v i em) j)
          = get_queue_size (getNode s j) := by
  obtain ⟨hplen, hpstats, hpsum, hpne, hpself⟩ := pop_facts s i nd' hi hocc
  obtain ⟨hrstats, hrlen, hrsum, hrget⟩ :=
    requeue_effects (setNode s i nd') v i em (by rw [hplen]; exact hi)
  refine ⟨by rw [hrlen, hplen], by rw [hrstats, hpstats], by rw [hrsum, hpsum],
    fun j hj => ?_⟩
  obtain ⟨hg1, hg2, hg3⟩ := hrget j (by rw [hplen]; exact hj)
  by_cases hji : j = i
  · subst hji
    rw [hg1, hg2, hg3, hpself]
    exact ⟨hcap, hocc, by rw [hqs]; simp⟩
  · rw [hg1, hg2, hg3, hpne j hj hji]
    simp [hji]

/-- The continuation of `process_single_vehicle_movement` after a vehicle
has been popped from node `i`: route, admission check, and either a move
or a requeue.  Same conclusions as `psvm_effects`, relative to the state
before the pop. -/
theorem psvm_after_pop (s : NetState) (i : Nat) (v : Vehicle) (nd' : NodeData)
    (hi : i < s.nodes.length)
    (hocc : nd'.current_vehicles = (getNode s i).current_vehicles)
    (hcap : nd'.capacity = (getNode s i).capacity)
    (hqs : get_queue_size (getNode s i) = get_queue_size nd' + 1)
    (em : Bool) :
    (process_vehicle_step_by_step (setNode s i nd') v i em).1.nodes.length
        = s.nodes.length ∧
    (∀ j, j < s.nodes.length →
      (getNode (process_vehicle_step_by_step (setNode s i nd') v i em).1 j).capacity
        = (getNode s j).capacity) ∧
    ((∀ j, j < s.nodes.length →
        (getNode s j).current_vehicles ≤ (getNode s j).capacity + 1) →
      ∀ j, j < s.nodes.length →
        (getNode (process_vehicle_step_by_step (setNode s i nd') v i em).1 j).current_vehicles
          ≤ (getNode (process_vehicle_step_by_step (setNode s i nd') v i em).1 j).capacity + 1) ∧
    ((∀ j, j < s.nodes.length →
        (getNode s j).current_vehicles = (get_queue_size (getNode s j) : Int)) →
      sumOcc (process_vehicle_step_by_step (setNode s i nd') v i em).1
          + (completedCount (process_vehicle_step_by_step (setNode s i nd') v i em).1 : Int)
        = sumOcc s + (completedCount s : Int) ∧
      ∀ j, j < s.nodes.length →
        (getNode (process_vehicle_step_by_step (setNode s i nd') v i em).1 j).current_vehicles
          = (get_queue_size (getNode (process_vehicle_step_by_step (setNode s i nd') v i em).1 j) : Int)) := by
  obtain ⟨hplen, hpstats, hpsum, hpne, hpself⟩ := pop_facts s i nd' hi hocc
  have hsget : ∀ j, j < s.nodes.length →
      (getNode (setNode s i nd') j).capacity = (getNode s j).capacity ∧
      (getNode (setNode s i nd') j).current_vehicles
        = (getNode s j).current_vehicles ∧
      get_queue_size (getNode s j)
        = get_queue_size (getNode (setNode s i nd') j) + (if j = i then 1 else 0) := by
    intro j hj
    by_cases hji : j = i
    · subst hji
      rw [hpself]
      exact ⟨hcap, hocc, by rw [hqs]; simp⟩
    · rw [hpne j hj hji]
      simp [hji]
  unfold process_vehicle_step_by_step
  rcases hroute : find_best_next_hop (setNode s i nd').nodes i v.destination_node
    with _ | nxt
  · simp only [hroute]
    obtain ⟨hq1, hq2, hq3, hq4⟩ := requeue_case s i v nd' hi hocc hcap hqs em
    refine ⟨hq1, fun j hj => (hq4 j hj).1, fun hb j hj => ?_, fun hq => ?_⟩
    · obtain ⟨hg1, hg2, _⟩ := hq4 j hj
      rw [hg1, hg2]
      exact hb j hj
    · refine ⟨by rw [hq3, completedCount_eq_of_stats hq2], fun j hj => ?_⟩
      obtain ⟨_, hg2, hg3⟩ := hq4 j hj
      rw [hg2, hg3]
      exact hq j hj
  · simp only [hroute]
    cases hadm : can_move_to_node_safe (setNode s i nd').nodes nxt v.type
    · simp only [hadm, Bool.false_eq_true, if_false]
      obtain ⟨hq1, hq2, hq3, hq4⟩ := requeue_case s i v nd' hi hocc hcap hqs em
      refine ⟨hq1, fun j hj => (hq4 j hj).1, fun hb j hj => ?_, fun hq => ?_⟩
      · obtain ⟨hg1, hg2, _⟩ := hq4 j hj
        rw [hg1, hg2]
        exact hb j hj
      · refine ⟨by rw [hq3, completedCount_eq_of_stats hq2], fun j hj => ?_⟩
        obtain ⟨_, hg2, hg3⟩ := hq4 j hj
        rw [hg2, hg3]
        exact hq j hj
    · simp only [hadm, if_true]
      obtain ⟨hnxt0, hcapb⟩ := can_move_elim hadm
      have hnxt : nxt < s.nodes.length := by rw [← hplen]; exact hnxt0
      obtain ⟨hm1, hm2, hm3, hm4⟩ :=
        move_display_core (setNode s i nd') v i nxt hnxt0
      have hmlen : (perform_vehicle_move_with_display (setNode s i nd') v i nxt).nodes.length
          = s.nodes.length := by rw [hm1, hplen]
      have hcapb' : (getNode (setNode s i nd') nxt).current_vehicles
          < (getNode (setNode s i nd') nxt).capacity + 1 := by
        have he : (if v.type ≠ VehicleType.REGULAR then (1 : Int) else 0) ≤ 1 := by
          split_ifs <;> omega
        have hc2 : (getNode (setNode s i nd') nxt).current_vehicles
            < (getNode (setNode s i nd') nxt).capacity
              + (if v.type ≠ VehicleType.REGULAR then 1 else 0) := hcapb
        omega
      refine ⟨hmlen, fun j hj => ?_, fun hb j hj => ?_, fun hq => ?_⟩
      · rw [(hm4 j (by rw [hplen]; exact hj)).1, (hsget j hj).1]
      · obtain ⟨hg1, hg2, hg3⟩ := hm4 j (by rw [hplen]; exact hj)
        obtain ⟨hs1, hs2, hs3⟩ := hsget j hj
        rw [hg1, hg2, hs1, hs2]
        have hb' := hb j hj
        by_cases hjn : j = nxt ∧ nxt ≠ v.destination_node
        · rw [if_pos hjn]
          obtain ⟨hjn1, _⟩ := hjn
          subst hjn1
          obtain ⟨hx1, hx2, _⟩ := hsget j hj
          have h5 : (getNode s j).current_vehicles < (getNode s j).capacity + 1 := by
            rw [← hx1, ← hx2]
            exact hcapb'
          split_ifs <;> omega
        · rw [if_neg hjn]
          split_ifs <;> omega
      · have hoccpos : (getNode (setNode s i nd') i).current_vehicles > 0 := by
          rw [hpself, hocc, hq i hi, hqs]
          push_cast
          omega
        constructor
        · rw [hm3, hm2, hpsum, completedCount_eq_of_stats hpstats, if_pos hoccpos]
          by_cases hdn : nxt = v.destination_node
          · rw [if_pos hdn, if_pos hdn]
            push_cast
            ring
          · rw [if_neg hdn, if_neg hdn]
            push_cast
            ring
        · intro j hj
          obtain ⟨hg1, hg2, hg3⟩ := hm4 j (by rw [hplen]; exact hj)
          obtain ⟨hs1, hs2, hs3⟩ := hsget j hj
          have hqj := hq j hj
          rw [hs3] at hqj
          rw [hg2, hg3, hs2]
          by_cases hji : j = i
          · subst hji
            have hind : (if j = j ∧ (getNode (setNode s j nd') j).current_vehicles > 0
                then (1 : Int) else 0) = 1 := if_pos ⟨rfl, hoccpos⟩
            rw [hind]
            rw [if_pos rfl] at hqj
            by_cases hjn : j = nxt ∧ nxt ≠ v.destination_node
            · rw [if_pos hjn]
              push_cast at hqj ⊢
              omega
            · rw [if_neg hjn]
              push_cast at hqj ⊢
              omega
          · rw [if_neg (fun hcc => hji (hcc : _ ∧ _).1)]
            rw [if_neg hji] at hqj
            by_cases hjn : j = nxt ∧ nxt ≠ v.destination_node
            · rw [if_pos hjn]
              push_cast at hqj ⊢
              omega
            · rw [if_neg hjn]
              push_cast at hqj ⊢
              omega

/-- Combined effect lemma for one `process_single_vehicle_movement`
invocation: node count and capacities are preserved; the occupancy bound
`current_vehicles ≤ capacity + 1` is preserved; and starting from
occupancy = combined queue size, both that equality and the conserved
quantity `sumOcc + completed trips` are preserved. -/
theorem psvm_effects (s : NetState) (i : Nat) :
    (process_single_vehicle_movement s i).1.nodes.length = s.nodes.length ∧
    (∀ j, j < s.nodes.length →
      (getNode (process_single_vehicle_movement s i).1 j).capacity
        = (getNode s j).capacity) ∧
    ((∀ j, j < s.nodes.length →
        (getNode s j).current_vehicles ≤ (getNode s j).capacity + 1) →
      ∀ j, j < s.nodes.length →
        (getNode (process_single_vehicle_movement s i).1 j).current_vehicles
          ≤ (getNode (process_single_vehicle_movement s i).1 j).capacity + 1) ∧
    ((∀ j, j < s.nodes.length →
        (getNode s j).current_vehicles = (get_queue_size (getNode s j) : Int)) →
      sumOcc (process_single_vehicle_movement s i).1
          + (completedCount (process_single_vehicle_movement s i).1 : Int)
        = sumOcc s + (completedCount s : Int) ∧
      ∀ j, j < s.nodes.length →
        (getNode (process_single_vehicle_movement s i).1 j).current_vehicles
          = (get_queue_size (getNode (process_single_vehicle_movement s i).1 j) : Int)) := by
  by_cases hib : i ≥ s.nodes.length
  · have hr : process_single_vehicle_movement s i = (s, false) := by
      unfold process_single_vehicle_movement
      rw [if_pos hib]
    rw [hr]
    exact ⟨rfl, fun j hj => rfl, fun h => h, fun h => ⟨rfl, h⟩⟩
  · have hi : i < s.nodes.length := lt_of_not_ge hib
    rcases hE : (getNode s i).emergency_queue with _ | ⟨v, rest⟩
    · rcases hW : (getNode s i).waiting_queue with _ | ⟨v, rest⟩
      · have hr : process_single_vehicle_movement s i = (s, false) := by
          unfold process_single_vehicle_movement
          rw [if_neg hib, hE, hW]
        rw [hr]
        exact ⟨rfl, fun j hj => rfl, fun h => h, fun h => ⟨rfl, h⟩⟩
      · have hr : process_single_vehicle_movement s i
            = process_vehicle_step_by_step
                (setNode s i { getNode s i with waiting_queue := rest }) v i false := by
          unfold process_single_vehicle_movement
          rw [if_neg hib, hE, hW]
        rw [hr]
        exact psvm_after_pop s i v
          { getNode s i with waiting_queue := rest } hi rfl rfl
          (by simp [get_queue_size, hE, hW]) false
    · have hr : process_single_vehicle_movement s i
          = process_vehicle_step_by_step
              (setNode s i { getNode s i with emergency_queue := rest }) v i true := by
        unfold process_single_vehicle_movement
        rw [if_neg hib, hE]
      rw [hr]
      exact psvm_after_pop s i v
        { getNode s i with emergency_queue := rest } hi rfl rfl
        (by simp [get_queue_size, hE]; omega) true

/-- The scan of `execute_single_step` preserves node count, the occupancy
bound, the occupancy/queue-size equality, and the conserved quantity
`sumOcc + completed trips`. -/
theorem exec_from_effects (is : List Nat) (s : NetState) :
    (exec_step_from s is).1.nodes.length = s.nodes.length ∧
    ((∀ j, j < s.nodes.length →
        (getNode s j).current_vehicles ≤ (getNode s j).capacity + 1) →
      ∀ j, j < s.nodes.length →
        (getNode (exec_step_from s is).1 j).current_vehicles
          ≤ (getNode (exec_step_from s is).1 j).capacity + 1) ∧
    ((∀ j, j < s.nodes.length →
        (getNode s j).current_vehicles = (get_queue_size (getNode s j) : Int)) →
      sumOcc (exec_step_from s is).1
          + (completedCount (exec_step_from s is).1 : Int)
        = sumOcc s + (completedCount s : Int) ∧
      ∀ j, j < s.nodes.length →
        (getNode (exec_step_from s is).1 j).current_vehicles
          = (get_queue_size (getNode (exec_step_from s is).1 j) : Int)) := by
  induction is generalizing s with
  | nil => exact ⟨rfl, fun h => h, fun h => ⟨rfl, h⟩⟩
  | cons i rest ih =>
    by_cases hq0 : get_queue_size (getNode s i) > 0
    · obtain ⟨hp1, hp2, hp3, hp4⟩ := psvm_effects s i
      rcases hm : process_single_vehicle_movement s i with ⟨s', b⟩
      rw [hm] at hp1 hp2 hp3 hp4
      have hp1' : s'.nodes.length = s.nodes.length := hp1
      have hp3' : (∀ j, j < s.nodes.length →
          (getNode s j).current_vehicles ≤ (getNode s j).capacity + 1) →
          ∀ j, j < s.nodes.length →
            (getNode s' j).current_vehicles ≤ (getNode s' j).capacity + 1 := hp3
      have hp4' : (∀ j, j < s.nodes.length →
          (getNode s j).current_vehicles = (get_queue_size (getNode s j) : Int)) →
          sumOcc s' + (completedCount s' : Int)
            = sumOcc s + (completedCount s : Int) ∧
          ∀ j, j < s.nodes.length →
            (getNode s' j).current_vehicles
              = (get_queue_size (getNode s' j) : Int) := hp4
      cases b
      · have hr : exec_step_from s (i :: rest) = exec_step_from s' rest := by
          conv_lhs => rw [exec_step_from]
          rw [if_pos hq0, hm]
        rw [hr]
        obtain ⟨ih1, ih2, ih3⟩ := ih s'
        refine ⟨by rw [ih1, hp1'], ?_, ?_⟩
        · intro hb j hj
          exact ih2 (fun k hk => hp3' hb k (by rw [← hp1']; exact hk)) j
            (by rw [hp1']; exact hj)
        · intro hq
          obtain ⟨hc1, hc2⟩ := hp4' hq
          obtain ⟨ic1, ic2⟩ := ih3 (fun k hk => hc2 k (by rw [← hp1']; exact hk))
          exact ⟨by rw [ic1, hc1], fun j hj => ic2 j (by rw [hp1']; exact hj)⟩
      · have hr : exec_step_from s (i :: rest) = (s', true) := by
          conv_lhs => rw [exec_step_from]
          rw [if_pos hq0, hm]
        rw [hr]
        exact ⟨hp1', hp3', hp4'⟩
    · have hr : exec_step_from s (i :: rest) = exec_step_from s rest := by
        conv_lhs => rw [exec_step_from]
        rw [if_neg hq0]
      rw [hr]
      exact ih s

/-- One invocation of `execute_single_step` preserves node count, the
occupancy bound, the occupancy/queue-size equality, and the conserved
quantity. -/
theorem single_step_effects (s : NetState) :
    (execute_single_step s).1.nodes.length = s.nodes.length ∧
    ((∀ j, j < s.nodes.length →
        (getNode s j).current_vehicles ≤ (getNode s j).capacity + 1) →
      ∀ j, j < s.nodes.length →
        (getNode (execute_single_step s).1 j).current_vehicles
          ≤ (getNode (execute_single_step s).1 j).capacity + 1) ∧
    ((∀ j, j < s.nodes.length →
        (getNode s j).current_vehicles = (get_queue_size (getNode s j) : Int)) →
      sumOcc (execute_single_step s).1
          + (completedCount (execute_single_step s).1 : Int)
        = sumOcc s + (completedCount s : Int) ∧
      ∀ j, j < s.nodes.length →
        (getNode (execute_single_step s).1 j).current_vehicles
          = (get_queue_size (getNode (execute_single_step s).1 j) : Int)) := by
  have h := exec_from_effects (List.range s.nodes.length) s
  exact h

theorem stepIter_succ (s : NetState) (n : Nat) :
    stepIter (n + 1) s = (execute_single_step (stepIter n s)).1 :=
  Function.iterate_succ_apply' _ n s

/-- Iterated single-step runs preserve node count, the occupancy bound,
the occupancy/queue-size equality, and `sumOcc + completed trips`. -/
theorem stepIter_facts (s : NetState) (n : Nat) :
    (stepIter n s).nodes.length = s.nodes.length ∧
    ((∀ j, j < s.nodes.length →
        (getNode s j).current_vehicles ≤ (getNode s j).capacity + 1) →
      ∀ j, j < s.nodes.length →
        (getNode (stepIter n s) j).current_vehicles
          ≤ (getNode (stepIter n s) j).capacity + 1) ∧
    ((∀ j, j < s.nodes.length →
        (getNode s j).current_vehicles = (get_queue_size (getNode s j) : Int)) →
      sumOcc (stepIter n s) + (completedCount (stepIter n s) : Int)
        = sumOcc s + (completedCount s : Int) ∧
      ∀ j, j < s.nodes.length →
        (getNode (stepIter n s) j).current_vehicles
          = (get_queue_size (getNode (stepIter n s) j) : Int)) := by
  induction n with
  | zero => exact ⟨rfl, fun h => h, fun h => ⟨rfl, h⟩⟩
  | succ n ihn =>
    obtain ⟨ih1, ih2, ih3⟩ := ihn
    obtain ⟨hp1, hp2, hp3⟩ := single_step_effects (stepIter n s)
    rw [← stepIter_succ s n] at hp1 hp2 hp3
    refine ⟨by rw [hp1, ih1], ?_, ?_⟩
    · intro hb j hj
      exact hp2 (fun k hk => ih2 hb k (by rw [← ih1]; exact hk)) j
        (by rw [ih1]; exact hj)
    · intro hq
      obtain ⟨ic1, ic2⟩ := ih3 hq
      obtain ⟨hc1, hc2⟩ := hp3 (fun k hk => ic2 k (by rw [← ih1]; exact hk))
      exact ⟨by rw [hc1, ic1], fun j hj => hc2 j (by rw [ih1]; exact hj)⟩

/-- C7: occupancy invariant.  Starting from a state where every node's
occupancy equals its queued-vehicle count and is at most its capacity,
every number of single-step engine invocations leaves every node with
`current_vehicles ≤ capacity + 1`; moreover, for ANY admitted move, a
Regular vehicle's admission never raises the target's occupancy above
`capacity`, so occupancy can exceed capacity only when the admitted
occupant is an emergency vehicle. -/
theorem C7_occupancy_invariant (s : NetState)
    (hqc : ∀ k, k < s.nodes.length →
      (getNode s k).current_vehicles = (get_queue_size (getNode s k) : Int))
    (hcap : ∀ k, k < s.nodes.length →
      (getNode s k).current_vehicles ≤ (getNode s k).capacity) :
    (∀ n k, k < (stepIter n s).nodes.length →
      (getNode (stepIter n s) k).current_vehicles
        ≤ (getNode (stepIter n s) k).capacity + 1) ∧
    (∀ t (v : Vehicle) f tn,
      can_move_to_node_safe t.nodes tn v.type = true →
      v.type = VehicleType.REGULAR →
      (getNode (perform_vehicle_move_with_display t v f tn) tn).current_vehicles
        ≤ (getNode t tn).capacity) ∧
    (∀ t (v : Vehicle) f tn,
      can_move_to_node_safe t.nodes tn v.type = true →
      (getNode t tn).capacity
          < (getNode (perform_vehicle_move_with_display t v f tn) tn).current_vehicles →
      v.type ≠ VehicleType.REGULAR) := by
  have hreg_bound : ∀ t (v : Vehicle) f tn,
      can_move_to_node_safe t.nodes tn v.type = true →
      v.type = VehicleType.REGULAR →
      (getNode (perform_vehicle_move_with_display t v f tn) tn).current_vehicles
        ≤ (getNode t tn).capacity := by
    intro t v f tn hadm hreg
    obtain ⟨ht, hb⟩ := can_move_elim hadm
    have hb2 : (getNode t tn).current_vehicles
        < (getNode t tn).capacity
          + (if v.type ≠ VehicleType.REGULAR then 1 else 0) := hb
    have hb3 : (getNode t tn).current_vehicles < (getNode t tn).capacity := by
      rw [if_neg (by simp [hreg])] at hb2
      simpa using hb2
    obtain ⟨_, _, _, hm4⟩ := move_display_core t v f tn ht
    obtain ⟨_, hocc, _⟩ := hm4 tn ht
    rw [hocc]
    split_ifs <;> omega
  refine ⟨?_, hreg_bound, ?_⟩
  · intro n k hk
    obtain ⟨h1, h2, _⟩ := stepIter_facts s n
    exact h2 (fun j hj => le_trans (hcap j hj) (by omega)) k (by rw [← h1]; exact hk)
  · intro t v f tn hadm hlt hreg
    exact absurd (hreg_bound t v f tn hadm hreg) (not_le.mpr hlt)

/-- Concrete instantiation of `C7_occupancy_invariant`: after one step of
a one-vehicle network, the node occupancies respect `capacity + 1`. -/
theorem C7_occupancy_invariant_witness :
    (getNode (stepIter 1
        { nodes := [{ node_id := 0, capacity := 2, current_vehicles := 1,
                      waiting_queue := [blockedVeh], adjacent_nodes := [1] },
                    { node_id := 1, capacity := 1, adjacent_nodes := [0] }],
          stats := {} }) 0).current_vehicles
      ≤ (getNode (stepIter 1
        { nodes := [{ node_id := 0, capacity := 2, current_vehicles := 1,
                      waiting_queue := [blockedVeh], adjacent_nodes := [1] },
                    { node_id := 1, capacity := 1, adjacent_nodes := [0] }],
          stats := {} }) 0).capacity + 1 :=
  (C7_occupancy_invariant
    { nodes := [{ node_id := 0, capacity := 2, current_vehicles := 1,
                  waiting_queue := [blockedVeh], adjacent_nodes := [1] },
                { node_id := 1, capacity := 1, adjacent_nodes := [0] }],
      stats := {} }
    (by decide) (by decide)).1 1 0 (by decide)

/-- C8: vehicle conservation.  In a single-threaded step run starting from
a state where each node's occupancy equals its queued-vehicle count (and
nothing is in transit between invocations), after any number of steps
`sumOcc + completed trips` equals its initial value — with completed
counters initially zero, `sumOcc` initially equals the number of vehicles
ever created, so `sumOcc = created - completed` after every move.  The
occupancy/queue-count equality is itself preserved. -/
theorem C8_vehicle_conservation (s : NetState)
    (hqc : ∀ k, k < s.nodes.length →
      (getNode s k).current_vehicles = (get_queue_size (getNode s k) : Int)) :
    ∀ n,
      sumOcc (stepIter n s) + (completedCount (stepIter n s) : Int)
          = sumOcc s + (completedCount s : Int) ∧
      ∀ k, k < (stepIter n s).nodes.length →
        (getNode (stepIter n s) k).current_vehicles
          = (get_queue_size (getNode (stepIter n s) k) : Int) := by
  intro n
  obtain ⟨h1, _, h3⟩ := stepIter_facts s n
  obtain ⟨hc1, hc2⟩ := h3 hqc
  exact ⟨hc1, fun k hk => hc2 k (by rw [← h1]; exact hk)⟩

/-- Concrete instantiation of `C8_vehicle_conservation` after 3 steps of a
two-node network with one vehicle. -/
theorem C8_vehicle_conservation_witness :
    sumOcc (stepIter 3
        { nodes := [{ node_id := 0, capacity := 2, current_vehicles := 1,
                      waiting_queue := [blockedVeh], adjacent_nodes := [1] },
                    { node_id := 1, capacity := 1, adjacent_nodes := [0] }],
          stats := {} })
      + (completedCount (stepIter 3
        { nodes := [{ node_id := 0, capacity := 2, current_vehicles := 1,
                      waiting_queue := [blockedVeh], adjacent_nodes := [1] },
                    { node_id := 1, capacity := 1, adjacent_nodes := [0] }],
          stats := {} }) : Int)
      = sumOcc
        { nodes := [{ node_id := 0, capacity := 2, current_vehicles := 1,
                      waiting_queue := [blockedVeh], adjacent_nodes := [1] },
                    { node_id := 1, capacity := 1, adjacent_nodes := [0] }],
          stats := {} }
        + (completedCount
        { nodes := [{ node_id := 0, capacity := 2, current_vehicles := 1,
                      waiting_queue := [blockedVeh], adjacent_nodes := [1] },
                    { node_id := 1, capacity := 1, adjacent_nodes := [0] }],
          stats := {} } : Int) :=
  (C8_vehicle_conservation
    { nodes := [{ node_id := 0, capacity := 2, current_vehicles := 1,
                  waiting_queue := [blockedVeh], adjacent_nodes := [1] },
                { node_id := 1, capacity := 1, adjacent_nodes := [0] }],
      stats := {} }
    (by decide) 3).1

/-- Every move performed by `perform_vehicle_move_with_display` increments
`total_moves` by exactly one. -/
theorem move_total_moves (t : NetState) (v : Vehicle) (f tn : Nat) :
    (perform_vehicle_move_with_display t v f tn).stats.total_moves
      = t.stats.total_moves + 1 := by
  unfold perform_vehicle_move_with_display
  set s1 := (if (getNode t f).current_vehicles > 0 then
      modifyNode t f
        (fun nd => { nd with current_vehicles := nd.current_vehicles - 1 })
    else t) with hs1
  have h1 : s1.stats = t.stats := by
    rw [hs1]
    split_ifs <;> rfl
  split_ifs <;> simp [stats_modifyNode, h1]

/-- A `process_single_vehicle_movement` invocation returns true iff it
performed exactly one movement: on true the total-move counter grows by
one, on false the whole statistics block is unchanged. -/
theorem psvm_moves (s : NetState) (i : Nat) :
    ((process_single_vehicle_movement s i).2 = true →
      (process_single_vehicle_movement s i).1.stats.total_moves
        = s.stats.total_moves + 1) ∧
    ((process_single_vehicle_movement s i).2 = false →
      (process_single_vehicle_movement s i).1.stats = s.stats) := by
  have hstep : ∀ (t : NetState) (v : Vehicle) (j : Nat) (em : Bool),
      t.stats = s.stats →
      ((process_vehicle_step_by_step t v j em).2 = true →
        (process_vehicle_step_by_step t v j em).1.stats.total_moves
          = s.stats.total_moves + 1) ∧
      ((process_vehicle_step_by_step t v j em).2 = false →
        (process_vehicle_step_by_step t v j em).1.stats = s.stats) := by
    intro t v j em hts
    unfold process_vehicle_step_by_step
    rcases hroute : find_best_next_hop t.nodes j v.destination_node with _ | nxt
    · simp only [hroute]
      exact ⟨fun h => absurd h (by simp), fun _ => by
        rw [show (return_vehicle_to_queue t v j em).stats = t.stats from by
          unfold return_vehicle_to_queue
          cases em <;> simp [stats_modifyNode], hts]⟩
    · simp only [hroute]
      cases hadm : can_move_to_node_safe t.nodes nxt v.type
      · simp only [hadm, Bool.false_eq_true, if_false]
        exact ⟨fun h => absurd h (by simp), fun _ => by
          rw [show (return_vehicle_to_queue t v j em).stats = t.stats from by
            unfold return_vehicle_to_queue
            cases em <;> simp [stats_modifyNode], hts]⟩
      · simp only [hadm, if_true]
        exact ⟨fun _ => by rw [move_total_moves, hts], fun h => absurd h (by simp)⟩
  by_cases hib : i ≥ s.nodes.length
  · have hr : process_single_vehicle_movement s i = (s, false) := by
      unfold process_single_vehicle_movement
      rw [if_pos hib]
    rw [hr]
    exact ⟨fun h => absurd h (by simp), fun _ => rfl⟩
  · rcases hE : (getNode s i).emergency_queue with _ | ⟨v, rest⟩
    · rcases hW : (getNode s i).waiting_queue with _ | ⟨v, rest⟩
      · have hr : process_single_vehicle_movement s i = (s, false) := by
          unfold process_single_vehicle_movement
          rw [if_neg hib, hE, hW]
        rw [hr]
        exact ⟨fun h => absurd h (by simp), fun _ => rfl⟩
      · have hr : process_single_vehicle_movement s i
            = process_vehicle_step_by_step
                (setNode s i { getNode s i with waiting_queue := rest }) v i false := by
          unfold process_single_vehicle_movement
          rw [if_neg hib, hE, hW]
        rw [hr]
        exact hstep _ v i false rfl
    · have hr : process_single_vehicle_movement s i
          = process_vehicle_step_by_step
              (setNode s i { getNode s i with emergency_queue := rest }) v i true := by
        unfold process_single_vehicle_movement
        rw [if_neg hib, hE]
      rw [hr]
      exact hstep _ v i true rfl

/-- `exec_step_trace` is `exec_step_from` plus the visited-node list. -/
theorem trace_proj (is : List Nat) (s : NetState) :
    exec_step_from s is
      = ((exec_step_trace s is).1, (exec_step_trace s is).2.1) := by
  induction is generalizing s with
  | nil => rfl
  | cons i rest ih =>
    by_cases hq0 : get_queue_size (getNode s i) > 0
    · rcases hm : process_single_vehicle_movement s i with ⟨s', b⟩
      cases b
      · have h1 : exec_step_from s (i :: rest) = exec_step_from s' rest := by
          conv_lhs => rw [exec_step_from]
          rw [if_pos hq0, hm]
        have h2 : exec_step_trace s (i :: rest)
            = ((exec_step_trace s' rest).1,
                (exec_step_trace s' rest).2.1, i :: (exec_step_trace s' rest).2.2) := by
          conv_lhs => rw [exec_step_trace]
          rw [if_pos hq0, hm]
        rw [h1, h2, ih s']
      · have h1 : exec_step_from s (i :: rest) = (s', true) := by
          conv_lhs => rw [exec_step_from]
          rw [if_pos hq0, hm]
        have h2 : exec_step_trace s (i :: rest) = (s', true, [i]) := by
          conv_lhs => rw [exec_step_trace]
          rw [if_pos hq0, hm]
        rw [h1, h2]
    · have h1 : exec_step_from s (i :: rest) = exec_step_from s rest := by
        conv_lhs => rw [exec_step_from]
        rw [if_neg hq0]
      have h2 : exec_step_trace s (i :: rest) = exec_step_trace s rest := by
        conv_lhs => rw [exec_step_trace]
        rw [if_neg hq0]
      rw [h1, h2, ih s]

/-- The visited-node list of a scan is an in-order sublist of the scanned
indices. -/
theorem trace_sublist (is : List Nat) (s : NetState) :
    (exec_step_trace s is).2.2.Sublist is := by
  induction is generalizing s with
  | nil => simp [exec_step_trace]
  | cons i rest ih =>
    by_cases hq0 : get_queue_size (getNode s i) > 0
    · rcases hm : process_single_vehicle_movement s i with ⟨s', b⟩
      cases b
      · have h2 : exec_step_trace s (i :: rest)
            = ((exec_step_trace s' rest).1,
                (exec_step_trace s' rest).2.1, i :: (exec_step_trace s' rest).2.2) := by
          conv_lhs => rw [exec_step_trace]
          rw [if_pos hq0, hm]
        rw [h2]
        exact List.Sublist.cons₂ i (ih s')
      · have h2 : exec_step_trace s (i :: rest) = (s', true, [i]) := by
          conv_lhs => rw [exec_step_trace]
          rw [if_pos hq0, hm]
        rw [h2]
        exact List.Sublist.cons₂ i (List.nil_sublist rest)
    · have h2 : exec_step_trace s (i :: rest) = exec_step_trace s rest := by
        conv_lhs => rw [exec_step_trace]
        rw [if_neg hq0]
      rw [h2]
      exact List.Sublist.cons i (ih s)

/-- The flag of a scan reports exactly one movement: true means the
total-move counter grew by one, false means statistics are untouched. -/
theorem trace_flag (is : List Nat) (s : NetState) :
    ((exec_step_trace s is).2.1 = true →
      (exec_step_trace s is).1.stats.total_moves = s.stats.total_moves + 1) ∧
    ((exec_step_trace s is).2.1 = false →
      (exec_step_trace s is).1.stats = s.stats) := by
  induction is generalizing s with
  | nil => exact ⟨fun h => absurd h (by simp [exec_step_trace]), fun _ => rfl⟩
  | cons i rest ih =>
    by_cases hq0 : get_queue_size (getNode s i) > 0
    · obtain ⟨hpm1, hpm2⟩ := psvm_moves s i
      rcases hm : process_single_vehicle_movement s i with ⟨s', b⟩
      rw [hm] at hpm1 hpm2
      cases b
      · have hst : s'.stats = s.stats := hpm2 rfl
        have h2 : exec_step_trace s (i :: rest)
            = ((exec_step_trace s' rest).1,
                (exec_step_trace s' rest).2.1, i :: (exec_step_trace s' rest).2.2) := by
          conv_lhs => rw [exec_step_trace]
          rw [if_pos hq0, hm]
        rw [h2]
        obtain ⟨ih1, ih2⟩ := ih s'
        exact ⟨fun h => by rw [ih1 h, hst], fun h => by rw [ih2 h, hst]⟩
      · have h2 : exec_step_trace s (i :: rest) = (s', true, [i]) := by
          conv_lhs => rw [exec_step_trace]
          rw [if_pos hq0, hm]
        rw [h2]
        exact ⟨fun _ => hpm1 rfl, fun h => absurd h (by simp)⟩
    · have h2 : exec_step_trace s (i :: rest) = exec_step_trace s rest := by
        conv_lhs => rw [exec_step_trace]
        rw [if_neg hq0]
      rw [h2]
      exact ih s

/-- Early exit and continuation over a split index list: a successful scan
of the first part makes the rest unscanned; a failed scan of the first
part continues into the second with the visited lists concatenated. -/
theorem trace_append (is1 is2 : List Nat) (s : NetState) :
    ((exec_step_trace s is1).2.1 = true →
      exec_step_trace s (is1 ++ is2) = exec_step_trace s is1) ∧
    ((exec_step_trace s is1).2.1 = false →
      exec_step_trace s (is1 ++ is2)
        = ((exec_step_trace (exec_step_trace s is1).1 is2).1,
            (exec_step_trace (exec_step_trace s is1).1 is2).2.1,
            (exec_step_trace s is1).2.2
              ++ (exec_step_trace (exec_step_trace s is1).1 is2).2.2)) := by
  induction is1 generalizing s with
  | nil =>
    refine ⟨fun h => absurd h (by simp [exec_step_trace]), fun _ => ?_⟩
    simp [exec_step_trace]
  | cons i rest ih =>
    by_cases hq0 : get_queue_size (getNode s i) > 0
    · rcases hm : process_single_vehicle_movement s i with ⟨s', b⟩
      cases b
      · have h2 : exec_step_trace s (i :: rest)
            = ((exec_step_trace s' rest).1,
                (exec_step_trace s' rest).2.1, i :: (exec_step_trace s' rest).2.2) := by
          conv_lhs => rw [exec_step_trace]
          rw [if_pos hq0, hm]
        have h3 : exec_step_trace s ((i :: rest) ++ is2)
            = ((exec_step_trace s' (rest ++ is2)).1,
                (exec_step_trace s' (rest ++ is2)).2.1,
                i :: (exec_step_trace s' (rest ++ is2)).2.2) := by
          conv_lhs => rw [List.cons_append, exec_step_trace]
          rw [if_pos hq0, hm]
        obtain ⟨ihT, ihF⟩ := ih s'
        rw [h2, h3]
        constructor
        · intro h
          rw [ihT h]
        · intro h
          rw [ihF h]
          simp
      · have h2 : exec_step_trace s (i :: rest) = (s', true, [i]) := by
          conv_lhs => rw [exec_step_trace]
          rw [if_pos hq0, hm]
        have h3 : exec_step_trace s ((i :: rest) ++ is2) = (s', true, [i]) := by
          conv_lhs => rw [List.cons_append, exec_step_trace]
          rw [if_pos hq0, hm]
        rw [h2, h3]
        exact ⟨fun _ => rfl, fun h => absurd h (by simp)⟩
    · have h2 : exec_step_trace s (i :: rest) = exec_step_trace s rest := by
        conv_lhs => rw [exec_step_trace]
        rw [if_neg hq0]
      have h3 : exec_step_trace s ((i :: rest) ++ is2)
          = exec_step_trace s (rest ++ is2) := by
        conv_lhs => rw [List.cons_append, exec_step_trace]
        rw [if_neg hq0]
      rw [h2, h3]
      exact ih s

/-- A node whose combined queue is empty is skipped by the scan; a node
with a non-empty queue is served (exactly one extraction attempt). -/
theorem trace_single (s : NetState) (i : Nat) :
    (get_queue_size (getNode s i) = 0 →
      exec_step_trace s [i] = (s, false, [])) ∧
    (get_queue_size (getNode s i) > 0 →
      (exec_step_trace s [i]).2.2 = [i]) := by
  constructor
  · intro h0
    have hq0 : ¬ get_queue_size (getNode s i) > 0 := by omega
    conv_lhs => rw [exec_step_trace]
    rw [if_neg hq0]
    rfl
  · intro hq0
    rcases hm : process_single_vehicle_movement s i with ⟨s', b⟩
    cases b
    · have h2 : exec_step_trace s [i]
          = ((exec_step_trace s' []).1,
              (exec_step_trace s' []).2.1, i :: (exec_step_trace s' []).2.2) := by
        conv_lhs => rw [exec_step_trace]
        rw [if_pos hq0, hm]
      rw [h2]
      rfl
    · have h2 : exec_step_trace s [i] = (s', true, [i]) := by
        conv_lhs => rw [exec_step_trace]
        rw [if_pos hq0, hm]
      rw [h2]

/-- C6 counterexample: in `twoQueueState` the first node with a non-empty
queue is node 0, whose movement attempt fails (its next hop is full), yet
the single invocation of `execute_single_step` goes on to serve node 1
(whose queued vehicle departs) and returns true — contradicting the claim
that exactly one vehicle is extracted at the first non-empty node and
that no node after it is touched. -/
theorem C6_single_step_counterexample :
    get_queue_size (getNode twoQueueState 0) > 0 ∧
    (execute_single_step twoQueueState).2 = true ∧
    (getNode twoQueueState 1).waiting_queue = [movingVeh] ∧
    (getNode (execute_single_step twoQueueState).1 1).waiting_queue = [] ∧
    (getNode (execute_single_step twoQueueState).1 0).waiting_queue = [stuckVeh] := by
  refine ⟨by decide, by decide, by decide, by decide, by decide⟩

/-- C6 amended: an invocation of the single-step operation scans node
indices in increasing order; every scanned node with a non-empty combined
queue is served in turn (one extraction, emergency queue first) and the
scan CONTINUES past nodes whose movement attempt fails, stopping
immediately after the first successful movement (indices after it are not
scanned); it returns true iff exactly one movement occurred (the
total-move counter grows by one; on false the statistics are untouched).
Stated via `exec_step_trace`, whose state/flag parts coincide with
`execute_single_step`. -/
theorem C6_single_step_amended :
    (∀ s : NetState,
      execute_single_step s
        = ((exec_step_trace s (List.range s.nodes.length)).1,
            (exec_step_trace s (List.range s.nodes.length)).2.1)) ∧
    (∀ (s : NetState) (is : List Nat),
      (exec_step_trace s is).2.2.Sublist is) ∧
    (∀ (is : List Nat) (s : NetState),
      ((exec_step_trace s is).2.1 = true →
        (exec_step_trace s is).1.stats.total_moves = s.stats.total_moves + 1) ∧
      ((exec_step_trace s is).2.1 = false →
        (exec_step_trace s is).1.stats = s.stats)) ∧
    (∀ (is1 is2 : List Nat) (s : NetState),
      ((exec_step_trace s is1).2.1 = true →
        exec_step_trace s (is1 ++ is2) = exec_step_trace s is1) ∧
      ((exec_step_trace s is1).2.1 = false →
        exec_step_trace s (is1 ++ is2)
          = ((exec_step_trace (exec_step_trace s is1).1 is2).1,
              (exec_step_trace (exec_step_trace s is1).1 is2).2.1,
              (exec_step_trace s is1).2.2
                ++ (exec_step_trace (exec_step_trace s is1).1 is2).2.2))) ∧
    (∀ (s : NetState) (i : Nat),
      (get_queue_size (getNode s i) = 0 →
        exec_step_trace s [i] = (s, false, [])) ∧
      (get_queue_size (getNode s i) > 0 →
        (exec_step_trace s [i]).2.2 = [i])) :=
  ⟨fun s => trace_proj (List.range s.nodes.length) s,
   fun s is => trace_sublist is s,
   fun is s => trace_flag is s,
   fun is1 is2 s => trace_append is1 is2 s,
   fun s i => trace_single s i⟩

/-- Concrete instantiation of `C6_single_step_amended`: the invocation on
`twoQueueState` reports a movement and indeed the total-move counter grew
by one. -/
theorem C6_single_step_amended_witness :
    (exec_step_trace twoQueueState (List.range 4)).1.stats.total_moves
      = twoQueueState.stats.total_moves + 1 :=
  (C6_single_step_amended.2.2.1 (List.range 4) twoQueueState).1 (by decide)

theorem matEntry_pos_row {adj : List (List Int)} {a c : Nat}
    (h : matEntry adj a c > 0) : a < adj.length := by
  by_contra hc
  rw [matEntry, getD_oob adj a [] (le_of_not_lt hc)] at h
  simp [List.getD] at h

theorem matDistLe_zero (adj : List (List Int)) (a b : Nat) :
    matDistLe adj 0 a b = (a == b) := rfl

theorem matDistLe_succ (adj : List (List Int)) (k a b : Nat) :
    matDistLe adj (k + 1) a b
      = (a == b ||
          (List.range adj.length).any
            (fun c => decide (matEntry adj a c > 0) && matDistLe adj k c b)) := rfl

theorem matDistLe_mono {adj : List (List Int)} :
    ∀ k a b, matDistLe adj k a b = true → matDistLe adj (k + 1) a b = true := by
  intro k
  induction k with
  | zero =>
    intro a b h
    rw [matDistLe_zero] at h
    rw [matDistLe_succ]
    simp only [Bool.or_eq_true]
    exact Or.inl h
  | succ k ih =>
    intro a b h
    rw [matDistLe_succ] at h
    rw [matDistLe_succ]
    simp only [Bool.or_eq_true, List.any_eq_true, Bool.and_eq_true] at h ⊢
    rcases h with h | ⟨c, hc, he, hd⟩
    · exact Or.inl h
    · exact Or.inr ⟨c, hc, he, ih c b hd⟩

theorem matDistLe_back {adj : List (List Int)} :
    ∀ k a b, matDistLe adj (k + 1) a b = true →
      matDistLe adj k a b = true ∨
      ∃ u, u < adj.length ∧ matDistLe adj k a u = true ∧ matEntry adj u b > 0 := by
  intro k
  induction k with
  | zero =>
    intro a b h
    rw [matDistLe_succ] at h
    simp only [Bool.or_eq_true, List.any_eq_true, Bool.and_eq_true,
      decide_eq_true_eq, List.mem_range, matDistLe_zero] at h
    rcases h with h | ⟨c, hc, he, hd⟩
    · exact Or.inl (by rw [matDistLe_zero]; exact h)
    · have hcb : c = b := by simpa using hd
      subst hcb
      exact Or.inr ⟨a, matEntry_pos_row he, by rw [matDistLe_zero]; simp, he⟩
  | succ k ih =>
    intro a b h
    rw [matDistLe_succ] at h
    simp only [Bool.or_eq_true, List.any_eq_true, Bool.and_eq_true,
      decide_eq_true_eq, List.mem_range] at h
    rcases h with h | ⟨c, hc, he, hd⟩
    · left
      rw [matDistLe_succ]
      simp only [Bool.or_eq_true]
      exact Or.inl h
    · rcases ih c b hd with h1 | ⟨u, hu, h2, h3⟩
      · left
        rw [matDistLe_succ]
        simp only [Bool.or_eq_true, List.any_eq_true, Bool.and_eq_true,
          decide_eq_true_eq, List.mem_range]
        exact Or.inr ⟨c, hc, he, h1⟩
      · right
        refine ⟨u, hu, ?_, h3⟩
        rw [matDistLe_succ]
        simp only [Bool.or_eq_true, List.any_eq_true, Bool.and_eq_true,
          decide_eq_true_eq, List.mem_range]
        exact Or.inr ⟨c, hc, he, h2⟩

theorem count_true_eq_length_iff (v : List Bool) :
    v.count true = v.length ↔ ∀ i, i < v.length → v.getD i false = true := by
  induction v with
  | nil => simp
  | cons b t ih =>
    cases b
    · simp only [List.count_cons, List.length_cons]
      constructor
      · intro h
        have hle : t.count true ≤ t.length := List.count_le_length _ _
        simp at h
        omega
      · intro h
        have := h 0 (by omega)
        simp [List.getD] at this
    · simp only [List.count_cons, List.length_cons]
      constructor
      · intro h i hi
        cases i with
        | zero => simp [List.getD]
        | succ j =>
          simp only [List.getD_cons_succ]
          exact (ih.mp (by simpa using h)) j (by omega)
      · intro h
        have ht : t.count true = t.length := by
          apply ih.mpr
          intro j hj
          have := h (j + 1) (by omega)
          simpa [List.getD_cons_succ] using this
        simp [ht]

theorem count_false_set_true (v : List Bool) (i : Nat) (hi : i < v.length)
    (hv : v.getD i false = false) :
    v.count false = (v.set i true).count false + 1 ∧
    (v.set i true).count true = v.count true + 1 := by
  induction v generalizing i with
  | nil => simp at hi
  | cons b t ih =>
    cases i with
    | zero =>
      simp only [List.getD_cons_zero] at hv
      subst hv
      simp [List.count_cons]
    | succ j =>
      have hj : j < t.length := by simpa using hi
      have hv' : t.getD j false = false := by simpa [List.getD_cons_succ] using hv
      obtain ⟨h1, h2⟩ := ih j hj hv'
      cases b <;> simp [List.set, List.count_cons, h1, h2]

theorem getD_irrel {α : Type} (l : List α) (i : Nat) (d d' : α)
    (h : i < l.length) : l.getD i d = l.getD i d' := by
  simp [List.getD_eq_getElem?_getD, List.getElem?_eq_getElem h]

theorem matDistLe_refl (adj : List (List Int)) : ∀ k a, matDistLe adj k a a = true := by
  intro k a
  cases k with
  | zero => simp [matDistLe_zero]
  | succ k =>
    rw [matDistLe_succ]
    simp

theorem matDistLe_snd_lt {adj : List (List Int)} :
    ∀ k a b, matDistLe adj k a b = true → a = b ∨ b < adj.length := by
  intro k
  induction k with
  | zero =>
    intro a b h
    rw [matDistLe_zero] at h
    exact Or.inl (by simpa using h)
  | succ k ih =>
    intro a b h
    rw [matDistLe_succ] at h
    simp only [Bool.or_eq_true, List.any_eq_true, Bool.and_eq_true,
      decide_eq_true_eq, List.mem_range] at h
    rcases h with h | ⟨c, hc, he, hd⟩
    · exact Or.inl (by simpa using h)
    · rcases ih c b hd with h1 | h1
      · exact Or.inr (h1 ▸ hc)
      · exact Or.inr h1

theorem matDistLe_extend {adj : List (List Int)} {b : Nat}
    (hb : b < adj.length) :
    ∀ k a u, matDistLe adj k a u = true → matEntry adj u b > 0 →
      matDistLe adj (k + 1) a b = true := by
  intro k
  induction k with
  | zero =>
    intro a u h he
    rw [matDistLe_zero] at h
    have : a = u := by simpa using h
    subst this
    rw [matDistLe_succ]
    simp only [Bool.or_eq_true, List.any_eq_true, Bool.and_eq_true,
      decide_eq_true_eq, List.mem_range]
    exact Or.inr ⟨b, hb, he, by rw [matDistLe_zero]; simp⟩
  | succ k ih =>
    intro a u h he
    rw [matDistLe_succ] at h
    simp only [Bool.or_eq_true, List.any_eq_true, Bool.and_eq_true,
      decide_eq_true_eq, List.mem_range] at h
    rw [matDistLe_succ]
    simp only [Bool.or_eq_true, List.any_eq_true, Bool.and_eq_true,
      decide_eq_true_eq, List.mem_range]
    rcases h with h | ⟨c, hc, hec, hd⟩
    · have : a = u := by simpa using h
      subst this
      exact Or.inr ⟨b, hb, he, matDistLe_refl adj (k + 1) b⟩
    · exact Or.inr ⟨c, hc, hec, ih c u hd he⟩

/-- Characterization of one `pathScan` row scan. -/
theorem pathScan_facts (adj : List (List Int)) (curr dest : Nat) :
    ∀ (is : List Nat) (visited : List Bool) (qu : List Nat),
    (∀ i ∈ is, i < visited.length) →
    (pathScan adj curr dest is visited qu).2.1.length = visited.length ∧
    (∀ j, Vis visited j → Vis (pathScan adj curr dest is visited qu).2.1 j) ∧
    (∀ j, Vis (pathScan adj curr dest is visited qu).2.1 j →
      Vis visited j ∨ (j ∈ is ∧ matEntry adj curr j > 0 ∧ j ≠ dest)) ∧
    (∀ x ∈ (pathScan adj curr dest is visited qu).2.2,
      x ∈ qu ∨ (x ∈ is ∧ Vis (pathScan adj curr dest is visited qu).2.1 x)) ∧
    (∀ x ∈ qu, x ∈ (pathScan adj curr dest is visited qu).2.2) ∧
    (∀ j, Vis (pathScan adj curr dest is visited qu).2.1 j →
      Vis visited j ∨ j ∈ (pathScan adj curr dest is visited qu).2.2) ∧
    (2 * (pathScan adj curr dest is visited qu).2.1.count false
        + (pathScan adj curr dest is visited qu).2.2.length
      ≤ 2 * visited.count false + qu.length) ∧
    ((pathScan adj curr dest is visited qu).1 = true →
      matEntry adj curr dest > 0) ∧
    ((pathScan adj curr dest is visited qu).1 = false →
      ∀ j ∈ is, matEntry adj curr j > 0 →
        Vis (pathScan adj curr dest is visited qu).2.1 j ∨ j = dest) ∧
    ((pathScan adj curr dest is visited qu).1 = false →
      ¬ Vis visited dest → dest ∈ is → ¬ (matEntry adj curr dest > 0)) := by
  intro is
  induction is with
  | nil =>
    intro visited qu his
    have hred : pathScan adj curr dest [] visited qu = (false, visited, qu) := rfl
    rw [hred]
    exact ⟨rfl, fun j h => h, fun j h => Or.inl h, fun x hx => Or.inl hx,
      fun x hx => hx, fun j h => Or.inl h, Nat.le_refl _,
      fun h => absurd h (by simp), fun _ j hj => absurd hj (by simp),
      fun _ _ hd => absurd hd (by simp)⟩
  | cons i is ih =>
    intro visited qu his
    have hilt : i < visited.length := his i (by simp)
    by_cases hcond : matEntry adj curr i > 0 ∧ ¬(visited.getD i true)
    · by_cases hidest : i = dest
      · have hred : pathScan adj curr dest (i :: is) visited qu
            = (true, visited, qu) := by
          conv_lhs => rw [pathScan]
          rw [if_pos hcond, if_pos hidest]
        rw [hred]
        subst hidest
        exact ⟨rfl, fun j h => h, fun j h => Or.inl h, fun x hx => Or.inl hx,
          fun x hx => hx, fun j h => Or.inl h, Nat.le_refl _,
          fun _ => hcond.1, fun h => absurd h (by simp),
          fun h => absurd h (by simp)⟩
      · have hred : pathScan adj curr dest (i :: is) visited qu
            = pathScan adj curr dest is (visited.set i true) (qu ++ [i]) := by
          conv_lhs => rw [pathScan]
          rw [if_pos hcond, if_neg hidest]
        have hunvis : visited.getD i false = false := by
          have h2 := hcond.2
          rw [getD_irrel visited i true false hilt] at h2
          simpa using h2
        have his' : ∀ x ∈ is, x < (visited.set i true).length := by
          intro x hx
          rw [List.length_set]
          exact his x (by simp [hx])
        obtain ⟨b1, b2, b3, b4, b5, b6, b7, b8, b9, b10⟩ :=
          ih (visited.set i true) (qu ++ [i]) his'
        rw [hred]
        have hmono : ∀ j, Vis visited j → Vis (visited.set i true) j := by
          intro j hj
          by_cases hji : j = i
          · subst hji
            unfold Vis at hj
            rw [hunvis] at hj
            exact absurd hj (by simp)
          · unfold Vis at hj ⊢
            rw [getD_set_ne visited i j true false (fun hh => hji hh.symm)]
            exact hj
        have hVi : Vis (visited.set i true) i := by
          unfold Vis
          rw [getD_set_self visited i true false hilt]
        have hback : ∀ j, Vis (visited.set i true) j → Vis visited j ∨ j = i := by
          intro j hj
          by_cases hji : j = i
          · exact Or.inr hji
          · unfold Vis at hj
            rw [getD_set_ne visited i j true false (fun hh => hji hh.symm)] at hj
            exact Or.inl hj
        obtain ⟨hcf, hct⟩ := count_false_set_true visited i hilt hunvis
        refine ⟨by rw [b1, List.length_set], ?_, ?_, ?_, ?_, ?_, ?_, b8, ?_, ?_⟩
        · intro j hj
          exact b2 j (hmono j hj)
        · intro j hj
          rcases b3 j hj with h | ⟨h1, h2, h3⟩
          · rcases hback j h with h' | h'
            · exact Or.inl h'
            · subst h'
              exact Or.inr ⟨by simp, hcond.1, hidest⟩
          · exact Or.inr ⟨by simp [h1], h2, h3⟩
        · intro x hx
          rcases b4 x hx with h | ⟨h1, h2⟩
          · rcases List.mem_append.mp h with h' | h'
            · exact Or.inl h'
            · have : x = i := by simpa using h'
              subst this
              exact Or.inr ⟨by simp, b2 x hVi⟩
          · exact Or.inr ⟨by simp [h1], h2⟩
        · intro x hx
          exact b5 x (List.mem_append.mpr (Or.inl hx))
        · intro j hj
          rcases b6 j hj with h | h
          · rcases hback j h with h' | h'
            · exact Or.inl h'
            · subst h'
              exact Or.inr (b5 j (List.mem_append.mpr (Or.inr (by simp))))
          · exact Or.inr h
        · have : 2 * (visited.set i true).count false + (qu ++ [i]).length
              ≤ 2 * visited.count false + qu.length := by
            rw [List.length_append]
            simp only [List.length_cons, List.length_nil]
            omega
          omega
        · intro hf j hj hje
          rcases (by simpa using hj : j = i ∨ j ∈ is) with h | h
          · subst h
            exact Or.inl (b2 j hVi)
          · exact b9 hf j h hje
        · intro hf hdv hdin he
          have hdv' : ¬ Vis (visited.set i true) dest := by
            intro hc
            rcases hback dest hc with h | h
            · exact hdv h
            · exact hidest h.symm
          have hdin' : dest ∈ is := by
            rcases (by simpa using hdin : dest = i ∨ dest ∈ is) with h | h
            · exact absurd h.symm hidest
            · exact h
          exact b10 hf hdv' hdin' he
    · have hred : pathScan adj curr dest (i :: is) visited qu
          = pathScan adj curr dest is visited qu := by
        conv_lhs => rw [pathScan]
        rw [if_neg hcond]
      obtain ⟨b1, b2, b3, b4, b5, b6, b7, b8, b9, b10⟩ :=
        ih visited qu (fun x hx => his x (by simp [hx]))
      rw [hred]
      have hvisi : matEntry adj curr i > 0 → Vis visited i := by
        intro he
        by_contra hv
        apply hcond
        refine ⟨he, ?_⟩
        rw [getD_irrel visited i true false hilt]
        unfold Vis at hv
        simpa using hv
      refine ⟨b1, b2, ?_, ?_, b5, b6, by omega, b8, ?_, ?_⟩
      · intro j hj
        rcases b3 j hj with h | ⟨h1, h2, h3⟩
        · exact Or.inl h
        · exact Or.inr ⟨by simp [h1], h2, h3⟩
      · intro x hx
        rcases b4 x hx with h | ⟨h1, h2⟩
        · exact Or.inl h
        · exact Or.inr ⟨by simp [h1], h2⟩
      · intro hf j hj hje
        rcases (by simpa using hj : j = i ∨ j ∈ is) with h | h
        · subst h
          exact Or.inl (b2 j (hvisi hje))
        · exact b9 hf j h hje
      · intro hf hdv hdin he
        rcases (by simpa using hdin : dest = i ∨ dest ∈ is) with h | h
        · subst h
          exact hdv (hvisi he)
        · exact b10 hf hdv h he

/-- From a visited set that contains the source, misses the destination,
and is closed under outgoing edges, the destination is unreachable, and
every reachable non-destination node is in the set. -/
theorem closed_unreachable (adj : List (List Int)) (src dest : Nat)
    (visited : List Bool) (hdest : dest < adj.length) (hne : src ≠ dest)
    (hsV : Vis visited src) (hdv : ¬ Vis visited dest)
    (hclosed : ∀ v, Vis visited v →
      ∀ w, w < adj.length → matEntry adj v w > 0 → Vis visited w) :
    ∀ k, matDistLe adj k src dest = false ∧
      (∀ u, matDistLe adj k src u = true → u ≠ dest → Vis visited u) := by
  intro k
  induction k with
  | zero =>
    constructor
    · rw [matDistLe_zero]
      simpa using hne
    · intro u hu hune
      rw [matDistLe_zero] at hu
      have h : src = u := by simpa using hu
      subst h
      exact hsV
  | succ k ih =>
    obtain ⟨ih1, ih2⟩ := ih
    constructor
    · cases hx : matDistLe adj (k + 1) src dest
      · rfl
      · exfalso
        rcases matDistLe_back k src dest hx with h | ⟨u, hu, h2, h3⟩
        · rw [ih1] at h
          simp at h
        · by_cases hud : u = dest
          · subst hud
            rw [ih1] at h2
            simp at h2
          · exact hdv (hclosed u (ih2 u h2 hud) dest hdest h3)
    · intro u hu hune
      rcases matDistLe_back k src u hu with h | ⟨w, hw, h2, h3⟩
      · exact ih2 u h hune
      · by_cases hwd : w = dest
        · subst hwd
          rw [ih1] at h2
          simp at h2
        · rcases matDistLe_snd_lt (k + 1) src u hu with h' | h'
          · exact h' ▸ hsV
          · exact hclosed w (ih2 w h2 hwd) u h' h3

/-- The master invariant lemma for the `is_path_exists` BFS loop. -/
theorem pathLoop_master (adj : List (List Int)) (src dest : Nat)
    (hdest : dest < adj.length) (hne : src ≠ dest) :
    ∀ (fuel : Nat) (visited : List Bool) (qu : List Nat),
    visited.length = adj.length →
    2 * visited.count false + qu.length ≤ fuel →
    Vis visited src →
    (∀ j, Vis visited j → j < adj.length ∧ ∃ k, matDistLe adj k src j = true) →
    (∀ x ∈ qu, Vis visited x) →
    ¬ Vis visited dest →
    (∀ v, Vis visited v → v ∈ qu ∨
      ∀ w, w < adj.length → matEntry adj v w > 0 → Vis visited w) →
    ((pathLoop adj dest adj.length fuel visited qu = true →
        ∃ k, matDistLe adj k src dest = true) ∧
     (pathLoop adj dest adj.length fuel visited qu = false →
        ∀ k, matDistLe adj k src dest = false)) := by
  intro fuel
  induction fuel with
  | zero =>
    intro visited qu hlen hfuel hsV hsound hqV hdv hclosed
    have hqnil : qu = [] := by
      have := List.length_eq_zero.mp (by omega : qu.length = 0)
      exact this
    subst hqnil
    have hcl : ∀ v, Vis visited v →
        ∀ w, w < adj.length → matEntry adj v w > 0 → Vis visited w := by
      intro v hv
      rcases hclosed v hv with h | h
      · exact absurd h (by simp)
      · exact h
    refine ⟨fun h => absurd h (by simp [pathLoop]), fun _ k => ?_⟩
    exact (closed_unreachable adj src dest visited hdest hne hsV hdv hcl k).1
  | succ fuel ih =>
    intro visited qu hlen hfuel hsV hsound hqV hdv hclosed
    match qu with
    | [] =>
      have hred : pathLoop adj dest adj.length (fuel + 1) visited [] = false := by
        conv_lhs => rw [pathLoop]
      have hcl : ∀ v, Vis visited v →
          ∀ w, w < adj.length → matEntry adj v w > 0 → Vis visited w := by
        intro v hv
        rcases hclosed v hv with h | h
        · exact absurd h (by simp)
        · exact h
      rw [hred]
      refine ⟨fun h => absurd h (by simp), fun _ k => ?_⟩
      exact (closed_unreachable adj src dest visited hdest hne hsV hdv hcl k).1
    | curr :: rest =>
      have hrange : ∀ i ∈ List.range adj.length, i < visited.length := by
        intro x hx
        rw [hlen]
        exact List.mem_range.mp hx
      obtain ⟨b1, b2, b3, b4, b5, b6, b7, b8, b9, b10⟩ :=
        pathScan_facts adj curr dest (List.range adj.length) visited rest hrange
      rcases hsc : pathScan adj curr dest (List.range adj.length) visited rest
        with ⟨found, v', q'⟩
      rw [hsc] at b1 b2 b3 b4 b5 b6 b7 b8 b9 b10
      have hVcurr : Vis visited curr := hqV curr (by simp)
      cases found
      · have hred : pathLoop adj dest adj.length (fuel + 1) visited (curr :: rest)
            = pathLoop adj dest adj.length fuel v' q' := by
          conv_lhs => rw [pathLoop]
          rw [hsc]
        rw [hred]
        have hb9 := b9 rfl
        have hb10 := b10 rfl hdv (List.mem_range.mpr hdest)
        apply ih v' q'
        · rw [b1, hlen]
        · have b7' : 2 * v'.count false + q'.length
              ≤ 2 * visited.count false + rest.length := b7
          have : (2 : Nat) * visited.count false + rest.length + 1 ≤ fuel + 1 := by
            have := hfuel
            simp only [List.length_cons] at this
            omega
          omega
        · exact b2 src hsV
        · intro j hj
          rcases b3 j hj with h | ⟨h1, h2, h3⟩
          · exact hsound j h
          · have hjlt : j < adj.length := List.mem_range.mp h1
            obtain ⟨hclt, k, hk⟩ := hsound curr hVcurr
            exact ⟨hjlt, k + 1, matDistLe_extend hjlt k src curr hk h2⟩
        · intro x hx
          rcases b4 x hx with h | ⟨h1, h2⟩
          · exact b2 x (hqV x (by simp [h]))
          · exact h2
        · intro hc
          rcases b3 dest hc with h | ⟨h1, h2, h3⟩
          · exact hdv h
          · exact h3 rfl
        · intro v hv
          rcases b6 v hv with hold | hq'
          · rcases hclosed v hold with hin | hcl
            · rcases (by simpa using hin : v = curr ∨ v ∈ rest) with h | h
              · subst h
                right
                intro w hw he
                rcases hb9 w (List.mem_range.mpr hw) he with h' | h'
                · exact h'
                · subst h'
                  exact absurd he hb10
              · exact Or.inl (b5 v h)
            · right
              intro w hw he
              exact b2 w (hcl w hw he)
          · exact Or.inl hq'
      · have hred : pathLoop adj dest adj.length (fuel + 1) visited (curr :: rest)
            = true := by
          conv_lhs => rw [pathLoop]
          rw [hsc]
        rw [hred]
        refine ⟨fun _ => ?_, fun h => absurd h (by simp)⟩
        obtain ⟨hclt, k, hk⟩ := hsound curr hVcurr
        exact ⟨k + 1, matDistLe_extend hdest k src curr hk (b8 rfl)⟩

theorem getD_replicate_self {α : Type} (n j : Nat) (a : α) :
    (List.replicate n a).getD j a = a := by
  by_cases h : j < n
  · rw [List.getD_eq_getElem?_getD,
      List.getElem?_eq_getElem (by simpa using h), List.getElem_replicate]
    rfl
  · rw [getD_oob _ _ _ (by simpa using not_lt.mp h)]

theorem vis_init (n src j : Nat) (hsrc : src < n) :
    Vis ((List.replicate n false).set src true) j ↔ j = src := by
  constructor
  · intro h
    by_contra hne
    unfold Vis at h
    rw [getD_set_ne _ _ _ _ _ (fun hh => hne hh.symm),
      getD_replicate_self] at h
    simp at h
  · intro h
    subst h
    unfold Vis
    rw [getD_set_self _ _ _ _ (by simpa using hsrc)]

/-- `TrafficValidator::is_path_exists` decides directed reachability (with
in-range endpoints) exactly. -/
theorem is_path_exists_iff (adj : List (List Int)) (src dest : Nat) :
    is_path_exists adj src dest = true ↔ MatReachable adj src dest := by
  unfold is_path_exists
  by_cases hb : src ≥ adj.length ∨ dest ≥ adj.length
  · rw [if_pos hb]
    constructor
    · intro h
      simp at h
    · rintro ⟨h1, h2, -⟩
      rcases hb with h | h <;> omega
  · rw [if_neg hb]
    push_neg at hb
    obtain ⟨hsrc, hdest⟩ := hb
    by_cases heq : src = dest
    · rw [if_pos heq]
      subst heq
      simp only [true_iff]
      exact ⟨hsrc, hsrc, 0, matDistLe_refl adj 0 src⟩
    · rw [if_neg heq]
      have hlen : ((List.replicate adj.length false).set src true).length
          = adj.length := by
        simp
      have hfuel : 2 * ((List.replicate adj.length false).set src true).count false
          + ([src] : List Nat).length ≤ 2 * adj.length + 1 := by
        have hcl : ((List.replicate adj.length false).set src true).count false
            ≤ adj.length := by
          calc ((List.replicate adj.length false).set src true).count false
              ≤ ((List.replicate adj.length false).set src true).length :=
                List.count_le_length _ _
            _ = adj.length := hlen
        simp only [List.length_cons, List.length_nil]
        omega
      have hsV : Vis ((List.replicate adj.length false).set src true) src :=
        (vis_init adj.length src src hsrc).mpr rfl
      have hsound : ∀ j, Vis ((List.replicate adj.length false).set src true) j →
          j < adj.length ∧ ∃ k, matDistLe adj k src j = true := by
        intro j hj
        have := (vis_init adj.length src j hsrc).mp hj
        subst this
        exact ⟨hsrc, 0, matDistLe_refl adj 0 j⟩
      have hqV : ∀ x ∈ ([src] : List Nat),
          Vis ((List.replicate adj.length false).set src true) x := by
        intro x hx
        have : x = src := by simpa using hx
        subst this
        exact hsV
      have hdv : ¬ Vis ((List.replicate adj.length false).set src true) dest := by
        intro hc
        exact heq ((vis_init adj.length src dest hsrc).mp hc).symm
      have hclosed : ∀ v, Vis ((List.replicate adj.length false).set src true) v →
          v ∈ ([src] : List Nat) ∨
          ∀ w, w < adj.length → matEntry adj v w > 0 →
            Vis ((List.replicate adj.length false).set src true) w := by
        intro v hv
        have := (vis_init adj.length src v hsrc).mp hv
        subst this
        exact Or.inl (by simp)
      obtain ⟨hmT, hmF⟩ := pathLoop_master adj src dest hdest heq
        (2 * adj.length + 1) ((List.replicate adj.length false).set src true)
        [src] hlen hfuel hsV hsound hqV hdv hclosed
      constructor
      · intro h
        obtain ⟨k, hk⟩ := hmT h
        exact ⟨hsrc, hdest, k, hk⟩
      · rintro ⟨-, -, k, hk⟩
        cases hres : pathLoop adj dest adj.length (2 * adj.length + 1)
            ((List.replicate adj.length false).set src true) [src]
        · rw [hmF hres k] at hk
          simp at hk
        · rfl

/-- Characterization of one `connScan` row scan. -/
theorem connScan_facts (adj : List (List Int)) (curr : Nat) :
    ∀ (is : List Nat) (visited : List Bool) (st : List Nat) (count : Nat),
    (∀ i ∈ is, i < visited.length) →
    (connScan adj curr is visited st count).1.length = visited.length ∧
    (∀ j, Vis visited j → Vis (connScan adj curr is visited st count).1 j) ∧
    (∀ j, Vis (connScan adj curr is visited st count).1 j →
      Vis visited j ∨ (j ∈ is ∧ matEntry adj curr j > 0)) ∧
    (∀ x ∈ (connScan adj curr is visited st count).2.1,
      x ∈ st ∨ (x ∈ is ∧ Vis (connScan adj curr is visited st count).1 x)) ∧
    (∀ x ∈ st, x ∈ (connScan adj curr is visited st count).2.1) ∧
    (∀ j, Vis (connScan adj curr is visited st count).1 j →
      Vis visited j ∨ j ∈ (connScan adj curr is visited st count).2.1) ∧
    (2 * (connScan adj curr is visited st count).1.count false
        + (connScan adj curr is visited st count).2.1.length
      ≤ 2 * visited.count false + st.length) ∧
    (∀ j ∈ is, matEntry adj curr j > 0 →
      Vis (connScan adj curr is visited st count).1 j) ∧
    ((connScan adj curr is visited st count).2.2 + visited.count true
      = count + (connScan adj curr is visited st count).1.count true) := by
  intro is
  induction is with
  | nil =>
    intro visited st count his
    have hred : connScan adj curr [] visited st count = (visited, st, count) := rfl
    rw [hred]
    exact ⟨rfl, fun j h => h, fun j h => Or.inl h, fun x hx => Or.inl hx,
      fun x hx => hx, fun j h => Or.inl h, Nat.le_refl _,
      fun j hj => absurd hj (by simp), rfl⟩
  | cons i is ih =>
    intro visited st count his
    have hilt : i < visited.length := his i (by simp)
    by_cases hcond : matEntry adj curr i > 0 ∧ ¬(visited.getD i true)
    · have hred : connScan adj curr (i :: is) visited st count
          = connScan adj curr is (visited.set i true) (i :: st) (count + 1) := by
        conv_lhs => rw [connScan]
        rw [if_pos hcond]
      have hunvis : visited.getD i false = false := by
        have h2 := hcond.2
        rw [getD_irrel visited i true false hilt] at h2
        simpa using h2
      have his' : ∀ x ∈ is, x < (visited.set i true).length := by
        intro x hx
        rw [List.length_set]
        exact his x (by simp [hx])
      obtain ⟨b1, b2, b3, b4, b5, b6, b7, b8, b9⟩ :=
        ih (visited.set i true) (i :: st) (count + 1) his'
      rw [hred]
      have hmono : ∀ j, Vis visited j → Vis (visited.set i true) j := by
        intro j hj
        by_cases hji : j = i
        · subst hji
          unfold Vis at hj
          rw [hunvis] at hj
          exact absurd hj (by simp)
        · unfold Vis at hj ⊢
          rw [getD_set_ne visited i j true false (fun hh => hji hh.symm)]
          exact hj
      have hVi : Vis (visited.set i true) i := by
        unfold Vis
        rw [getD_set_self visited i true false hilt]
      have hback : ∀ j, Vis (visited.set i true) j → Vis visited j ∨ j = i := by
        intro j hj
        by_cases hji : j = i
        · exact Or.inr hji
        · unfold Vis at hj
          rw [getD_set_ne visited i j true false (fun hh => hji hh.symm)] at hj
          exact Or.inl hj
      obtain ⟨hcf, hct⟩ := count_false_set_true visited i hilt hunvis
      refine ⟨by rw [b1, List.length_set], ?_, ?_, ?_, ?_, ?_, ?_, ?_, ?_⟩
      · intro j hj
        exact b2 j (hmono j hj)
      · intro j hj
        rcases b3 j hj with h | ⟨h1, h2⟩
        · rcases hback j h with h' | h'
          · exact Or.inl h'
          · subst h'
            exact Or.inr ⟨by simp, hcond.1⟩
        · exact Or.inr ⟨by simp [h1], h2⟩
      · intro x hx
        rcases b4 x hx with h | ⟨h1, h2⟩
        · rcases (by simpa using h : x = i ∨ x ∈ st) with h' | h'
          · subst h'
            exact Or.inr ⟨by simp, b2 x hVi⟩
          · exact Or.inl h'
        · exact Or.inr ⟨by simp [h1], h2⟩
      · intro x hx
        exact b5 x (by simp [hx])
      · intro j hj
        rcases b6 j hj with h | h
        · rcases hback j h with h' | h'
          · exact Or.inl h'
          · subst h'
            exact Or.inr (b5 j (by simp))
        · exact Or.inr h
      · have : 2 * (visited.set i true).count false + (i :: st).length
            ≤ 2 * visited.count false + st.length := by
          simp only [List.length_cons]
          omega
        omega
      · intro j hj hje
        rcases (by simpa using hj : j = i ∨ j ∈ is) with h | h
        · subst h
          exact b2 j hVi
        · exact b8 j h hje
      · omega
    · have hred : connScan adj curr (i :: is) visited st count
          = connScan adj curr is visited st count := by
        conv_lhs => rw [connScan]
        rw [if_neg hcond]
      obtain ⟨b1, b2, b3, b4, b5, b6, b7, b8, b9⟩ :=
        ih visited st count (fun x hx => his x (by simp [hx]))
      rw [hred]
      have hvisi : matEntry adj curr i > 0 → Vis visited i := by
        intro he
        by_contra hv
        apply hcond
        refine ⟨he, ?_⟩
        rw [getD_irrel visited i true false hilt]
        unfold Vis at hv
        simpa using hv
      refine ⟨b1, b2, ?_, ?_, b5, b6, b7, ?_, b9⟩
      · intro j hj
        rcases b3 j hj with h | ⟨h1, h2⟩
        · exact Or.inl h
        · exact Or.inr ⟨by simp [h1], h2⟩
      · intro x hx
        rcases b4 x hx with h | ⟨h1, h2⟩
        · exact Or.inl h
        · exact Or.inr ⟨by simp [h1], h2⟩
      · intro j hj hje
        rcases (by simpa using hj : j = i ∨ j ∈ is) with h | h
        · subst h
          exact b2 j (hvisi hje)
        · exact b8 j h hje

/-- In a visited set containing node 0 and closed under outgoing edges,
every node reachable from 0 is visited. -/
theorem closed_complete (adj : List (List Int)) (visited : List Bool)
    (h0 : Vis visited 0)
    (hclosed : ∀ v, Vis visited v →
      ∀ w, w < adj.length → matEntry adj v w > 0 → Vis visited w) :
    ∀ k u, matDistLe adj k 0 u = true → u < adj.length → Vis visited u := by
  intro k
  induction k with
  | zero =>
    intro u hu _
    rw [matDistLe_zero] at hu
    have : (0 : Nat) = u := by simpa using hu
    subst this
    exact h0
  | succ k ih =>
    intro u hu hul
    rcases matDistLe_back k 0 u hu with h | ⟨w, hw, h2, h3⟩
    · exact ih u h hul
    · exact hclosed w (ih w h2 hw) u hul h3

/-- The master invariant lemma for the `is_graph_connected` DFS loop. -/
theorem connLoop_master (adj : List (List Int)) (hn : 0 < adj.length) :
    ∀ (fuel : Nat) (visited : List Bool) (st : List Nat) (count : Nat),
    visited.length = adj.length →
    2 * visited.count false + st.length ≤ fuel →
    count = visited.count true →
    Vis visited 0 →
    (∀ j, Vis visited j → j < adj.length ∧ ∃ k, matDistLe adj k 0 j = true) →
    (∀ x ∈ st, Vis visited x) →
    (∀ v, Vis visited v → v ∈ st ∨
      ∀ w, w < adj.length → matEntry adj v w > 0 → Vis visited w) →
    ((connLoop adj adj.length fuel visited st count).1 = adj.length ↔
      ∀ i, i < adj.length → MatReachable adj 0 i) := by
  intro fuel
  induction fuel with
  | zero =>
    intro visited st count hlen hfuel hcount h0 hsound hstV hclosed
    have hstnil : st = [] := List.length_eq_zero.mp (by omega)
    subst hstnil
    have hred : connLoop adj adj.length 0 visited [] count = (count, visited) := rfl
    rw [hred]
    have hcl : ∀ v, Vis visited v →
        ∀ w, w < adj.length → matEntry adj v w > 0 → Vis visited w := by
      intro v hv
      rcases hclosed v hv with h | h
      · exact absurd h (by simp)
      · exact h
    constructor
    · intro hc i hi
      have hc' : count = adj.length := hc
      have hall : ∀ j, j < visited.length → visited.getD j false = true := by
        apply (count_true_eq_length_iff visited).mp
        omega
      have hv : Vis visited i := hall i (by rw [hlen]; exact hi)
      obtain ⟨_, k, hk⟩ := hsound i hv
      exact ⟨hn, hi, k, hk⟩
    · intro hr
      have hall : ∀ j, j < visited.length → visited.getD j false = true := by
        intro j hj
        have hjn : j < adj.length := by rw [← hlen]; exact hj
        obtain ⟨-, -, k, hk⟩ := hr j hjn
        exact closed_complete adj visited h0 hcl k j hk hjn
      have : List.count true visited = visited.length :=
        (count_true_eq_length_iff visited).mpr hall
      show count = adj.length
      omega
    | succ fuel ih =>
    intro visited st count hlen hfuel hcount h0 hsound hstV hclosed
    match st with
    | [] =>
      have hred : connLoop adj adj.length (fuel + 1) visited [] count
          = (count, visited) := by
        conv_lhs => rw [connLoop]
      rw [hred]
      have hcl : ∀ v, Vis visited v →
          ∀ w, w < adj.length → matEntry adj v w > 0 → Vis visited w := by
        intro v hv
        rcases hclosed v hv with h | h
        · exact absurd h (by simp)
        · exact h
      constructor
      · intro hc i hi
        have hc' : count = adj.length := hc
        have hall : ∀ j, j < visited.length → visited.getD j false = true := by
          apply (count_true_eq_length_iff visited).mp
          omega
        have hv : Vis visited i := hall i (by rw [hlen]; exact hi)
        obtain ⟨_, k, hk⟩ := hsound i hv
        exact ⟨hn, hi, k, hk⟩
      · intro hr
        have hall : ∀ j, j < visited.length → visited.getD j false = true := by
          intro j hj
          have hjn : j < adj.length := by rw [← hlen]; exact hj
          obtain ⟨-, -, k, hk⟩ := hr j hjn
          exact closed_complete adj visited h0 hcl k j hk hjn
        have : List.count true visited = visited.length :=
          (count_true_eq_length_iff visited).mpr hall
        show count = adj.length
        omega
    | curr :: rest =>
      have hrange : ∀ i ∈ List.range adj.length, i < visited.length := by
        intro x hx
        rw [hlen]
        exact List.mem_range.mp hx
      obtain ⟨b1, b2, b3, b4, b5, b6, b7, b8, b9⟩ :=
        connScan_facts adj curr (List.range adj.length) visited rest count hrange
      rcases hsc : connScan adj curr (List.range adj.length) visited rest count
        with ⟨v', st', c'⟩
      rw [hsc] at b1 b2 b3 b4 b5 b6 b7 b8 b9
      have hVcurr : Vis visited curr := hstV curr (by simp)
      have hred : connLoop adj adj.length (fuel + 1) visited (curr :: rest) count
          = connLoop adj adj.length fuel v' st' c' := by
        conv_lhs => rw [connLoop]
        rw [hsc]
      rw [hred]
      apply ih v' st' c'
      · rw [b1, hlen]
      · have b7' : 2 * v'.count false + st'.length
            ≤ 2 * visited.count false + rest.length := b7
        have : (2 : Nat) * visited.count false + (curr :: rest).length ≤ fuel + 1 :=
          hfuel
        simp only [List.length_cons] at this
        omega
      · have b9' : c' + visited.count true = count + v'.count true := b9
        omega
      · exact b2 0 h0
      · intro j hj
        rcases b3 j hj with h | ⟨h1, h2⟩
        · exact hsound j h
        · have hjlt : j < adj.length := List.mem_range.mp h1
          obtain ⟨hclt, k, hk⟩ := hsound curr hVcurr
          exact ⟨hjlt, k + 1, matDistLe_extend hjlt k 0 curr hk h2⟩
      · intro x hx
        rcases b4 x hx with h | ⟨h1, h2⟩
        · exact b2 x (hstV x (by simp [h]))
        · exact h2
      · intro v hv
        rcases b6 v hv with hold | hst'
        · rcases hclosed v hold with hin | hcl
          · rcases (by simpa using hin : v = curr ∨ v ∈ rest) with h | h
            · subst h
              right
              intro w hw he
              exact b8 w (List.mem_range.mpr hw) he
            · exact Or.inl (b5 v h)
          · right
            intro w hw he
            exact b2 w (hcl w hw he)
        · exact Or.inl hst'

/-- `TrafficValidator::is_graph_connected` decides DIRECTED reachability of
every node from node 0 (true iff the matrix is non-empty and every node is
reachable from node 0 along directed edges). -/
theorem is_graph_connected_iff (adj : List (List Int)) :
    is_graph_connected adj = true ↔
      (0 < adj.length ∧ ∀ i, i < adj.length → MatReachable adj 0 i) := by
  unfold is_graph_connected
  by_cases hn : adj.length = 0
  · rw [if_pos hn]
    constructor
    · intro h
      simp at h
    · rintro ⟨h0, -⟩
      omega
  · rw [if_neg hn]
    have hn' : 0 < adj.length := Nat.pos_of_ne_zero hn
    have hlen : ((List.replicate adj.length false).set 0 true).length
        = adj.length := by simp
    have h0unvis : (List.replicate adj.length false).getD 0 false = false :=
      getD_replicate_self _ _ _
    have h0lt : (0 : Nat) < (List.replicate adj.length false).length := by
      simpa using hn'
    obtain ⟨hcf, hct⟩ := count_false_set_true (List.replicate adj.length false)
      0 h0lt h0unvis
    have hmaster := connLoop_master adj hn' (2 * adj.length + 1)
      ((List.replicate adj.length false).set 0 true) [0] 1
      hlen
      (by
        have : ((List.replicate adj.length false).set 0 true).count false
            ≤ adj.length := by
          calc ((List.replicate adj.length false).set 0 true).count false
              ≤ ((List.replicate adj.length false).set 0 true).length :=
                List.count_le_length _ _
            _ = adj.length := hlen
        simp only [List.length_cons, List.length_nil]
        omega)
      (by
        have h0rep : List.count true (List.replicate adj.length false) = 0 := by
          rw [List.count_eq_zero]
          simp
        omega)
      ((vis_init adj.length 0 0 hn').mpr rfl)
      (by
        intro j hj
        have := (vis_init adj.length 0 j hn').mp hj
        subst this
        exact ⟨hn', 0, matDistLe_refl adj 0 0⟩)
      (by
        intro x hx
        have : x = 0 := by simpa using hx
        subst this
        exact (vis_init adj.length 0 0 hn').mpr rfl)
      (by
        intro v hv
        have := (vis_init adj.length 0 v hn').mp hv
        subst this
        exact Or.inl (by simp))
    simp only [decide_eq_true_eq]
    constructor
    · intro h
      exact ⟨hn', hmaster.mp h⟩
    · rintro ⟨-, h⟩
      exact hmaster.mpr h

/-- `TrafficValidator::are_destinations_reachable` is the conjunction of
`is_path_exists` over the destination pairs. -/
theorem are_destinations_reachable_iff (adj : List (List Int))
    (dests : List (Nat × Nat)) :
    are_destinations_reachable adj dests = true ↔
      ∀ p ∈ dests, is_path_exists adj p.1 p.2 = true := by
  induction dests with
  | nil =>
    have hred : are_destinations_reachable adj [] = true := rfl
    rw [hred]
    simp
  | cons p rest ih =>
    rcases p with ⟨s, d⟩
    by_cases h : is_path_exists adj s d = true
    · have hred : are_destinations_reachable adj ((s, d) :: rest)
          = are_destinations_reachable adj rest := by
        conv_lhs => rw [are_destinations_reachable]
        rw [if_pos h]
      rw [hred, ih]
      constructor
      · intro hall q hq
        rcases (by simpa using hq : q = (s, d) ∨ q ∈ rest) with h' | h'
        · subst h'
          exact h
        · exact hall q h'
      · intro hall q hq
        exact hall q (by simp [hq])
    · have hred : are_destinations_reachable adj ((s, d) :: rest) = false := by
        conv_lhs => rw [are_destinations_reachable]
        rw [if_neg h]
      rw [hred]
      constructor
      · intro hf
        exact absurd hf (by simp)
      · intro hall
        exact absurd (hall (s, d) (by simp)) h

/-- The capacity loop of `validate_input` is the conjunction of
positivity over the node list. -/
theorem capacities_positive_iff (nodes : List NodeData) :
    capacities_positive nodes = true ↔ ∀ nd ∈ nodes, 0 < nd.capacity := by
  induction nodes with
  | nil =>
    have hred : capacities_positive [] = true := rfl
    rw [hred]
    simp
  | cons nd rest ih =>
    by_cases h : nd.capacity ≤ 0
    · have hred : capacities_positive (nd :: rest) = false := by
        conv_lhs => rw [capacities_positive]
        rw [if_pos h]
      rw [hred]
      constructor
      · intro hf
        exact absurd hf (by simp)
      · intro hall
        exact absurd (hall nd (by simp)) (by omega)
    · have hred : capacities_positive (nd :: rest) = capacities_positive rest := by
        conv_lhs => rw [capacities_positive]
        rw [if_neg h]
      rw [hred, ih]
      constructor
      · intro hall x hx
        rcases (by simpa using hx : x = nd ∨ x ∈ rest) with h' | h'
        · subst h'
          omega
        · exact hall x h'
      · intro hall x hx
        exact hall x (by simp [hx])

/-- **C2** counterexample: on the two-node matrix with the single edge
1 → 0 (undirected-connected, empty destination map, both capacities
positive) the claim says the validator returns INPUT_VALID, but the code's
`is_graph_connected` follows DIRECTED edges only, finds node 1 unreachable
from node 0, and `validate_input` returns DISCONNECTED_GRAPH. -/
theorem C2_validator_counterexample :
    validate_input cxAdj cxNodes [] = InputValidationResult.DISCONNECTED_GRAPH ∧
    (∀ i, i < cxAdj.length → UMatReachable cxAdj 0 i) ∧
    capacities_positive cxNodes = true := by
  refine ⟨by decide, ?_, by decide⟩
  intro i hi
  have h2 : i < 2 := by simpa [cxAdj] using hi
  have : i = 0 ∨ i = 1 := by omega
  rcases this with h | h <;> subst h
  · exact ⟨by decide, by decide, 0, by decide⟩
  · exact ⟨by decide, by decide, 1, by decide⟩

/-- **C2** (amended): `validate_input` returns INPUT_VALID iff every node is
reachable from node 0 along DIRECTED edges (not undirected as claimed, and
requiring a non-empty matrix), every destination pair is connected by a
directed path, and every capacity is positive; the three checks
short-circuit in that order, each failure code characterized exactly. -/
theorem C2_validator_amended (adj : List (List Int)) (nodes : List NodeData)
    (dests : List (Nat × Nat)) :
    (validate_input adj nodes dests = InputValidationResult.INPUT_VALID ↔
      ((0 < adj.length ∧ ∀ i, i < adj.length → MatReachable adj 0 i) ∧
        (∀ p ∈ dests, MatReachable adj p.1 p.2) ∧
        (∀ nd ∈ nodes, 0 < nd.capacity))) ∧
    (validate_input adj nodes dests = InputValidationResult.DISCONNECTED_GRAPH ↔
      ¬ (0 < adj.length ∧ ∀ i, i < adj.length → MatReachable adj 0 i)) ∧
    (validate_input adj nodes dests = InputValidationResult.UNREACHABLE_DESTINATION ↔
      ((0 < adj.length ∧ ∀ i, i < adj.length → MatReachable adj 0 i) ∧
        ¬ ∀ p ∈ dests, MatReachable adj p.1 p.2)) ∧
    (validate_input adj nodes dests = InputValidationResult.INVALID_CAPACITY ↔
      ((0 < adj.length ∧ ∀ i, i < adj.length → MatReachable adj 0 i) ∧
        (∀ p ∈ dests, MatReachable adj p.1 p.2) ∧
        ¬ ∀ nd ∈ nodes, 0 < nd.capacity)) := by
  have hPc := is_graph_connected_iff adj
  have hPd : are_destinations_reachable adj dests = true ↔
      ∀ p ∈ dests, MatReachable adj p.1 p.2 := by
    rw [are_destinations_reachable_iff]
    constructor
    · intro h p hp
      exact (is_path_exists_iff adj p.1 p.2).mp (h p hp)
    · intro h p hp
      exact (is_path_exists_iff adj p.1 p.2).mpr (h p hp)
  have hPcap := capacities_positive_iff nodes
  by_cases h1 : is_graph_connected adj = true
  · by_cases h2 : are_destinations_reachable adj dests = true
    · by_cases h3 : capacities_positive nodes = true
      · have hv : validate_input adj nodes dests = .INPUT_VALID := by
          unfold validate_input
          rw [h1, h2, h3]
          simp
        rw [hv]
        refine ⟨?_, ?_, ?_, ?_⟩
        · exact iff_of_true rfl ⟨hPc.mp h1, hPd.mp h2, hPcap.mp h3⟩
        · exact iff_of_false (by simp) (fun h => h (hPc.mp h1))
        · exact iff_of_false (by simp) (fun h => h.2 (hPd.mp h2))
        · exact iff_of_false (by simp) (fun h => h.2.2 (hPcap.mp h3))
      · have h3' : capacities_positive nodes = false := by
          cases hh : capacities_positive nodes
          · rfl
          · exact absurd hh h3
        have hv : validate_input adj nodes dests = .INVALID_CAPACITY := by
          unfold validate_input
          rw [h1, h2, h3']
          simp
        have hncap : ¬ ∀ nd ∈ nodes, 0 < nd.capacity :=
          fun hc => h3 (hPcap.mpr hc)
        rw [hv]
        refine ⟨?_, ?_, ?_, ?_⟩
        · exact iff_of_false (by simp) (fun h => hncap h.2.2)
        · exact iff_of_false (by simp) (fun h => h (hPc.mp h1))
        · exact iff_of_false (by simp) (fun h => h.2 (hPd.mp h2))
        · exact iff_of_true rfl ⟨hPc.mp h1, hPd.mp h2, hncap⟩
    · have h2' : are_destinations_reachable adj dests = false := by
        cases hh : are_destinations_reachable adj dests
        · rfl
        · exact absurd hh h2
      have hv : validate_input adj nodes dests = .UNREACHABLE_DESTINATION := by
        unfold validate_input
        rw [h1, h2']
        simp
      have hnd : ¬ ∀ p ∈ dests, MatReachable adj p.1 p.2 :=
        fun hc => h2 (hPd.mpr hc)
      rw [hv]
      refine ⟨?_, ?_, ?_, ?_⟩
      · exact iff_of_false (by simp) (fun h => hnd h.2.1)
      · exact iff_of_false (by simp) (fun h => h (hPc.mp h1))
      · exact iff_of_true rfl ⟨hPc.mp h1, hnd⟩
      · exact iff_of_false (by simp) (fun h => hnd h.2.1)
  · have h1' : is_graph_connected adj = false := by
      cases hh : is_graph_connected adj
      · rfl
      · exact absurd hh h1
    have hv : validate_input adj nodes dests = .DISCONNECTED_GRAPH := by
      unfold validate_input
      rw [h1']
      simp
    have hnc : ¬ (0 < adj.length ∧ ∀ i, i < adj.length → MatReachable adj 0 i) :=
      fun hc => h1 (hPc.mpr hc)
    rw [hv]
    refine ⟨?_, ?_, ?_, ?_⟩
    · exact iff_of_false (by simp) (fun h => hnc h.1)
    · exact iff_of_true rfl hnc
    · exact iff_of_false (by simp) (fun h => hnc h.1)
    · exact iff_of_false (by simp) (fun h => hnc h.1)

theorem distLe_zero (nodes : List NodeData) (a b : Nat) :
    distLe nodes 0 a b = (a == b) := rfl

theorem distLe_succ (nodes : List NodeData) (k a b : Nat) :
    distLe nodes (k + 1) a b
      = (a == b || (adjOf nodes a).any (fun c => distLe nodes k c b)) := rfl

theorem distLe_refl (nodes : List NodeData) : ∀ k a, distLe nodes k a a = true := by
  intro k a
  cases k with
  | zero => simp [distLe_zero]
  | succ k =>
    rw [distLe_succ]
    simp

theorem distLe_mono {nodes : List NodeData} :
    ∀ k a b, distLe nodes k a b = true → distLe nodes (k + 1) a b = true := by
  intro k
  induction k with
  | zero =>
    intro a b h
    rw [distLe_zero] at h
    rw [distLe_succ]
    simp only [Bool.or_eq_true]
    exact Or.inl h
  | succ k ih =>
    intro a b h
    rw [distLe_succ] at h
    rw [distLe_succ]
    simp only [Bool.or_eq_true, List.any_eq_true] at h ⊢
    rcases h with h | ⟨c, hc, hd⟩
    · exact Or.inl h
    · exact Or.inr ⟨c, hc, ih c b hd⟩

theorem distLe_of_le {nodes : List NodeData} :
    ∀ k' k a b, k ≤ k' → distLe nodes k a b = true → distLe nodes k' a b = true := by
  intro k'
  induction k' with
  | zero =>
    intro k a b hk h
    have : k = 0 := by omega
    subst this
    exact h
  | succ k' ih =>
    intro k a b hk h
    by_cases hke : k = k' + 1
    · subst hke
      exact h
    · exact distLe_mono k' a b (ih k a b (by omega) h)

theorem distLe_back {nodes : List NodeData} :
    ∀ k a b, distLe nodes (k + 1) a b = true →
      distLe nodes k a b = true ∨
      ∃ u, distLe nodes k a u = true ∧ b ∈ adjOf nodes u := by
  intro k
  induction k with
  | zero =>
    intro a b h
    rw [distLe_succ] at h
    simp only [Bool.or_eq_true, List.any_eq_true, distLe_zero] at h
    rcases h with h | ⟨c, hc, hd⟩
    · exact Or.inl (by rw [distLe_zero]; exact h)
    · have hcb : c = b := by simpa using hd
      subst hcb
      exact Or.inr ⟨a, by rw [distLe_zero]; simp, hc⟩
  | succ k ih =>
    intro a b h
    rw [distLe_succ] at h
    simp only [Bool.or_eq_true, List.any_eq_true] at h
    rcases h with h | ⟨c, hc, hd⟩
    · left
      rw [distLe_succ]
      simp only [Bool.or_eq_true]
      exact Or.inl h
    · rcases ih c b hd with h1 | ⟨u, h2, h3⟩
      · left
        rw [distLe_succ]
        simp only [Bool.or_eq_true, List.any_eq_true]
        exact Or.inr ⟨c, hc, h1⟩
      · right
        refine ⟨u, ?_, h3⟩
        rw [distLe_succ]
        simp only [Bool.or_eq_true, List.any_eq_true]
        exact Or.inr ⟨c, hc, h2⟩

theorem adjOf_oob (nodes : List NodeData) (i : Nat) (h : nodes.length ≤ i) :
    adjOf nodes i = [] := by
  unfold adjOf
  rw [getD_oob _ _ _ h]
  rfl

theorem adjOf_lt {nodes : List NodeData} (hwf : WFAdj nodes) :
    ∀ a, ∀ j ∈ adjOf nodes a, j < nodes.length := by
  intro a j hj
  by_cases ha : a < nodes.length
  · exact hwf a ha j hj
  · rw [adjOf_oob nodes a (not_lt.mp ha)] at hj
    exact absurd hj (by simp)

theorem distLe_snd_lt {nodes : List NodeData} (hwf : WFAdj nodes) :
    ∀ k a b, distLe nodes k a b = true → a = b ∨ b < nodes.length := by
  intro k
  induction k with
  | zero =>
    intro a b h
    rw [distLe_zero] at h
    exact Or.inl (by simpa using h)
  | succ k ih =>
    intro a b h
    rw [distLe_succ] at h
    simp only [Bool.or_eq_true, List.any_eq_true] at h
    rcases h with h | ⟨c, hc, hd⟩
    · exact Or.inl (by simpa using h)
    · rcases ih c b hd with h1 | h1
      · exact Or.inr (h1 ▸ adjOf_lt hwf a c hc)
      · exact Or.inr h1

theorem distLe_extend {nodes : List NodeData} :
    ∀ k a u b, distLe nodes k a u = true → b ∈ adjOf nodes u →
      distLe nodes (k + 1) a b = true := by
  intro k
  induction k with
  | zero =>
    intro a u b h hb
    rw [distLe_zero] at h
    have : a = u := by simpa using h
    subst this
    rw [distLe_succ]
    simp only [Bool.or_eq_true, List.any_eq_true]
    exact Or.inr ⟨b, hb, by rw [distLe_zero]; simp⟩
  | succ k ih =>
    intro a u b h hb
    rw [distLe_succ] at h
    simp only [Bool.or_eq_true, List.any_eq_true] at h
    rw [distLe_succ]
    simp only [Bool.or_eq_true, List.any_eq_true]
    rcases h with h | ⟨c, hc, hd⟩
    · have : a = u := by simpa using h
      subst this
      exact Or.inr ⟨b, hb, distLe_refl nodes (k + 1) b⟩
    · exact Or.inr ⟨c, hc, ih c u b hd hb⟩

theorem distLe_closed {nodes : List NodeData} {visited : List Bool} {src : Nat}
    (h0 : Vis visited src)
    (hcl : ∀ v, Vis visited v → ∀ w ∈ adjOf nodes v, Vis visited w) :
    ∀ k u, distLe nodes k src u = true → Vis visited u := by
  intro k
  induction k with
  | zero =>
    intro u h
    rw [distLe_zero] at h
    have : src = u := by simpa using h
    subst this
    exact h0
  | succ k ih =>
    intro u h
    rcases distLe_back k src u h with h1 | ⟨w, h2, h3⟩
    · exact ih u h1
    · exact hcl w (ih w h2) u h3

theorem distE_unique {nodes : List NodeData} {src u k k' : Nat}
    (h : distE nodes src u k) (h' : distE nodes src u k') : k = k' := by
  by_contra hne
  rcases Nat.lt_or_ge k k' with hlt | hge
  · exact absurd h.1 (by simp [h'.2 k hlt])
  · have hlt : k' < k := by omega
    exact absurd h'.1 (by simp [h.2 k' hlt])

theorem distE_self_zero {nodes : List NodeData} {src k : Nat}
    (h : distE nodes src src k) : k = 0 := by
  by_contra hne
  have h0 := h.2 0 (by omega)
  rw [distLe_zero] at h0
  simp at h0

theorem level_count_lt (n d : Nat) (P : Nat → Nat → Prop)
    (hex : ∀ j, j ≤ d → ∃ u, u < n ∧ P j u)
    (huniq : ∀ j j' u, j ≤ d → j' ≤ d → P j u → P j' u → j = j') :
    d < n := by
  classical
  have hmain : (Finset.range (d + 1)).card ≤ (Finset.range n).card := by
    apply Finset.card_le_card_of_injOn
      (fun j => if h : j ≤ d then Classical.choose (hex j h) else 0)
    · intro j hj
      simp only [Finset.mem_range] at hj
      have hjd : j ≤ d := by omega
      simp only [Finset.mem_range, dif_pos hjd]
      exact (Classical.choose_spec (hex j hjd)).1
    · intro j hj j' hj' heq
      simp only [Finset.coe_range, Set.mem_Iio] at hj hj'
      have hjd : j ≤ d := by omega
      have hjd' : j' ≤ d := by omega
      simp only [dif_pos hjd, dif_pos hjd'] at heq
      refine huniq j j' (Classical.choose (hex j hjd)) hjd hjd'
        (Classical.choose_spec (hex j hjd)).2 ?_
      rw [heq]
      exact (Classical.choose_spec (hex j' hjd')).2
  simpa using hmain

/-- Characterization of one neighbour scan of the router BFS: lengths are
preserved, visitedness is monotone, every new mark is a scanned neighbour
whose parent is set to `curr` and which is appended to the queue, old parent
entries survive, the fuel measure decreases weakly, and afterwards every
scanned neighbour is visited. -/
theorem bfsScan_facts (curr : Nat) :
    ∀ (nbrs : List Nat) (visited : List Bool) (parent : List (Option Nat))
      (qu : List Nat),
    (∀ nb ∈ nbrs, nb < visited.length ∧ nb < parent.length) →
    (bfsScan curr nbrs visited parent qu).1.length = visited.length ∧
    (bfsScan curr nbrs visited parent qu).2.1.length = parent.length ∧
    (∀ j, Vis visited j → Vis (bfsScan curr nbrs visited parent qu).1 j) ∧
    (∀ j, Vis (bfsScan curr nbrs visited parent qu).1 j →
      Vis visited j ∨ j ∈ nbrs) ∧
    (∀ u, (¬ Vis (bfsScan curr nbrs visited parent qu).1 u ∨ Vis visited u) →
      (bfsScan curr nbrs visited parent qu).2.1.getD u none
        = parent.getD u none) ∧
    (∀ u, Vis (bfsScan curr nbrs visited parent qu).1 u → ¬ Vis visited u →
      (bfsScan curr nbrs visited parent qu).2.1.getD u none = some curr ∧
        u ∈ nbrs) ∧
    (∃ new, (bfsScan curr nbrs visited parent qu).2.2 = qu ++ new ∧
      ∀ u ∈ new, Vis (bfsScan curr nbrs visited parent qu).1 u ∧
        ¬ Vis visited u ∧ u ∈ nbrs) ∧
    (2 * (bfsScan curr nbrs visited parent qu).1.count false
        + (bfsScan curr nbrs visited parent qu).2.2.length
      ≤ 2 * visited.count false + qu.length) ∧
    (∀ w ∈ nbrs, Vis (bfsScan curr nbrs visited parent qu).1 w) ∧
    (∀ u, Vis (bfsScan curr nbrs visited parent qu).1 u → ¬ Vis visited u →
      u ∈ (bfsScan curr nbrs visited parent qu).2.2) := by
  intro nbrs
  induction nbrs with
  | nil =>
    intro visited parent qu _
    have hred : bfsScan curr [] visited parent qu = (visited, parent, qu) := rfl
    rw [hred]
    exact ⟨rfl, rfl, fun j h => h, fun j h => Or.inl h, fun u _ => rfl,
      fun u hv hnv => absurd hv hnv, ⟨[], by simp, by simp⟩, by simp,
      fun w hw => absurd hw (by simp),
      fun u hv hnv => absurd hv hnv⟩
  | cons nb rest ih =>
    intro visited parent qu hbnd
    obtain ⟨hnbv, hnbp⟩ := hbnd nb (by simp)
    by_cases hv : visited.getD nb true = true
    · have hred : bfsScan curr (nb :: rest) visited parent qu
          = bfsScan curr rest visited parent qu := by
        conv_lhs => rw [bfsScan]
        rw [if_pos hv]
      have hVnb : Vis visited nb := by
        unfold Vis
        rw [getD_irrel visited nb false true hnbv]
        exact hv
      obtain ⟨b1, b2, b3, b4, b5, b6, b7, b8, b9, b10⟩ :=
        ih visited parent qu (fun x hx => hbnd x (by simp [hx]))
      rw [hred]
      refine ⟨b1, b2, b3, ?_, b5, ?_, ?_, b8, ?_, b10⟩
      · intro j hj
        rcases b4 j hj with h | h
        · exact Or.inl h
        · exact Or.inr (by simp [h])
      · intro u hu hnu
        obtain ⟨hp, hm⟩ := b6 u hu hnu
        exact ⟨hp, by simp [hm]⟩
      · obtain ⟨new, hq, hprops⟩ := b7
        exact ⟨new, hq, fun u hu =>
          ⟨(hprops u hu).1, (hprops u hu).2.1, by simp [(hprops u hu).2.2]⟩⟩
      · intro w hw
        rcases (by simpa using hw : w = nb ∨ w ∈ rest) with h | h
        · subst h
          exact b3 w hVnb
        · exact b9 w h
    · have hred : bfsScan curr (nb :: rest) visited parent qu
          = bfsScan curr rest (visited.set nb true)
              (parent.set nb (some curr)) (qu ++ [nb]) := by
        conv_lhs => rw [bfsScan]
        rw [if_neg hv]
      have hunvis : visited.getD nb false = false := by
        rw [getD_irrel visited nb false true hnbv]
        simpa using hv
      have hnVnb : ¬ Vis visited nb := by
        unfold Vis
        rw [hunvis]
        simp
      have hbnd' : ∀ x ∈ rest, x < (visited.set nb true).length ∧
          x < (parent.set nb (some curr)).length := by
        intro x hx
        rw [List.length_set, List.length_set]
        exact hbnd x (by simp [hx])
      obtain ⟨b1, b2, b3, b4, b5, b6, b7, b8, b9, b10⟩ :=
        ih (visited.set nb true) (parent.set nb (some curr)) (qu ++ [nb]) hbnd'
      rw [hred]
      have hVset : Vis (visited.set nb true) nb := by
        unfold Vis
        rw [getD_set_self visited nb true false hnbv]
      have hmono : ∀ j, Vis visited j → Vis (visited.set nb true) j := by
        intro j hj
        by_cases hji : j = nb
        · subst hji
          exact absurd hj hnVnb
        · unfold Vis at hj ⊢
          rw [getD_set_ne visited nb j true false (fun hh => hji hh.symm)]
          exact hj
      have hback : ∀ j, Vis (visited.set nb true) j → Vis visited j ∨ j = nb := by
        intro j hj
        by_cases hji : j = nb
        · exact Or.inr hji
        · unfold Vis at hj
          rw [getD_set_ne visited nb j true false (fun hh => hji hh.symm)] at hj
          exact Or.inl hj
      obtain ⟨hcf, hct⟩ := count_false_set_true visited nb hnbv hunvis
      refine ⟨?_, ?_, ?_, ?_, ?_, ?_, ?_, ?_, ?_, ?_⟩
      · rw [b1, List.length_set]
      · rw [b2, List.length_set]
      · intro j hj
        exact b3 j (hmono j hj)
      · intro j hj
        rcases b4 j hj with h | h
        · rcases hback j h with h' | h'
          · exact Or.inl h'
          · exact Or.inr (by simp [h'])
        · exact Or.inr (by simp [h])
      · intro u hu
        have hune : u ≠ nb := by
          intro he
          subst he
          rcases hu with h | h
          · exact h (b3 u hVset)
          · exact hnVnb h
        have hu' : ¬ Vis (bfsScan curr rest (visited.set nb true)
            (parent.set nb (some curr)) (qu ++ [nb])).1 u ∨
            Vis (visited.set nb true) u := by
          rcases hu with h | h
          · exact Or.inl h
          · exact Or.inr (hmono u h)
        rw [b5 u hu']
        exact getD_set_ne parent nb u (some curr) none (fun hh => hune hh.symm)
      · intro u hu hnu
        by_cases hune : u = nb
        · subst hune
          refine ⟨?_, by simp⟩
          rw [b5 u (Or.inr hVset)]
          exact getD_set_self parent u (some curr) none hnbp
        · have hnsu : ¬ Vis (visited.set nb true) u := by
            intro h
            rcases hback u h with h' | h'
            · exact hnu h'
            · exact hune h'
          obtain ⟨hp, hm⟩ := b6 u hu hnsu
          exact ⟨hp, by simp [hm]⟩
      · obtain ⟨new, hq, hprops⟩ := b7
        refine ⟨nb :: new, ?_, ?_⟩
        · rw [hq, List.append_assoc]
          rfl
        · intro u hu
          rcases (by simpa using hu : u = nb ∨ u ∈ new) with h | h
          · subst h
            exact ⟨b3 u hVset, hnVnb, by simp⟩
          · obtain ⟨p1, p2, p3⟩ := hprops u h
            refine ⟨p1, ?_, by simp [p3]⟩
            intro hvu
            exact p2 (hmono u hvu)
      · have hq : (qu ++ [nb]).length = qu.length + 1 := by simp
        omega
      · intro w hw
        rcases (by simpa using hw : w = nb ∨ w ∈ rest) with h | h
        · subst h
          exact b3 w hVset
        · exact b9 w h
      · intro u hu hnu
        by_cases hune : u = nb
        · subst hune
          obtain ⟨new, hq, _⟩ := b7
          rw [hq]
          simp
        · have hnsu : ¬ Vis (visited.set nb true) u := by
            intro h
            rcases hback u h with h' | h'
            · exact hnu h'
            · exact hune h'
          exact b10 u hu hnsu

/-- Correctness of the parent walk: starting from a visited node at exact
distance `m ≥ 1` from `from_node`, following BFS parent pointers returns a
direct neighbour of `from_node` that reaches the start node in at most
`m - 1` further steps. -/
theorem walkParents_spec {nodes : List NodeData} {visited : List Bool}
    {parent : List (Option Nat)} {from_node : Nat}
    (h6 : ∀ u c, parent.getD u none = some c → Vis visited u ∧ Vis visited c ∧
      u ∈ adjOf nodes c ∧
      ∃ k, distE nodes from_node c k ∧ distE nodes from_node u (k + 1))
    (h7 : ∀ u, Vis visited u → u = from_node ∨ ∃ c, parent.getD u none = some c) :
    ∀ m u fuel, m ≤ fuel → Vis visited u → distE nodes from_node u m → 1 ≤ m →
      walkParents parent from_node fuel u ∈ adjOf nodes from_node ∧
      distLe nodes (m - 1) (walkParents parent from_node fuel u) u = true := by
  intro m
  induction m with
  | zero =>
    intro u fuel _ _ _ h1
    omega
  | succ m ih =>
    intro u fuel hfuel hVu hE _
    have hune : u ≠ from_node := by
      intro he
      subst he
      have h0 := hE.2 0 (by omega)
      rw [distLe_zero] at h0
      simp at h0
    rcases h7 u hVu with he | ⟨c, hc⟩
    · exact absurd he hune
    obtain ⟨hVu', hVc, hadj, k, hEc, hEu⟩ := h6 u c hc
    have hk : k = m := by
      have := distE_unique hEu hE
      omega
    rw [hk] at hEc hEu
    obtain ⟨f, hf⟩ : ∃ f, fuel = f + 1 := ⟨fuel - 1, by omega⟩
    subst hf
    have hred : walkParents parent from_node (f + 1) u
        = if c = from_node then u else walkParents parent from_node f c := by
      conv_lhs => rw [walkParents]
      rw [hc]
    by_cases hcf : c = from_node
    · rw [hred, if_pos hcf]
      subst hcf
      refine ⟨hadj, ?_⟩
      have hms : m + 1 - 1 = m := rfl
      rw [hms]
      exact distLe_refl nodes m u
    · rw [hred, if_neg hcf]
      have hm1 : 1 ≤ m := by
        by_contra hm0
        have hm : m = 0 := by omega
        subst hm
        have h0 := hEc.1
        rw [distLe_zero] at h0
        have : from_node = c := by simpa using h0
        exact hcf this.symm
      have hrec := ih c f (by omega) hVc hEc hm1
      refine ⟨hrec.1, ?_⟩
      have hext := distLe_extend (m - 1) (walkParents parent from_node f c) c u
        hrec.2 hadj
      have hm' : m - 1 + 1 = m := by omega
      rw [hm'] at hext
      have hms : m + 1 - 1 = m := rfl
      rw [hms]
      exact hext

/-- The master invariant lemma for the router BFS loop: under the standard
BFS invariants (two-layer queue of exact distances `d`/`d+1`, shortest-path
parent pointers, every node within distance `d` visited, all levels up to
`d` inhabited), the loop either returns the first hop of a shortest path to
the destination, or returns `none` and the destination is unreachable. -/
theorem bfsLoop_master (nodes : List NodeData) (hwf : WFAdj nodes)
    (from_node destination : Nat) (hfrom : from_node < nodes.length)
    (hdf : destination ≠ from_node) :
    ∀ (fuel : Nat) (visited : List Bool) (parent : List (Option Nat))
      (qu : List Nat) (d : Nat),
    visited.length = nodes.length →
    parent.length = nodes.length →
    2 * visited.count false + qu.length ≤ fuel →
    Vis visited from_node →
    parent.getD from_node none = none →
    (∀ u c, parent.getD u none = some c → Vis visited u ∧ Vis visited c ∧
      u ∈ adjOf nodes c ∧
      ∃ k, distE nodes from_node c k ∧ distE nodes from_node u (k + 1)) →
    (∀ u, Vis visited u → u = from_node ∨ ∃ c, parent.getD u none = some c) →
    (∀ u, Vis visited u → u < nodes.length) →
    (∀ u, Vis visited u → u ∈ qu ∨ ∀ w ∈ adjOf nodes u, Vis visited w) →
    (Vis visited destination → destination ∈ qu) →
    (∃ A B, qu = A ++ B ∧
      (∀ u ∈ A, Vis visited u ∧ distE nodes from_node u d) ∧
      (∀ u ∈ B, Vis visited u ∧ distE nodes from_node u (d + 1))) →
    (∀ u, u < nodes.length → distLe nodes d from_node u = true →
      Vis visited u) →
    (∀ j, j ≤ d → ∃ u, u < nodes.length ∧ distE nodes from_node u j) →
    ((∃ h k, bfsLoop nodes from_node destination fuel visited parent qu = some h ∧
        h ∈ adjOf nodes from_node ∧
        distLe nodes (k + 1) from_node destination = true ∧
        distLe nodes k from_node destination = false ∧
        distLe nodes k h destination = true)
      ∨ (bfsLoop nodes from_node destination fuel visited parent qu = none ∧
          ∀ k, distLe nodes k from_node destination = false)) := by
  intro fuel
  induction fuel with
  | zero =>
    intro visited parent qu d hlen hplen hfuel h4 h5 h6 h7 h8 h9 h13 h10 h11 h12
    have hq0 : qu = [] := List.length_eq_zero.mp (by omega)
    subst hq0
    have hred : bfsLoop nodes from_node destination 0 visited parent [] = none := rfl
    right
    refine ⟨hred, ?_⟩
    have hcl : ∀ v, Vis visited v → ∀ w ∈ adjOf nodes v, Vis visited w := by
      intro v hv
      rcases h9 v hv with h | h
      · exact absurd h (by simp)
      · exact h
    intro k
    cases hres : distLe nodes k from_node destination
    · rfl
    · have hVd : Vis visited destination := distLe_closed h4 hcl k destination hres
      exact absurd (h13 hVd) (by simp)
  | succ fuel ih =>
    intro visited parent qu d hlen hplen hfuel h4 h5 h6 h7 h8 h9 h13 h10 h11 h12
    match qu with
    | [] =>
      have hred : bfsLoop nodes from_node destination (fuel + 1) visited parent []
          = none := by
        conv_lhs => rw [bfsLoop]
      right
      refine ⟨hred, ?_⟩
      have hcl : ∀ v, Vis visited v → ∀ w ∈ adjOf nodes v, Vis visited w := by
        intro v hv
        rcases h9 v hv with h | h
        · exact absurd h (by simp)
        · exact h
      intro k
      cases hres : distLe nodes k from_node destination
      · rfl
      · have hVd : Vis visited destination := distLe_closed h4 hcl k destination hres
        exact absurd (h13 hVd) (by simp)
    | curr :: rest =>
      obtain ⟨A, B, hq, hA, hB⟩ := h10
      have hnorm : ∃ d' A1 B1, Vis visited curr ∧ distE nodes from_node curr d' ∧
          rest = A1 ++ B1 ∧
          (∀ u ∈ A1, Vis visited u ∧ distE nodes from_node u d') ∧
          (∀ u ∈ B1, Vis visited u ∧ distE nodes from_node u (d' + 1)) ∧
          (∀ u, u < nodes.length → distLe nodes d' from_node u = true →
            Vis visited u) ∧
          (∀ j, j ≤ d' → ∃ u, u < nodes.length ∧ distE nodes from_node u j) := by
        rcases A with _ | ⟨a0, A1⟩
        · have hqB : curr :: rest = B := by simpa using hq
          have hcurr := hB curr (by rw [← hqB]; simp)
          have hrestB : ∀ u ∈ rest, Vis visited u ∧
              distE nodes from_node u (d + 1) := by
            intro u hu
            exact hB u (by rw [← hqB]; simp [hu])
          refine ⟨d + 1, rest, [], hcurr.1, hcurr.2, by simp, hrestB, by simp,
            ?_, ?_⟩
          · intro u hu hle
            rcases distLe_back d from_node u hle with h1 | ⟨w, h2, h3⟩
            · exact h11 u hu h1
            · have hwlt : w < nodes.length := by
                rcases distLe_snd_lt hwf d from_node w h2 with h' | h'
                · rw [← h']
                  exact hfrom
                · exact h'
              have hVw : Vis visited w := h11 w hwlt h2
              rcases h9 w hVw with hin | hsc
              · have hwB : w ∈ B := by rw [← hqB]; exact hin
                have hEw := (hB w hwB).2
                exact absurd h2 (by simp [hEw.2 d (by omega)])
              · exact hsc u h3
          · intro j hj
            by_cases hjd : j ≤ d
            · exact h12 j hjd
            · have hje : j = d + 1 := by omega
              subst hje
              exact ⟨curr, h8 curr hcurr.1, hcurr.2⟩
        · have h' : curr :: rest = a0 :: (A1 ++ B) := by simpa using hq
          obtain ⟨hc1, hc2⟩ := List.cons_eq_cons.mp h'
          have hcA := hA a0 (by simp)
          rw [← hc1] at hcA
          exact ⟨d, A1, B, hcA.1, hcA.2, hc2,
            fun u hu => hA u (by simp [hu]), hB, h11, h12⟩
      obtain ⟨d', A1, B1, hVcurr, hEcurr, hrest, hA1, hB1, h11', h12'⟩ := hnorm
      by_cases hcd : curr = destination
      · have hred : bfsLoop nodes from_node destination (fuel + 1) visited parent
            (curr :: rest)
            = some (walkParents parent from_node nodes.length destination) := by
          conv_lhs => rw [bfsLoop]
          rw [if_pos hcd]
        have hVdest : Vis visited destination := hcd ▸ hVcurr
        have hEdest : distE nodes from_node destination d' := hcd ▸ hEcurr
        have hd1 : 1 ≤ d' := by
          by_contra h0
          have hd0 : d' = 0 := by omega
          rw [hd0] at hEdest
          have h00 := hEdest.1
          rw [distLe_zero] at h00
          have : from_node = destination := by simpa using h00
          exact hdf this.symm
        have hdlt : d' < nodes.length :=
          level_count_lt nodes.length d' (fun j u => distE nodes from_node u j)
            h12' (fun j j' u _ _ hj hj' => distE_unique hj hj')
        have hwalk := walkParents_spec h6 h7 d' destination nodes.length
          (by omega) hVdest hEdest hd1
        left
        refine ⟨walkParents parent from_node nodes.length destination, d' - 1,
          hred, hwalk.1, ?_, hEdest.2 (d' - 1) (by omega), hwalk.2⟩
        have hm : d' - 1 + 1 = d' := by omega
        rw [hm]
        exact hEdest.1
      · have hbnd : ∀ nb ∈ adjOf nodes curr,
            nb < visited.length ∧ nb < parent.length := by
          intro nb hnb
          have := adjOf_lt hwf curr nb hnb
          omega
        obtain ⟨s1, s2, s3, s4, s5, s6, s7, s8, s9, s10⟩ :=
          bfsScan_facts curr (adjOf nodes curr) visited parent rest hbnd
        rcases hsc : bfsScan curr (adjOf nodes curr) visited parent rest
          with ⟨V', P', Q'⟩
        rw [hsc] at s1 s2 s3 s4 s5 s6 s7 s8 s9 s10
        have s1' : V'.length = visited.length := s1
        have s2' : P'.length = parent.length := s2
        have s3' : ∀ j, Vis visited j → Vis V' j := s3
        have s4' : ∀ j, Vis V' j → Vis visited j ∨ j ∈ adjOf nodes curr := s4
        have s5' : ∀ u, (¬ Vis V' u ∨ Vis visited u) →
            P'.getD u none = parent.getD u none := s5
        have s6' : ∀ u, Vis V' u → ¬ Vis visited u →
            P'.getD u none = some curr ∧ u ∈ adjOf nodes curr := s6
        have s8' : 2 * V'.count false + Q'.length
            ≤ 2 * visited.count false + rest.length := s8
        have s9' : ∀ w ∈ adjOf nodes curr, Vis V' w := s9
        have s10' : ∀ u, Vis V' u → ¬ Vis visited u → u ∈ Q' := s10
        have hred : bfsLoop nodes from_node destination (fuel + 1) visited parent
            (curr :: rest) = bfsLoop nodes from_node destination fuel V' P' Q' := by
          conv_lhs => rw [bfsLoop]
          rw [if_neg hcd, hsc]
        rw [hred]
        have hNM : ∀ u, Vis V' u → ¬ Vis visited u →
            u ∈ adjOf nodes curr ∧ distE nodes from_node u (d' + 1) := by
          intro u hu hnu
          have hmem : u ∈ adjOf nodes curr := by
            rcases s4' u hu with h | h
            · exact absurd h hnu
            · exact h
          refine ⟨hmem, distLe_extend d' from_node curr u hEcurr.1 hmem, ?_⟩
          intro j hj
          cases hres : distLe nodes j from_node u
          · rfl
          · exfalso
            have hdle : distLe nodes d' from_node u = true :=
              distLe_of_le d' j from_node u (by omega) hres
            exact hnu (h11' u (adjOf_lt hwf curr u hmem) hdle)
        obtain ⟨new, hq', hnewp⟩ := s7
        have hq'' : Q' = rest ++ new := hq'
        have hnewp' : ∀ u ∈ new, Vis V' u ∧ ¬ Vis visited u ∧
            u ∈ adjOf nodes curr := hnewp
        apply ih V' P' Q' d'
        · rw [s1', hlen]
        · rw [s2', hplen]
        · have hql : (curr :: rest).length = rest.length + 1 := by simp
          omega
        · exact s3' from_node h4
        · rw [s5' from_node (Or.inr h4)]
          exact h5
        · intro u c hpc
          by_cases hVold : Vis visited u
          · have hpres : P'.getD u none = parent.getD u none := s5' u (Or.inr hVold)
            rw [hpres] at hpc
            obtain ⟨hu1, hu2, hu3, k, hk1, hk2⟩ := h6 u c hpc
            exact ⟨s3' u hu1, s3' c hu2, hu3, k, hk1, hk2⟩
          · by_cases hVnew : Vis V' u
            · obtain ⟨hpc', hmem⟩ := s6' u hVnew hVold
              have hceq : c = curr := Option.some.inj (hpc.symm.trans hpc')
              rw [hceq]
              exact ⟨hVnew, s3' curr hVcurr, (hNM u hVnew hVold).1, d', hEcurr,
                (hNM u hVnew hVold).2⟩
            · have hpres : P'.getD u none = parent.getD u none := s5' u (Or.inl hVnew)
              rw [hpres] at hpc
              exact absurd (h6 u c hpc).1 hVold
        · intro u hu
          by_cases hVold : Vis visited u
          · rcases h7 u hVold with he | ⟨c, hc⟩
            · exact Or.inl he
            · right
              refine ⟨c, ?_⟩
              rw [s5' u (Or.inr hVold)]
              exact hc
          · right
            exact ⟨curr, (s6' u hu hVold).1⟩
        · intro u hu
          by_cases hVold : Vis visited u
          · exact h8 u hVold
          · exact adjOf_lt hwf curr u (hNM u hu hVold).1
        · intro u hu
          by_cases hVold : Vis visited u
          · rcases h9 u hVold with hin | hscd
            · rcases (by simpa using hin : u = curr ∨ u ∈ rest) with h | h
              · subst h
                exact Or.inr s9'
              · left
                rw [hq'']
                simp [h]
            · right
              intro w hw
              exact s3' w (hscd w hw)
          · exact Or.inl (s10' u hu hVold)
        · intro hVd
          by_cases hVold : Vis visited destination
          · have hmem := h13 hVold
            rcases (by simpa using hmem : destination = curr ∨ destination ∈ rest)
              with h | h
            · exact absurd h.symm hcd
            · rw [hq'']
              simp [h]
          · exact s10' destination hVd hVold
        · refine ⟨A1, B1 ++ new, ?_, ?_, ?_⟩
          · rw [hq'', hrest, List.append_assoc]
          · intro u hu
            obtain ⟨hv, he⟩ := hA1 u hu
            exact ⟨s3' u hv, he⟩
          · intro u hu
            rcases List.mem_append.mp hu with h | h
            · obtain ⟨hv, he⟩ := hB1 u h
              exact ⟨s3' u hv, he⟩
            · obtain ⟨p1, p2, _⟩ := hnewp' u h
              exact ⟨p1, (hNM u p1 p2).2⟩
        · intro u hu hle
          exact s3' u (h11' u hu hle)
        · exact h12'

/-- **C4** counterexample: with two nodes 0 ⇄ 1 and
`destination = from_node = 0` — reachable, not a direct neighbour of itself,
and outgoing edges exist — the claim promises the first hop of some shortest
directed path, but `find_best_next_hop` pops `from_node` itself off the BFS
queue, its parent pointer is still -1, and the parent walk returns
`from_node`: a node that is not even adjacent to `from_node`. -/
theorem C4_router_counterexample :
    find_best_next_hop cx4Nodes 0 0 = some 0 ∧
    0 ∉ adjOf cx4Nodes 0 ∧
    adjOf cx4Nodes 0 ≠ [] ∧
    ReachableL cx4Nodes 0 0 := by
  refine ⟨by decide, by decide, by decide, ⟨0, by decide⟩⟩

/-- **C4** (amended): for well-formed adjacency lists `find_best_next_hop`
returns `none` iff `from_node` has no adjacency list; returns the
destination when it is a direct neighbour; when the destination is not a
direct neighbour, differs from `from_node`, and is reachable, it returns a
first hop of a SHORTEST directed path (a neighbour `h` with
`dist(from, dest) = k + 1` and `dist(h, dest) ≤ k`); and when the
destination is unreachable it falls back to the first adjacent node.  The
original claim is false at `destination = from_node`. -/
theorem C4_router_amended (nodes : List NodeData) (hwf : WFAdj nodes)
    (from_node destination : Nat) :
    (find_best_next_hop nodes from_node destination = none ↔
      adjOf nodes from_node = []) ∧
    (destination ∈ adjOf nodes from_node →
      find_best_next_hop nodes from_node destination = some destination) ∧
    (adjOf nodes from_node ≠ [] → destination ∉ adjOf nodes from_node →
      ReachableL nodes from_node destination → destination ≠ from_node →
      ∃ h k, find_best_next_hop nodes from_node destination = some h ∧
        h ∈ adjOf nodes from_node ∧
        distLe nodes (k + 1) from_node destination = true ∧
        distLe nodes k from_node destination = false ∧
        distLe nodes k h destination = true) ∧
    (adjOf nodes from_node ≠ [] → destination ∉ adjOf nodes from_node →
      ¬ ReachableL nodes from_node destination →
      find_best_next_hop nodes from_node destination
        = some ((adjOf nodes from_node).headD 0)) := by
  by_cases hfn : from_node < nodes.length
  case neg =>
    have hge : nodes.length ≤ from_node := not_lt.mp hfn
    have hadj : adjOf nodes from_node = [] := adjOf_oob nodes from_node hge
    have hred : find_best_next_hop nodes from_node destination = none := by
      simp only [find_best_next_hop]
      rw [if_pos (by omega : from_node ≥ nodes.length)]
    refine ⟨iff_of_true hred hadj, ?_, ?_, ?_⟩
    · intro hmem
      rw [hadj] at hmem
      exact absurd hmem (by simp)
    · intro hne
      exact absurd hadj hne
    · intro hne
      exact absurd hadj hne
  case pos =>
    by_cases hadjE : adjOf nodes from_node = []
    · have hred : find_best_next_hop nodes from_node destination = none := by
        simp only [find_best_next_hop]
        rw [if_neg (by omega : ¬ from_node ≥ nodes.length), hadjE]
        rfl
      refine ⟨iff_of_true hred hadjE, ?_, ?_, ?_⟩
      · intro hmem
        rw [hadjE] at hmem
        exact absurd hmem (by simp)
      · intro hne
        exact absurd hadjE hne
      · intro hne
        exact absurd hadjE hne
    · have hie : ¬ ((adjOf nodes from_node).isEmpty = true) := by
        cases hl : adjOf nodes from_node with
        | nil => exact absurd hl hadjE
        | cons x xs => simp
      by_cases hmem : destination ∈ adjOf nodes from_node
      · have hred : find_best_next_hop nodes from_node destination
            = some destination := by
          simp only [find_best_next_hop]
          rw [if_neg (by omega : ¬ from_node ≥ nodes.length), if_neg hie,
            if_pos hmem]
        refine ⟨?_, fun _ => hred, ?_, ?_⟩
        · exact iff_of_false (by simp [hred]) hadjE
        · intro _ hnm
          exact absurd hmem hnm
        · intro _ hnm
          exact absurd hmem hnm
      · have hmatch : find_best_next_hop nodes from_node destination
            = match bfsLoop nodes from_node destination (2 * nodes.length + 1)
                ((List.replicate nodes.length false).set from_node true)
                (List.replicate nodes.length none) [from_node] with
              | some nxt => some nxt
              | none => some ((adjOf nodes from_node).headD 0) := by
          simp only [find_best_next_hop]
          rw [if_neg (by omega : ¬ from_node ≥ nodes.length), if_neg hie,
            if_neg hmem]
        have hmain : ∀ _ : destination ≠ from_node,
            (∃ h k, bfsLoop nodes from_node destination (2 * nodes.length + 1)
                ((List.replicate nodes.length false).set from_node true)
                (List.replicate nodes.length none) [from_node] = some h ∧
              h ∈ adjOf nodes from_node ∧
              distLe nodes (k + 1) from_node destination = true ∧
              distLe nodes k from_node destination = false ∧
              distLe nodes k h destination = true)
            ∨ (bfsLoop nodes from_node destination (2 * nodes.length + 1)
                ((List.replicate nodes.length false).set from_node true)
                (List.replicate nodes.length none) [from_node] = none ∧
              ∀ k, distLe nodes k from_node destination = false) := by
          intro hdf
          apply bfsLoop_master nodes hwf from_node destination hfn hdf
            (2 * nodes.length + 1)
            ((List.replicate nodes.length false).set from_node true)
            (List.replicate nodes.length none) [from_node] 0
          · simp
          · simp
          · have hcle : ((List.replicate nodes.length false).set
                from_node true).count false
                ≤ nodes.length := by
              calc ((List.replicate nodes.length false).set
                  from_node true).count false
                  ≤ ((List.replicate nodes.length false).set
                      from_node true).length := List.count_le_length _ _
                _ = nodes.length := by simp
            simp only [List.length_cons, List.length_nil]
            omega
          · exact (vis_init nodes.length from_node from_node hfn).mpr rfl
          · exact getD_replicate_self nodes.length from_node none
          · intro u c h
            rw [getD_replicate_self] at h
            exact absurd h (by simp)
          · intro u hu
            exact Or.inl ((vis_init nodes.length from_node u hfn).mp hu)
          · intro u hu
            rw [(vis_init nodes.length from_node u hfn).mp hu]
            exact hfn
          · intro u hu
            exact Or.inl (by rw [(vis_init nodes.length from_node u hfn).mp hu]; simp)
          · intro hVd
            exact absurd ((vis_init nodes.length from_node destination hfn).mp hVd)
              hdf
          · refine ⟨[from_node], [], by simp, ?_, by simp⟩
            intro u hu
            have hue : u = from_node := by simpa using hu
            rw [hue]
            exact ⟨(vis_init nodes.length from_node from_node hfn).mpr rfl,
              by rw [distLe_zero]; simp, fun j hj => absurd hj (by omega)⟩
          · intro u hu hle
            rw [distLe_zero] at hle
            have he : from_node = u := by simpa using hle
            rw [← he]
            exact (vis_init nodes.length from_node from_node hfn).mpr rfl
          · intro j hj
            have hj0 : j = 0 := by omega
            subst hj0
            exact ⟨from_node, hfn, by rw [distLe_zero]; simp,
              fun l hl => absurd hl (by omega)⟩
        refine ⟨?_, fun hm => absurd hm hmem, ?_, ?_⟩
        · have hsome : ∃ z, find_best_next_hop nodes from_node destination
              = some z := by
            rw [hmatch]
            rcases bfsLoop nodes from_node destination (2 * nodes.length + 1)
                ((List.replicate nodes.length false).set from_node true)
                (List.replicate nodes.length none) [from_node] with _ | nxt
            · exact ⟨(adjOf nodes from_node).headD 0, rfl⟩
            · exact ⟨nxt, rfl⟩
          obtain ⟨z, hz⟩ := hsome
          exact iff_of_false (by simp [hz]) hadjE
        · intro _ _ hreach hdf
          rcases hmain hdf with ⟨h, k, hbf, hh, h1, h2, h3⟩ | ⟨hbf, hnone⟩
          · refine ⟨h, k, ?_, hh, h1, h2, h3⟩
            rw [hmatch, hbf]
          · obtain ⟨k, hk⟩ := hreach
            exact absurd hk (by simp [hnone k])
        · intro _ _ hnreach
          have hdf : destination ≠ from_node := by
            intro he
            exact hnreach ⟨0, by rw [he]; exact distLe_refl nodes 0 from_node⟩
          rcases hmain hdf with ⟨h, k, hbf, hh, h1, h2, h3⟩ | ⟨hbf, hnone⟩
          · exact absurd ⟨k + 1, h1⟩ hnreach
          · rw [hmatch, hbf]

/-- **C4** witness: the amended router theorem instantiated on the
four-node directed path 0 → 1 → 2 → 3. -/
theorem C4_router_amended_witness :
    WFAdj w4Nodes ∧
    ((find_best_next_hop w4Nodes 0 3 = none ↔ adjOf w4Nodes 0 = []) ∧
     (3 ∈ adjOf w4Nodes 0 → find_best_next_hop w4Nodes 0 3 = some 3) ∧
     (adjOf w4Nodes 0 ≠ [] → 3 ∉ adjOf w4Nodes 0 →
       ReachableL w4Nodes 0 3 → 3 ≠ 0 →
       ∃ h k, find_best_next_hop w4Nodes 0 3 = some h ∧
         h ∈ adjOf w4Nodes 0 ∧
         distLe w4Nodes (k + 1) 0 3 = true ∧
         distLe w4Nodes k 0 3 = false ∧
         distLe w4Nodes k h 3 = true) ∧
     (adjOf w4Nodes 0 ≠ [] → 3 ∉ adjOf w4Nodes 0 →
       ¬ ReachableL w4Nodes 0 3 →
       find_best_next_hop w4Nodes 0 3 = some ((adjOf w4Nodes 0).headD 0))) :=
  ⟨by unfold WFAdj; decide, C4_router_amended w4Nodes (by unfold WFAdj; decide) 0 3⟩

end Traffic
